import Mathlib

/-!
# Verification of the maze/pathfinding engine

Shallow embedding of the JavaScript pathfinding engine of this repository:
the `Maze` class (grid model, generation and editing operations) and the
`PathfindingAlgorithms` / `PriorityQueue` classes (DFS, BFS, Dijkstra, A*,
Greedy Best-First, Bidirectional BFS over a shared 4-directional grid).

Modelling conventions, used throughout:
* JavaScript numbers appearing in the engine are integers throughout
  (row/column indices, cell values 0/1, accumulated unit costs), so they are
  embedded as `Int`; the A* priority type is kept generic over an ordered ring
  so that both the integral Manhattan heuristic and the real-valued Euclidean
  heuristic are instances.
* A JS array row is a `List (Option Int)`; `none` models a hole / `undefined`.
  Writing past the end of an array extends it with holes; writing a negative
  index creates a non-index property, which no indexed read of the engine ever
  observes, and is modelled as a no-op.  Writing `grid[r][c]` when `grid[r]` is
  `undefined` throws a `TypeError`; operations that can throw return `Option`,
  `none` being the thrown exception.
* `Map`/`Set` objects keyed by the string `` `${row},${col}` `` are keyed by
  the `Coordinate` itself: the key encoding is injective on integer pairs.
* `while` loops are modelled with an explicit fuel argument; the fuel supplied
  by the top-level entry points is proved sufficient below.
* The wall-clock `time` field of a result and the `onVisit` animation callback
  (a pure observer the algorithms never read) are outside the embedding.
-/

/-- An ordered pair `{row, col}` used as a value and as a map/set key. -/
structure Coordinate where
  row : Int
  col : Int
deriving DecidableEq, Repr

/-- A JS grid: an array of row arrays, cells are numbers 0 (empty) / 1 (wall),
`none` is a hole / `undefined`. -/
abbrev JsGrid := List (List (Option Int))

/-- Read `l[i]` as JavaScript does: out-of-range and negative indices give
`undefined`. -/
def listGetI {α : Type} (l : List α) (i : Int) : Option α :=
  if i < 0 then none else l.get? i.toNat

/-- The `Maze` object: dimensions, grid, start and end coordinates.
The JS field `end` is a Lean keyword, so it is embedded as `endCoord`. -/
structure Maze where
  rows : Int
  cols : Int
  grid : JsGrid
  start : Coordinate
  endCoord : Coordinate
deriving DecidableEq, Repr

/-- Read `grid[r][c]`; `none` for holes and out-of-range reads (every indexed
read in the engine is either bounds-guarded or only compared against `1`,
where `undefined` and a hole behave alike). -/
def cellAt (m : Maze) (r c : Int) : Option Int :=
  match listGetI m.grid r with
  | none => none
  | some row => (listGetI row c).join

/-- Write `row[c] = v` on a single row array: in-range writes update, writes
past the end extend with holes, negative-index writes are property writes the
engine never reads back (a no-op here). -/
def setRowCell (row : List (Option Int)) (c : Int) (v : Int) : List (Option Int) :=
  if c < 0 then row
  else if c.toNat < row.length then row.set c.toNat (some v)
  else row ++ List.replicate (c.toNat - row.length) none ++ [some v]

/-- Write `grid[r][c] = v`: `none` models the `TypeError` thrown when
`grid[r]` is `undefined`. -/
def setCell (g : JsGrid) (r c : Int) (v : Int) : Option JsGrid :=
  if 0 ≤ r ∧ r.toNat < g.length then
    some (g.set r.toNat (setRowCell ((g.get? r.toNat).getD []) c v))
  else none

/-- Total wrapper for grid writes that are bounds-guarded by their caller
(`generateRandom`'s interior loop and `generatePerfect`'s carving, whose
indices are always in range, so the `none` branch is unreachable there). -/
def setCellD (g : JsGrid) (r c : Int) (v : Int) : JsGrid :=
  (setCell g r c v).getD g

/-- The border-walled grid built by the loop in `initGrid`. -/
def borderGrid (rows cols : Int) : JsGrid :=
  (List.range rows.toNat).map fun (i : Nat) =>
    (List.range cols.toNat).map fun (j : Nat) =>
      if (i : Int) = 0 ∨ (i : Int) = rows - 1 ∨ (j : Int) = 0 ∨ (j : Int) = cols - 1
      then some 1 else some 0

/-- Body of `initGrid` for given dimensions and start/end coordinates:
border walls, then the two clearing writes (each can throw). -/
def initGridOn (rows cols : Int) (s e : Coordinate) : Option JsGrid :=
  (setCell (borderGrid rows cols) s.row s.col 0).bind fun g1 =>
    setCell g1 e.row e.col 0

/-- `new Maze(rows, cols)`: fixes `start = (1,1)`, `end = (rows-2, cols-2)`
and runs `initGrid`; `none` models a thrown `TypeError`. -/
def mazeNew (rows cols : Int) : Option Maze :=
  (initGridOn rows cols ⟨1, 1⟩ ⟨rows - 2, cols - 2⟩).map fun g =>
    { rows := rows, cols := cols, grid := g, start := ⟨1, 1⟩,
      endCoord := ⟨rows - 2, cols - 2⟩ }

/-- The `initGrid` method (also `clear`), rebuilding the grid for the current
start/end coordinates. -/
def Maze.initGrid (m : Maze) : Option Maze :=
  (initGridOn m.rows m.cols m.start m.endCoord).map fun g => { m with grid := g }

/-- The `clear` method delegates to `initGrid`. -/
def Maze.clear (m : Maze) : Option Maze := m.initGrid

/-- The list of integers `a, a+1, …, b-1`, as iterated by a JS
`for (let i = a; i < b; i++)` loop. -/
def intRange (a b : Int) : List Int :=
  (List.range (b - a).toNat).map fun (k : Nat) => a + (k : Int)

/-- `generateRandom(wallProb)`: `initGrid`, then each interior non-start,
non-end cell becomes a wall with probability `wallProb`.  The sequence of
`Math.random() < wallProb` draws is abstracted into the oracle `coin`, one
independent boolean per visited cell. -/
def Maze.generateRandom (m : Maze) (coin : Int → Int → Bool) : Option Maze :=
  m.initGrid.map fun m1 =>
    { m1 with grid :=
        (intRange 1 (m1.rows - 1)).foldl (fun g i =>
          (intRange 1 (m1.cols - 1)).foldl (fun g2 j =>
            if (i = m1.start.row ∧ j = m1.start.col) ∨
                (i = m1.endCoord.row ∧ j = m1.endCoord.col) then g2
            else setCellD g2 i j (if coin i j then 1 else 0)) g) m1.grid }

/-- `getUnvisitedNeighbors(cell, step)`: the four `step`-offset coordinates
strictly inside the border whose cell still holds a wall (`=== 1`). -/
def Maze.getUnvisitedNeighbors (m : Maze) (cell : Coordinate) (step : Int) :
    List Coordinate :=
  [(-step, (0 : Int)), (step, 0), (0, -step), (0, step)].foldl
    (fun neighbors dir =>
      let newRow := cell.row + dir.1
      let newCol := cell.col + dir.2
      if 0 < newRow ∧ newRow < m.rows - 1 ∧ 0 < newCol ∧ newCol < m.cols - 1 ∧
          cellAt m newRow newCol = some 1
      then neighbors ++ [⟨newRow, newCol⟩] else neighbors) []

/-- The DFS carving loop of `generatePerfect`.  The JS stack keeps its top at
the high end of the array; here the list head is the stack top.  The
`Math.floor(Math.random() * neighbors.length)` draws are abstracted into the
oracle `rand` (counter `k` numbers the draws; any JS draw sequence is realised
by some `rand`).  The loop always terminates; `fuel` bounds the iterations. -/
def carveLoop (rand : Nat → Nat) : Nat → Nat → Maze → List Coordinate → Maze
  | _, 0, m, _ => m
  | k, fuel + 1, m, stack =>
    match stack with
    | [] => m
    | current :: rest =>
      let neighbors := m.getUnvisitedNeighbors current 2
      if neighbors.length = 0 then
        carveLoop rand k fuel m rest
      else
        let next := neighbors.getD (rand k % neighbors.length) ⟨0, 0⟩
        let midRow := current.row + (next.row - current.row) / 2
        let midCol := current.col + (next.col - current.col) / 2
        let g1 := setCellD m.grid midRow midCol 0
        let g2 := setCellD g1 next.row next.col 0
        carveLoop rand (k + 1) fuel { m with grid := g2 } (next :: rest)

/-- `generatePerfect()`: all-wall grid, DFS carving from `(1,1)`, then clear
the end cell.  `rand` abstracts the random draws, `fuel` the loop bound. -/
def Maze.generatePerfect (m : Maze) (rand : Nat → Nat) (fuel : Nat) : Maze :=
  let g0 : JsGrid :=
    (List.range m.rows.toNat).map fun _ => List.replicate m.cols.toNat (some 1)
  let m1 := { m with grid := setCellD g0 1 1 0 }
  let m2 := carveLoop rand 0 fuel m1 [⟨1, 1⟩]
  { m2 with grid := setCellD m2.grid m2.endCoord.row m2.endCoord.col 0 }

/-- `isValid(row, col)`: bounds check. -/
def Maze.isValid (m : Maze) (row col : Int) : Bool :=
  decide (0 ≤ row ∧ row < m.rows ∧ 0 ≤ col ∧ col < m.cols)

/-- `getNeighbors(row, col)`: of the four unit-offset coordinates, in the
fixed order up, down, left, right, those in bounds whose cell is not a wall
(`!== 1`, which `undefined` also satisfies). -/
def Maze.getNeighbors (m : Maze) (row col : Int) : List Coordinate :=
  [((-1 : Int), (0 : Int)), (1, 0), (0, -1), (0, 1)].foldl
    (fun neighbors dir =>
      let newRow := row + dir.1
      let newCol := col + dir.2
      if m.isValid newRow newCol = true ∧ cellAt m newRow newCol ≠ some 1
      then neighbors ++ [⟨newRow, newCol⟩] else neighbors) []

/-- `setWall(row, col, isWall)`: refuses the start/end coordinates, otherwise
writes the cell (`none` models the `TypeError` on an out-of-range row). -/
def Maze.setWall (m : Maze) (row col : Int) (isWall : Bool) : Option Maze :=
  if (row = m.start.row ∧ col = m.start.col) ∨
      (row = m.endCoord.row ∧ col = m.endCoord.col) then some m
  else (setCell m.grid row col (if isWall then 1 else 0)).map fun g =>
    { m with grid := g }

/-- `setStart(row, col)`: moves the start if `grid[row][col] !== 1`; reading
`grid[row]` out of range throws (`none`). -/
def Maze.setStart (m : Maze) (row col : Int) : Option Maze :=
  if 0 ≤ row ∧ row.toNat < m.grid.length then
    some (if cellAt m row col ≠ some 1 then { m with start := ⟨row, col⟩ } else m)
  else none

/-- `setEnd(row, col)`: moves the end if `grid[row][col] !== 1`; reading
`grid[row]` out of range throws (`none`). -/
def Maze.setEnd (m : Maze) (row col : Int) : Option Maze :=
  if 0 ≤ row ∧ row.toNat < m.grid.length then
    some (if cellAt m row col ≠ some 1 then { m with endCoord := ⟨row, col⟩ } else m)
  else none

/-! ## Heuristic library (`PathfindingAlgorithms` statics) -/

namespace PathfindingAlgorithms

/-- `manhattanDistance(a, b) = |Δrow| + |Δcol|`. -/
def manhattanDistance (a b : Coordinate) : Int :=
  |a.row - b.row| + |a.col - b.col|

/-- `euclideanDistance(a, b) = sqrt(Δrow² + Δcol²)` (real-valued). -/
noncomputable def euclideanDistance (a b : Coordinate) : ℝ :=
  Real.sqrt (((a.row - b.row : Int) : ℝ) ^ 2 + ((a.col - b.col : Int) : ℝ) ^ 2)

/-- The heuristic selection ternary in `astar`:
`heuristic === 'euclidean' ? euclideanDistance : manhattanDistance`.
Every selector other than `'euclidean'` — including `'chebyshev'` — falls back
to the Manhattan heuristic; no Chebyshev function exists in the engine. -/
noncomputable def heuristicFuncOf (heuristic : String) :
    Coordinate → Coordinate → ℝ :=
  if heuristic = "euclidean" then euclideanDistance
  else fun a b => ((manhattanDistance a b : Int) : ℝ)

end PathfindingAlgorithms

/-! ## PriorityQueue -/

/-- The `PriorityQueue` class: a plain array of `{item, priority}` records. -/
structure PriorityQueue (α : Type) (P : Type) where
  values : List (α × P)
deriving DecidableEq, Repr

/-- Insert an entry behind every entry of priority `≤` its own.  `enqueue`
pushes and then re-sorts with the stable `Array.prototype.sort` under the
comparator `a.priority - b.priority`; on the always-sorted `values` array this
is exactly stable insertion: existing entries keep their order and the new
entry lands after its equal-priority peers. -/
def insertByPriority {α P : Type} [LinearOrder P] :
    List (α × P) → α × P → List (α × P)
  | [], x => [x]
  | y :: tl, x => if x.2 < y.2 then x :: y :: tl else y :: insertByPriority tl x

/-- `enqueue(item, priority)`. -/
def PriorityQueue.enqueue {α P : Type} [LinearOrder P]
    (q : PriorityQueue α P) (item : α) (priority : P) : PriorityQueue α P :=
  ⟨insertByPriority q.values (item, priority)⟩

/-- `dequeue()`: `shift()?.item` — the front item, or `undefined` (`none`)
when the queue is empty; the remaining queue is returned alongside. -/
def PriorityQueue.dequeue {α P : Type} (q : PriorityQueue α P) :
    Option α × PriorityQueue α P :=
  ((q.values.head?).map Prod.fst, ⟨q.values.tail⟩)

/-- `isEmpty()`. -/
def PriorityQueue.isEmpty {α P : Type} (q : PriorityQueue α P) : Bool :=
  decide (q.values.length = 0)

/-! ## Result record and parent maps -/

/-- The result record `{path, nodesExplored, optimal, heuristic}` every
algorithm returns.  `path: null` is `none`; the `heuristic` field is only
present (`some`) on A* results.  The wall-clock `time` field is omitted. -/
structure RunResult where
  path : Option (List Coordinate)
  nodesExplored : Nat
  optimal : Bool
  heuristic : Option String
deriving DecidableEq, Repr

/-- A JS `Map` from coordinates, as an association list where `set` prepends,
so lookup finds the latest binding. -/
abbrev CoordMap (β : Type) := List (Coordinate × β)

/-- `map.get(key)`: the latest binding, or `undefined` (`none`). -/
def mapGet {β : Type} : CoordMap β → Coordinate → Option β
  | [], _ => none
  | e :: tl, k => if e.1 = k then some e.2 else mapGet tl k

/-- Parent maps drive path reconstruction. -/
abbrev ParentMap := CoordMap Coordinate

namespace PathfindingAlgorithms

/-- The `reconstructPath` loop, walking parents from `current` and unshifting
into the accumulated path; stops on reaching `start` or an absent parent
(`undefined`).  `fuel` bounds the loop; callers pass one more than the parent
map size, which the reconstruction lemmas prove sufficient. -/
def reconstructGo (parent : ParentMap) (s : Coordinate) :
    Option Coordinate → Nat → List Coordinate → List Coordinate
  | none, _, acc => acc
  | some _, 0, acc => acc
  | some c, fuel + 1, acc =>
    if c = s then c :: acc else reconstructGo parent s (mapGet parent c) fuel (c :: acc)

/-- `reconstructPath(parent, start, end)`. -/
def reconstructPath (parent : ParentMap) (s e : Coordinate) (fuel : Nat) :
    List Coordinate :=
  reconstructGo parent s (some e) fuel []

/-- The second loop of `reconstructBidirectionalPath`: walk the backward
parents from the meeting point, pushing onto the tail path, stopping at `end`
or an absent parent. -/
def reconstructEndGo (parentEnd : ParentMap) (e : Coordinate) :
    Option Coordinate → Nat → List Coordinate → List Coordinate
  | none, _, acc => acc
  | some _, 0, acc => acc
  | some c, fuel + 1, acc =>
    if c = e then acc ++ [c]
    else reconstructEndGo parentEnd e (mapGet parentEnd c) fuel (acc ++ [c])

/-- `reconstructBidirectionalPath(parentStart, parentEnd, start, meeting, end)`:
the forward chain from `start` to `meeting` concatenated with the backward
chain from `meeting`'s backward parent to `end`. -/
def reconstructBidirectionalPath (parentStart parentEnd : ParentMap)
    (s meeting e : Coordinate) (fuelS fuelE : Nat) : List Coordinate :=
  reconstructGo parentStart s (some meeting) fuelS [] ++
    reconstructEndGo parentEnd e (mapGet parentEnd meeting) fuelE []

end PathfindingAlgorithms

/-! ## Search algorithms

Each algorithm's `while` loop becomes a fuel recursion over a state record;
the state carries the borrowed `maze` object, and every exit returns it, so
the frame property (the maze is never mutated) is a theorem, not a convention.
JS `Array` frontiers: a stack has its top at the list head; a FIFO queue has
its front at the head and enqueues at the tail. -/

/-- Number of grid cells, the basis of the (proved sufficient) fuel bounds. -/
def cellCount (m : Maze) : Nat := m.rows.toNat * m.cols.toNat

/-- The shared neighbor-discovery loop of DFS/BFS and of each bidirectional
direction: unvisited neighbors are marked visited, given a parent, and
collected (in encounter order) for the frontier. -/
def discoverFold (current : Coordinate) :
    List Coordinate × ParentMap × List Coordinate → List Coordinate →
      List Coordinate × ParentMap × List Coordinate
  | acc, [] => acc
  | (vis, par, ns), neighbor :: tl =>
    if neighbor ∈ vis then discoverFold current (vis, par, ns) tl
    else discoverFold current
      (neighbor :: vis, (neighbor, current) :: par, ns ++ [neighbor]) tl

/-- State of the `dfs` / `bfs` loops. -/
structure FrontierState where
  maze : Maze
  frontier : List Coordinate
  visited : List Coordinate
  parent : ParentMap
  nodesExplored : Nat

namespace PathfindingAlgorithms

/-- The `dfs` loop: pop the stack top, count it, stop on the end coordinate,
otherwise push the unvisited neighbors (the last-pushed ends on top). -/
def dfsLoop : Nat → FrontierState → Option (RunResult × Maze)
  | 0, _ => none
  | fuel + 1, st =>
    match st.frontier with
    | [] => some ({ path := none, nodesExplored := st.nodesExplored,
                    optimal := false, heuristic := none }, st.maze)
    | current :: rest =>
      let n := st.nodesExplored + 1
      if current = st.maze.endCoord then
        some ({ path := some (reconstructPath st.parent st.maze.start
                  st.maze.endCoord (st.parent.length + 1)),
                nodesExplored := n, optimal := false, heuristic := none }, st.maze)
      else
        let upd := discoverFold current (st.visited, st.parent, [])
          (st.maze.getNeighbors current.row current.col)
        dfsLoop fuel { maze := st.maze, frontier := upd.2.2.reverse ++ rest,
                       visited := upd.1, parent := upd.2.1, nodesExplored := n }

/-- `dfs(maze)`. -/
def dfs (m : Maze) : Option (RunResult × Maze) :=
  dfsLoop (2 * cellCount m + 4)
    { maze := m, frontier := [m.start], visited := [m.start], parent := [],
      nodesExplored := 0 }

/-- The `bfs` loop: shift the queue front, count it, stop on the end
coordinate, otherwise append the unvisited neighbors to the queue tail. -/
def bfsLoop : Nat → FrontierState → Option (RunResult × Maze)
  | 0, _ => none
  | fuel + 1, st =>
    match st.frontier with
    | [] => some ({ path := none, nodesExplored := st.nodesExplored,
                    optimal := true, heuristic := none }, st.maze)
    | current :: rest =>
      let n := st.nodesExplored + 1
      if current = st.maze.endCoord then
        some ({ path := some (reconstructPath st.parent st.maze.start
                  st.maze.endCoord (st.parent.length + 1)),
                nodesExplored := n, optimal := true, heuristic := none }, st.maze)
      else
        let upd := discoverFold current (st.visited, st.parent, [])
          (st.maze.getNeighbors current.row current.col)
        bfsLoop fuel { maze := st.maze, frontier := rest ++ upd.2.2,
                       visited := upd.1, parent := upd.2.1, nodesExplored := n }

/-- `bfs(maze)`. -/
def bfs (m : Maze) : Option (RunResult × Maze) :=
  bfsLoop (2 * cellCount m + 4)
    { maze := m, frontier := [m.start], visited := [m.start], parent := [],
      nodesExplored := 0 }

end PathfindingAlgorithms

/-- State of the `dijkstra` loop. -/
structure DijkstraState where
  maze : Maze
  distances : CoordMap Int
  parent : ParentMap
  visited : List Coordinate
  pq : PriorityQueue Coordinate Int
  nodesExplored : Nat

/-- The relaxation loop of `dijkstra`: each neighbor reached more cheaply than
any recorded distance gets its distance and parent overwritten and is
re-enqueued keyed by the new distance. -/
def relaxFold (current : Coordinate) (dcur : Int) :
    CoordMap Int × ParentMap × PriorityQueue Coordinate Int → List Coordinate →
      CoordMap Int × ParentMap × PriorityQueue Coordinate Int
  | acc, [] => acc
  | (dist, par, pq), neighbor :: tl =>
    let newDist := dcur + 1
    let relax : Bool :=
      match mapGet dist neighbor with
      | none => true
      | some d => decide (newDist < d)
    if relax then
      relaxFold current dcur
        ((neighbor, newDist) :: dist, (neighbor, current) :: par,
          pq.enqueue neighbor newDist) tl
    else relaxFold current dcur (dist, par, pq) tl

namespace PathfindingAlgorithms

/-- The `dijkstra` loop: dequeue the cheapest entry, skip it if already
visited (a stale entry), otherwise mark it visited, count it, stop on the end
coordinate, and relax its neighbors.  `distances.get(currentKey)` is always
present for a dequeued coordinate (an invariant proved below); the `getD 0`
default mirrors that unreachable `undefined`. -/
def dijkstraLoop : Nat → DijkstraState → Option (RunResult × Maze)
  | 0, _ => none
  | fuel + 1, st =>
    match st.pq.values with
    | [] => some ({ path := none, nodesExplored := st.nodesExplored,
                    optimal := true, heuristic := none }, st.maze)
    | (current, _) :: restPQ =>
      if current ∈ st.visited then
        dijkstraLoop fuel { st with pq := ⟨restPQ⟩ }
      else
        let n := st.nodesExplored + 1
        if current = st.maze.endCoord then
          some ({ path := some (reconstructPath st.parent st.maze.start
                    st.maze.endCoord (st.parent.length + 1)),
                  nodesExplored := n, optimal := true, heuristic := none }, st.maze)
        else
          let upd := relaxFold current ((mapGet st.distances current).getD 0)
            (st.distances, st.parent, ⟨restPQ⟩)
            (st.maze.getNeighbors current.row current.col)
          dijkstraLoop fuel
            { maze := st.maze, distances := upd.1, parent := upd.2.1,
              visited := current :: st.visited, pq := upd.2.2, nodesExplored := n }

/-- `dijkstra(maze)`. -/
def dijkstra (m : Maze) : Option (RunResult × Maze) :=
  dijkstraLoop (5 * cellCount m + 7)
    { maze := m, distances := [(m.start, 0)], parent := [], visited := [],
      pq := ⟨[(m.start, 0)]⟩, nodesExplored := 0 }

end PathfindingAlgorithms

/-- State of the `astar` loop; `P` is the priority type, an ordered ring so
that the integral g-scores embed and both the Manhattan (`P = ℤ`, exact) and
Euclidean (`P = ℝ`) heuristics are instances. -/
structure AstarState (P : Type) where
  maze : Maze
  gScore : CoordMap Int
  fScore : CoordMap P
  parent : ParentMap
  visited : List Coordinate
  pq : PriorityQueue Coordinate P
  nodesExplored : Nat

/-- The relaxation loop of `astar`: a neighbor reached with a smaller
tentative g-score gets parent/g/f overwritten and is re-enqueued keyed by the
just-stored f-score (`pq.enqueue(neighbor, fScore.get(neighborKey))`). -/
def astarRelaxFold {P : Type} [LinearOrderedRing P]
    (hfun : Coordinate → Coordinate → P) (goal : Coordinate)
    (current : Coordinate) (gcur : Int) :
    CoordMap Int × CoordMap P × ParentMap × PriorityQueue Coordinate P →
      List Coordinate →
      CoordMap Int × CoordMap P × ParentMap × PriorityQueue Coordinate P
  | acc, [] => acc
  | (g, f, par, pq), neighbor :: tl =>
    let tentativeG := gcur + 1
    let relax : Bool :=
      match mapGet g neighbor with
      | none => true
      | some gn => decide (tentativeG < gn)
    if relax then
      let h := hfun neighbor goal
      let fNew : CoordMap P := (neighbor, (tentativeG : P) + h) :: f
      astarRelaxFold hfun goal current gcur
        ((neighbor, tentativeG) :: g, fNew, (neighbor, current) :: par,
          pq.enqueue neighbor ((mapGet fNew neighbor).getD ((tentativeG : P) + h))) tl
    else astarRelaxFold hfun goal current gcur (g, f, par, pq) tl

namespace PathfindingAlgorithms

/-- The `astar` loop, generic in the heuristic function (the string selector
is resolved by `heuristicFuncOf`; `heurName` is echoed into the result).
Structure mirrors `dijkstraLoop` with f-scored priorities. -/
def astarLoop {P : Type} [LinearOrderedRing P]
    (hfun : Coordinate → Coordinate → P) (heurName : String) :
    Nat → AstarState P → Option (RunResult × Maze)
  | 0, _ => none
  | fuel + 1, st =>
    match st.pq.values with
    | [] => some ({ path := none, nodesExplored := st.nodesExplored,
                    optimal := true, heuristic := some heurName }, st.maze)
    | (current, _) :: restPQ =>
      if current ∈ st.visited then
        astarLoop hfun heurName fuel { st with pq := ⟨restPQ⟩ }
      else
        let n := st.nodesExplored + 1
        if current = st.maze.endCoord then
          some ({ path := some (reconstructPath st.parent st.maze.start
                    st.maze.endCoord (st.parent.length + 1)),
                  nodesExplored := n, optimal := true,
                  heuristic := some heurName }, st.maze)
        else
          let upd := astarRelaxFold hfun st.maze.endCoord current
            ((mapGet st.gScore current).getD 0)
            (st.gScore, st.fScore, st.parent, ⟨restPQ⟩)
            (st.maze.getNeighbors current.row current.col)
          astarLoop hfun heurName fuel
            { maze := st.maze, gScore := upd.1, fScore := upd.2.1,
              parent := upd.2.2.1, visited := current :: st.visited,
              pq := upd.2.2.2, nodesExplored := n }

/-- `astar(maze, onVisit, heuristic)` with the selected heuristic function
made explicit; `gScore[start] = 0`, `fScore[start] = h(start, end)`, and the
start is enqueued at its f-score. -/
def astar {P : Type} [LinearOrderedRing P]
    (hfun : Coordinate → Coordinate → P) (heurName : String) (m : Maze) :
    Option (RunResult × Maze) :=
  astarLoop hfun heurName (5 * cellCount m + 7)
    { maze := m, gScore := [(m.start, 0)],
      fScore := [(m.start, hfun m.start m.endCoord)], parent := [], visited := [],
      pq := ⟨[(m.start, hfun m.start m.endCoord)]⟩, nodesExplored := 0 }

/-- `astar` exactly as invocable from JS: the string selector resolved by the
source ternary (`'euclidean'` chooses the Euclidean heuristic, anything else
Manhattan), priorities being real numbers. -/
noncomputable def astarJS (m : Maze) (heuristic : String) :
    Option (RunResult × Maze) :=
  astar (heuristicFuncOf heuristic) heuristic m

end PathfindingAlgorithms

/-- State of the `greedy` loop. -/
structure GreedyState where
  maze : Maze
  parent : ParentMap
  visited : List Coordinate
  pq : PriorityQueue Coordinate Int
  nodesExplored : Nat

/-- The discovery loop of `greedy`: unvisited neighbors are marked, given a
parent, and enqueued keyed by their Manhattan distance to the goal. -/
def greedyFold (goal : Coordinate) (current : Coordinate) :
    List Coordinate × ParentMap × PriorityQueue Coordinate Int →
      List Coordinate →
      List Coordinate × ParentMap × PriorityQueue Coordinate Int
  | acc, [] => acc
  | (vis, par, pq), neighbor :: tl =>
    if neighbor ∈ vis then greedyFold goal current (vis, par, pq) tl
    else greedyFold goal current
      (neighbor :: vis, (neighbor, current) :: par,
        pq.enqueue neighbor (PathfindingAlgorithms.manhattanDistance neighbor goal)) tl

namespace PathfindingAlgorithms

/-- The `greedy` loop: dequeue the entry of least heuristic, count it, stop on
the end coordinate, otherwise discover its unvisited neighbors (visited marked
on enqueue). -/
def greedyLoop : Nat → GreedyState → Option (RunResult × Maze)
  | 0, _ => none
  | fuel + 1, st =>
    match st.pq.values with
    | [] => some ({ path := none, nodesExplored := st.nodesExplored,
                    optimal := false, heuristic := none }, st.maze)
    | (current, _) :: restPQ =>
      let n := st.nodesExplored + 1
      if current = st.maze.endCoord then
        some ({ path := some (reconstructPath st.parent st.maze.start
                  st.maze.endCoord (st.parent.length + 1)),
                nodesExplored := n, optimal := false, heuristic := none }, st.maze)
      else
        let upd := greedyFold st.maze.endCoord current
          (st.visited, st.parent, ⟨restPQ⟩)
          (st.maze.getNeighbors current.row current.col)
        greedyLoop fuel
          { maze := st.maze, parent := upd.2.1, visited := upd.1,
            pq := upd.2.2, nodesExplored := n }

/-- `greedy(maze)`: the start enters visited and the queue up front. -/
def greedy (m : Maze) : Option (RunResult × Maze) :=
  greedyLoop (2 * cellCount m + 4)
    { maze := m, parent := [], visited := [m.start],
      pq := ⟨[(m.start, manhattanDistance m.start m.endCoord)]⟩,
      nodesExplored := 0 }

end PathfindingAlgorithms

/-- State of the `bidirectional` loop: two FIFO queues, visited sets and
parent maps, one per direction. -/
structure BidiState where
  maze : Maze
  queueStart : List Coordinate
  queueEnd : List Coordinate
  visitedStart : List Coordinate
  visitedEnd : List Coordinate
  parentStart : ParentMap
  parentEnd : ParentMap
  nodesExplored : Nat

namespace PathfindingAlgorithms

/-- The meeting-point result of `bidirectional`. -/
def bidiMeet (st : BidiState) (meeting : Coordinate) (n : Nat) :
    Option (RunResult × Maze) :=
  some ({ path := some (reconstructBidirectionalPath st.parentStart st.parentEnd
            st.maze.start meeting st.maze.endCoord
            (st.parentStart.length + 1) (st.parentEnd.length + 1)),
          nodesExplored := n, optimal := true, heuristic := none }, st.maze)

/-- The `bidirectional` loop: while both queues are non-empty, expand one node
from the start side (stopping if it was already discovered by the end side),
then one node from the end side (stopping if it was already discovered by the
start side, including discoveries made in the first half of this iteration). -/
def bidiLoop : Nat → BidiState → Option (RunResult × Maze)
  | 0, _ => none
  | fuel + 1, st =>
    match st.queueStart, st.queueEnd with
    | current :: restS, _ :: _ =>
      let n := st.nodesExplored + 1
      if current ∈ st.visitedEnd then bidiMeet st current n
      else
        let upd := discoverFold current (st.visitedStart, st.parentStart, [])
          (st.maze.getNeighbors current.row current.col)
        let st1 : BidiState :=
          { st with queueStart := restS ++ upd.2.2, visitedStart := upd.1,
                    parentStart := upd.2.1, nodesExplored := n }
        match st1.queueEnd with
        | [] => bidiLoop fuel st1
        | current2 :: restE =>
          let n2 := st1.nodesExplored + 1
          if current2 ∈ st1.visitedStart then bidiMeet { st1 with nodesExplored := n2 } current2 n2
          else
            let upd2 := discoverFold current2 (st1.visitedEnd, st1.parentEnd, [])
              (st1.maze.getNeighbors current2.row current2.col)
            bidiLoop fuel
              { st1 with queueEnd := restE ++ upd2.2.2, visitedEnd := upd2.1,
                         parentEnd := upd2.2.1, nodesExplored := n2 }
    | _, _ =>
      some ({ path := none, nodesExplored := st.nodesExplored,
              optimal := true, heuristic := none }, st.maze)

/-- `bidirectional(maze)`: both endpoints seed their own queue and visited
set. -/
def bidirectional (m : Maze) : Option (RunResult × Maze) :=
  bidiLoop (2 * cellCount m + 4)
    { maze := m, queueStart := [m.start], queueEnd := [m.endCoord],
      visitedStart := [m.start], visitedEnd := [m.endCoord],
      parentStart := [], parentEnd := [], nodesExplored := 0 }

end PathfindingAlgorithms

/-! ## Specification-side predicates -/

/-- A coordinate denotes a walkable cell: in bounds and not a wall (the
criterion `getNeighbors` admits neighbors by). -/
def isWalkableCell (m : Maze) (c : Coordinate) : Bool :=
  m.isValid c.row c.col && decide (cellAt m c.row c.col ≠ some 1)

/-- There is a walk of exactly `n` neighbor steps from `a` to `b`. -/
def walkN (m : Maze) : Nat → Coordinate → Coordinate → Bool
  | 0, a, b => decide (a = b)
  | n + 1, a, b => (m.getNeighbors a.row a.col).any (fun c => walkN m n c b)

/-- `b` is reachable from `a` along neighbor steps. -/
def Reachable (m : Maze) (a b : Coordinate) : Prop :=
  ∃ n, walkN m n a b = true

/-- The walkable subgraph connects start and goal: the start cell is walkable
and some neighbor walk reaches the goal (all cells entered by a neighbor step
are walkable, so every cell of such a route is). -/
def WalkableRoute (m : Maze) : Prop :=
  isWalkableCell m m.start = true ∧ Reachable m m.start m.endCoord

/-- `d` is the true shortest-path distance from start to goal. -/
def IsShortest (m : Maze) (d : Nat) : Prop :=
  walkN m d m.start m.endCoord = true ∧
    ∀ k, walkN m k m.start m.endCoord = true → d ≤ k

/-- Two coordinates differ by exactly one unit in exactly one axis. -/
def Adjacent (a b : Coordinate) : Prop :=
  (|a.row - b.row| = 1 ∧ a.col = b.col) ∨ (a.row = b.row ∧ |a.col - b.col| = 1)

/-- A returned path is valid: starts at start, ends at goal, consecutive
coordinates adjacent, every coordinate walkable. -/
def ValidPath (m : Maze) (p : List Coordinate) : Prop :=
  p.head? = some m.start ∧ p.getLast? = some m.endCoord ∧
    List.Chain' Adjacent p ∧ ∀ c ∈ p, isWalkableCell m c = true

/-! ## Basic lemmas about the grid model -/

/-- The four candidate neighbor coordinates, in source order
up, down, left, right. -/
def fourNeighbors (row col : Int) : List Coordinate :=
  [⟨row - 1, col⟩, ⟨row + 1, col⟩, ⟨row, col - 1⟩, ⟨row, col + 1⟩]

theorem getNeighbors_eq_filter (m : Maze) (row col : Int) :
    m.getNeighbors row col = (fourNeighbors row col).filter (isWalkableCell m) := by
  have hw : ∀ r c : Int, (m.isValid r c = true ∧ cellAt m r c ≠ some 1) ↔
      isWalkableCell m ⟨r, c⟩ = true := by
    intro r c
    simp [isWalkableCell]
  have e1 : row + (-1 : Int) = row - 1 := by ring
  have e2 : col + (-1 : Int) = col - 1 := by ring
  have e3 : row + (0 : Int) = row := by ring
  have e4 : col + (0 : Int) = col := by ring
  show List.foldl _ _ _ = _
  simp only [List.foldl, fourNeighbors, List.filter_cons, List.filter_nil, e1, e2, e3, e4]
  simp only [hw]
  split_ifs <;> simp

theorem mem_getNeighbors (m : Maze) (row col : Int) (c : Coordinate) :
    c ∈ m.getNeighbors row col ↔
      c ∈ fourNeighbors row col ∧ isWalkableCell m c = true := by
  rw [getNeighbors_eq_filter, List.mem_filter]

theorem walkable_of_mem_getNeighbors {m : Maze} {row col : Int} {c : Coordinate}
    (h : c ∈ m.getNeighbors row col) : isWalkableCell m c = true :=
  ((mem_getNeighbors m row col c).1 h).2

theorem adjacent_of_mem_fourNeighbors {row col : Int} {c : Coordinate}
    (h : c ∈ fourNeighbors row col) : Adjacent ⟨row, col⟩ c := by
  simp only [fourNeighbors, List.mem_cons, List.not_mem_nil, or_false] at h
  rcases h with h | h | h | h <;> subst h
  · exact Or.inl ⟨by rw [show row - (row - 1) = (1 : Int) from by ring]; norm_num, rfl⟩
  · exact Or.inl ⟨by rw [show row - (row + 1) = (-1 : Int) from by ring]; norm_num, rfl⟩
  · exact Or.inr ⟨rfl, by rw [show col - (col - 1) = (1 : Int) from by ring]; norm_num⟩
  · exact Or.inr ⟨rfl, by rw [show col - (col + 1) = (-1 : Int) from by ring]; norm_num⟩

theorem adjacent_of_mem_getNeighbors {m : Maze} {row col : Int} {c : Coordinate}
    (h : c ∈ m.getNeighbors row col) : Adjacent ⟨row, col⟩ c :=
  adjacent_of_mem_fourNeighbors ((mem_getNeighbors m row col c).1 h).1

/-- Neighborhood is symmetric between walkable cells. -/
theorem mem_getNeighbors_symm {m : Maze} {a c : Coordinate}
    (ha : isWalkableCell m a = true) (h : c ∈ m.getNeighbors a.row a.col) :
    a ∈ m.getNeighbors c.row c.col := by
  rcases (mem_getNeighbors m a.row a.col c).1 h with ⟨hmem, hw⟩
  refine (mem_getNeighbors m c.row c.col a).2 ⟨?_, ha⟩
  obtain ⟨ar, ac⟩ := a
  obtain ⟨cr, cc⟩ := c
  simp only [fourNeighbors, List.mem_cons, List.not_mem_nil, or_false,
    Coordinate.mk.injEq] at hmem ⊢
  omega

/-! ## Walk lemmas -/

theorem walkN_zero {m : Maze} {a b : Coordinate} :
    walkN m 0 a b = true ↔ a = b := by simp [walkN]

theorem walkN_succ {m : Maze} {n : Nat} {a b : Coordinate} :
    walkN m (n + 1) a b = true ↔
      ∃ c ∈ m.getNeighbors a.row a.col, walkN m n c b = true := by
  simp [walkN, List.any_eq_true]

theorem walkN_snoc {m : Maze} {n : Nat} {a b c : Coordinate}
    (h : walkN m n a b = true) (hc : c ∈ m.getNeighbors b.row b.col) :
    walkN m (n + 1) a c = true := by
  induction n generalizing a with
  | zero => rw [walkN_zero] at h; subst h; exact walkN_succ.2 ⟨c, hc, walkN_zero.2 rfl⟩
  | succ k ih =>
    rcases walkN_succ.1 h with ⟨d, hd, hw⟩
    exact walkN_succ.2 ⟨d, hd, ih hw⟩

theorem walkN_walkable_last {m : Maze} {n : Nat} {a b : Coordinate}
    (h : walkN m (n + 1) a b = true) : isWalkableCell m b = true := by
  induction n generalizing a with
  | zero =>
    rcases walkN_succ.1 h with ⟨c, hc, hw⟩
    rw [walkN_zero] at hw; subst hw
    exact walkable_of_mem_getNeighbors hc
  | succ k ih =>
    rcases walkN_succ.1 h with ⟨c, hc, hw⟩
    exact ih hw

theorem walkN_reverse {m : Maze} {n : Nat} {a b : Coordinate}
    (h : walkN m n a b = true) (ha : isWalkableCell m a = true) :
    walkN m n b a = true := by
  induction n generalizing a with
  | zero => rw [walkN_zero] at h ⊢; exact h.symm
  | succ k ih =>
    rcases walkN_succ.1 h with ⟨c, hc, hw⟩
    have hcw : isWalkableCell m c = true := walkable_of_mem_getNeighbors hc
    exact walkN_snoc (ih hw hcw) (mem_getNeighbors_symm ha hc)

theorem walkN_trans {m : Maze} {n k : Nat} {a b c : Coordinate}
    (h1 : walkN m n a b = true) (h2 : walkN m k b c = true) :
    walkN m (n + k) a c = true := by
  induction n generalizing a with
  | zero => rw [walkN_zero] at h1; subst h1; simpa using h2
  | succ j ih =>
    rcases walkN_succ.1 h1 with ⟨d, hd, hw⟩
    have := ih hw
    have : walkN m (j + k + 1) a c = true := walkN_succ.2 ⟨d, hd, this⟩
    simpa [Nat.succ_add] using this

/-! ## Claim C6 -/

/-- C6: for every grid and coordinate, `getNeighbors` returns exactly those of
the four unit-offset coordinates (up, down, left, right) that are in bounds
and walkable, in that fixed source order; as a pure function of the maze and
coordinate it is identical on every call. -/
theorem C6_getNeighbors_spec (m : Maze) (row col : Int) :
    m.getNeighbors row col = (fourNeighbors row col).filter (isWalkableCell m) ∧
    (∀ c : Coordinate, c ∈ m.getNeighbors row col ↔
      (c = ⟨row - 1, col⟩ ∨ c = ⟨row + 1, col⟩ ∨ c = ⟨row, col - 1⟩ ∨
        c = ⟨row, col + 1⟩) ∧
      (0 ≤ c.row ∧ c.row < m.rows ∧ 0 ≤ c.col ∧ c.col < m.cols) ∧
      cellAt m c.row c.col ≠ some 1) := by
  refine ⟨getNeighbors_eq_filter m row col, fun c => ?_⟩
  rw [mem_getNeighbors]
  simp [fourNeighbors, isWalkableCell, Maze.isValid, and_assoc]

/-! ## Claim C5 -/

/-- Modelled from the spec: the Chebyshev distance
`max(|a.row−b.row|, |a.col−b.col|)` the Heuristic Library is claimed to
provide; no such function exists in the source. -/
def chebyshevSpec (a b : Coordinate) : Int :=
  max |a.row - b.row| |a.col - b.col|

/-- C5 counterexample: invoked with the selector `'chebyshev'`, A*'s heuristic
function evaluates `(0,0), (1,3)` to the Manhattan value `4`, not the
Chebyshev value `3`: the selection ternary knows only `'euclidean'` and falls
back to Manhattan for every other string, and the engine defines no Chebyshev
function. -/
theorem C5_counterexample :
    PathfindingAlgorithms.heuristicFuncOf "chebyshev" ⟨0, 0⟩ ⟨1, 3⟩ ≠
      ((chebyshevSpec ⟨0, 0⟩ ⟨1, 3⟩ : Int) : ℝ) ∧
    PathfindingAlgorithms.heuristicFuncOf "chebyshev" ⟨0, 0⟩ ⟨1, 3⟩ =
      ((PathfindingAlgorithms.manhattanDistance ⟨0, 0⟩ ⟨1, 3⟩ : Int) : ℝ) := by
  have hsel : ("chebyshev" = "euclidean") = False := by simp
  constructor
  · simp only [PathfindingAlgorithms.heuristicFuncOf, hsel, if_false]
    norm_num [PathfindingAlgorithms.manhattanDistance, chebyshevSpec]
  · simp only [PathfindingAlgorithms.heuristicFuncOf, hsel, if_false]

/-- C5 amended: the heuristic library provides two pure functions, Manhattan
(`|Δrow| + |Δcol|`) and Euclidean; there is no Chebyshev function, and A*
invoked with the selector `'chebyshev'` (or any selector other than
`'euclidean'`) uses the Manhattan heuristic. -/
theorem C5_heuristic_fallback :
    (∀ a b : Coordinate, PathfindingAlgorithms.heuristicFuncOf "chebyshev" a b =
      ((PathfindingAlgorithms.manhattanDistance a b : Int) : ℝ)) ∧
    (∀ a b : Coordinate, PathfindingAlgorithms.manhattanDistance a b =
      |a.row - b.row| + |a.col - b.col|) ∧
    (∀ a b : Coordinate, PathfindingAlgorithms.heuristicFuncOf "manhattan" a b =
      ((PathfindingAlgorithms.manhattanDistance a b : Int) : ℝ)) ∧
    (∀ a b : Coordinate, PathfindingAlgorithms.heuristicFuncOf "euclidean" a b =
      PathfindingAlgorithms.euclideanDistance a b) := by
  refine ⟨fun a b => ?_, fun a b => rfl, fun a b => ?_, fun a b => ?_⟩ <;>
    simp [PathfindingAlgorithms.heuristicFuncOf]

/-! ## Claim C7 -/

theorem borderGrid_length (rows cols : Int) :
    (borderGrid rows cols).length = rows.toNat := by
  unfold borderGrid
  rw [List.length_map, List.length_range]

theorem setCell_isSome (g : JsGrid) (r c v : Int) :
    (setCell g r c v).isSome ↔ 0 ≤ r ∧ r.toNat < g.length := by
  unfold setCell
  split_ifs with h <;> simp [h]

theorem setCell_length {g g' : JsGrid} {r c v : Int} (h : setCell g r c v = some g') :
    g'.length = g.length := by
  unfold setCell at h
  by_cases h1 : 0 ≤ r ∧ r.toNat < g.length
  · rw [if_pos h1] at h
    cases h
    simp
  · rw [if_neg h1] at h
    cases h

theorem mazeNew_isSome (rows cols : Int) :
    (mazeNew rows cols).isSome ↔ 2 ≤ rows := by
  unfold mazeNew initGridOn
  constructor
  · intro h
    rcases Option.isSome_iff_exists.1 h with ⟨mz, hmz⟩
    rcases Option.map_eq_some'.1 hmz with ⟨g, hg, _⟩
    rcases Option.bind_eq_some.1 hg with ⟨g1, hg1, _⟩
    have h1 : (0 : Int) ≤ 1 ∧ (1 : Int).toNat < (borderGrid rows cols).length :=
      (setCell_isSome _ _ _ _).1 (Option.isSome_iff_exists.2 ⟨g1, hg1⟩)
    rw [borderGrid_length] at h1
    omega
  · intro h
    have h1 : (setCell (borderGrid rows cols) 1 1 0).isSome := by
      rw [setCell_isSome, borderGrid_length]
      omega
    rcases Option.isSome_iff_exists.1 h1 with ⟨g1, hg1⟩
    have hlen : g1.length = rows.toNat := by
      rw [setCell_length hg1, borderGrid_length]
    have h2 : (setCell g1 (rows - 2) (cols - 2) 0).isSome := by
      rw [setCell_isSome, hlen]
      omega
    rcases Option.isSome_iff_exists.1 h2 with ⟨g2, hg2⟩
    simp [hg1, hg2]

theorem getNeighbors_of_cols_nonpos {m : Maze} (hc : m.cols ≤ 0) (r c : Int) :
    m.getNeighbors r c = [] := by
  rw [getNeighbors_eq_filter]
  apply List.filter_eq_nil_iff.2
  intro x hx
  simp only [isWalkableCell, Maze.isValid, Bool.and_eq_true, decide_eq_true_eq]
  rintro ⟨⟨h1, h2, h3, h4⟩, -⟩
  omega

/-- C7 counterexample: `new Maze(5, 0)` — zero columns — is accepted by the
constructor (no error of any kind is raised), and a subsequent `bfs` run on
the malformed maze quietly returns a null-path result. -/
theorem C7_counterexample :
    (mazeNew 5 0).isSome = true ∧
    ((mazeNew 5 0).bind PathfindingAlgorithms.bfs).map (fun p => p.1.path) =
      some none := by
  constructor
  · decide
  · decide

/-- C7 amended: Maze construction throws (a `TypeError` from the start-cell
clearing write, not an explicit validation) exactly when `rows ≤ 1`; a zero
(or negative) column count is accepted for any `rows ≥ 2`, and a search on
such a malformed maze does not fail at construction but runs and returns a
null-path result. -/
theorem C7_construction (rows cols : Int) :
    ((mazeNew rows cols).isSome ↔ 2 ≤ rows) ∧
    (2 ≤ rows → cols ≤ 0 →
      ∃ mz, mazeNew rows cols = some mz ∧
        PathfindingAlgorithms.bfs mz =
          some ({ path := none, nodesExplored := 1, optimal := true,
                  heuristic := none }, mz)) := by
  refine ⟨mazeNew_isSome rows cols, fun hr hc => ?_⟩
  rcases Option.isSome_iff_exists.1 ((mazeNew_isSome rows cols).2 hr) with ⟨mz, hmz⟩
  refine ⟨mz, hmz, ?_⟩
  rcases Option.map_eq_some'.1 hmz with ⟨g, _, hmz2⟩
  have hrows : mz.cols = cols ∧ mz.start = ⟨1, 1⟩ ∧ mz.endCoord = ⟨rows - 2, cols - 2⟩ := by
    rw [← hmz2]
    exact ⟨rfl, rfl, rfl⟩
  obtain ⟨hcols, hstart, hend⟩ := hrows
  have hcc : cellCount mz = 0 := by
    unfold cellCount
    rw [hcols]
    have : cols.toNat = 0 := Int.toNat_of_nonpos hc
    simp [this]
  have hne : ¬ mz.start = mz.endCoord := by
    rw [hstart, hend]
    intro h
    have := congrArg Coordinate.col h
    simp at this
    omega
  have hnb : mz.getNeighbors mz.start.row mz.start.col = [] :=
    getNeighbors_of_cols_nonpos (by rw [hcols]; exact hc) _ _
  unfold PathfindingAlgorithms.bfs
  rw [hcc]
  norm_num
  show PathfindingAlgorithms.bfsLoop 4 _ = _
  rw [PathfindingAlgorithms.bfsLoop]
  simp only [if_neg hne, hnb, discoverFold]
  rw [PathfindingAlgorithms.bfsLoop]
  simp

/-- C7 witness: the amended statement at `rows = 5`, `cols = 0`. -/
theorem C7_construction_witness :
    ((mazeNew 5 0).isSome ↔ (2 : Int) ≤ 5) ∧
    ((2 : Int) ≤ 5 → (0 : Int) ≤ 0 →
      ∃ mz, mazeNew 5 0 = some mz ∧
        PathfindingAlgorithms.bfs mz =
          some ({ path := none, nodesExplored := 1, optimal := true,
                  heuristic := none }, mz)) :=
  C7_construction 5 0

/-! ## Claim C4 -/

theorem reconstructPath_self (par : ParentMap) (s : Coordinate) (fuel : Nat) :
    PathfindingAlgorithms.reconstructPath par s s (fuel + 1) = [s] := by
  simp [PathfindingAlgorithms.reconstructPath, PathfindingAlgorithms.reconstructGo]

/-- C4: on any maze whose start equals its goal (a walkable cell), every one
of the seven algorithms returns `path = [start]` and `nodesExplored = 1`
(A* stated for every priority ring and heuristic function, covering both
selectable heuristics). -/
theorem C4_trivial_case (m : Maze) (hse : m.start = m.endCoord)
    (hwalk : isWalkableCell m m.start = true) :
    PathfindingAlgorithms.dfs m =
      some ({ path := some [m.start], nodesExplored := 1, optimal := false,
              heuristic := none }, m) ∧
    PathfindingAlgorithms.bfs m =
      some ({ path := some [m.start], nodesExplored := 1, optimal := true,
              heuristic := none }, m) ∧
    PathfindingAlgorithms.dijkstra m =
      some ({ path := some [m.start], nodesExplored := 1, optimal := true,
              heuristic := none }, m) ∧
    (∀ (P : Type) [LinearOrderedRing P] (hfun : Coordinate → Coordinate → P)
      (heurName : String),
      PathfindingAlgorithms.astar hfun heurName m =
        some ({ path := some [m.start], nodesExplored := 1, optimal := true,
                heuristic := some heurName }, m)) ∧
    PathfindingAlgorithms.greedy m =
      some ({ path := some [m.start], nodesExplored := 1, optimal := false,
              heuristic := none }, m) ∧
    PathfindingAlgorithms.bidirectional m =
      some ({ path := some [m.start], nodesExplored := 1, optimal := true,
              heuristic := none }, m) := by
  refine ⟨?_, ?_, ?_, ?_, ?_, ?_⟩
  · show PathfindingAlgorithms.dfsLoop (2 * cellCount m + 3 + 1) _ = _
    rw [PathfindingAlgorithms.dfsLoop]
    simp [hse, reconstructPath_self]
  · show PathfindingAlgorithms.bfsLoop (2 * cellCount m + 3 + 1) _ = _
    rw [PathfindingAlgorithms.bfsLoop]
    simp [hse, reconstructPath_self]
  · show PathfindingAlgorithms.dijkstraLoop (5 * cellCount m + 6 + 1) _ = _
    rw [PathfindingAlgorithms.dijkstraLoop]
    simp [hse, reconstructPath_self]
  · intro P inst hfun heurName
    show PathfindingAlgorithms.astarLoop hfun heurName (5 * cellCount m + 6 + 1) _ = _
    rw [PathfindingAlgorithms.astarLoop]
    simp [hse, reconstructPath_self]
  · show PathfindingAlgorithms.greedyLoop (2 * cellCount m + 3 + 1) _ = _
    rw [PathfindingAlgorithms.greedyLoop]
    simp [hse, reconstructPath_self]
  · show PathfindingAlgorithms.bidiLoop (2 * cellCount m + 3 + 1) _ = _
    rw [PathfindingAlgorithms.bidiLoop]
    simp [hse, PathfindingAlgorithms.bidiMeet,
      PathfindingAlgorithms.reconstructBidirectionalPath,
      PathfindingAlgorithms.reconstructGo, PathfindingAlgorithms.reconstructEndGo,
      mapGet]

/-- A tiny concrete maze whose start and goal coincide at the single interior
cell. -/
def trivialMaze : Maze :=
  { rows := 3, cols := 3, grid := borderGrid 3 3, start := ⟨1, 1⟩,
    endCoord := ⟨1, 1⟩ }

/-- C4 witness: the trivial-case theorem applied to `trivialMaze`. -/
theorem C4_trivial_case_witness :
    trivialMaze.start = trivialMaze.endCoord ∧
    isWalkableCell trivialMaze trivialMaze.start = true ∧
    PathfindingAlgorithms.bidirectional trivialMaze =
      some ({ path := some [trivialMaze.start], nodesExplored := 1,
              optimal := true, heuristic := none }, trivialMaze) ∧
    PathfindingAlgorithms.astar
        (fun a b => (PathfindingAlgorithms.manhattanDistance a b : Int)) "manhattan"
        trivialMaze =
      some ({ path := some [trivialMaze.start], nodesExplored := 1,
              optimal := true, heuristic := some "manhattan" }, trivialMaze) := by
  have h := C4_trivial_case trivialMaze (by decide) (by decide)
  exact ⟨by decide, by decide, h.2.2.2.2.2,
    h.2.2.2.1 Int (fun a b => PathfindingAlgorithms.manhattanDistance a b) "manhattan"⟩

/-! ## Claim C8 -/

theorem dfsLoop_maze :
    ∀ (fuel : Nat) (st : FrontierState) (r : RunResult) (mz : Maze),
      PathfindingAlgorithms.dfsLoop fuel st = some (r, mz) → mz = st.maze := by
  intro fuel
  induction fuel with
  | zero => intro st r mz h; simp [PathfindingAlgorithms.dfsLoop] at h
  | succ k ih =>
    intro st r mz h
    rw [PathfindingAlgorithms.dfsLoop] at h
    rcases hst : st.frontier with _ | ⟨current, rest⟩ <;> rw [hst] at h
    · simp at h
      exact h.2.symm
    · dsimp only at h
      split_ifs at h with hend
      · simp at h
        exact h.2.symm
      · exact (ih _ _ _ h).trans rfl

theorem bfsLoop_maze :
    ∀ (fuel : Nat) (st : FrontierState) (r : RunResult) (mz : Maze),
      PathfindingAlgorithms.bfsLoop fuel st = some (r, mz) → mz = st.maze := by
  intro fuel
  induction fuel with
  | zero => intro st r mz h; simp [PathfindingAlgorithms.bfsLoop] at h
  | succ k ih =>
    intro st r mz h
    rw [PathfindingAlgorithms.bfsLoop] at h
    rcases hst : st.frontier with _ | ⟨current, rest⟩ <;> rw [hst] at h
    · simp at h
      exact h.2.symm
    · dsimp only at h
      split_ifs at h with hend
      · simp at h
        exact h.2.symm
      · exact (ih _ _ _ h).trans rfl

theorem dijkstraLoop_maze :
    ∀ (fuel : Nat) (st : DijkstraState) (r : RunResult) (mz : Maze),
      PathfindingAlgorithms.dijkstraLoop fuel st = some (r, mz) → mz = st.maze := by
  intro fuel
  induction fuel with
  | zero => intro st r mz h; simp [PathfindingAlgorithms.dijkstraLoop] at h
  | succ k ih =>
    intro st r mz h
    rw [PathfindingAlgorithms.dijkstraLoop] at h
    rcases hst : st.pq.values with _ | ⟨⟨current, pri⟩, restPQ⟩ <;> rw [hst] at h
    · simp at h
      exact h.2.symm
    · dsimp only at h
      split_ifs at h with hvis hend
      · exact (ih _ _ _ h).trans rfl
      · simp at h
        exact h.2.symm
      · exact (ih _ _ _ h).trans rfl

theorem astarLoop_maze {P : Type} [LinearOrderedRing P]
    (hfun : Coordinate → Coordinate → P) (heurName : String) :
    ∀ (fuel : Nat) (st : AstarState P) (r : RunResult) (mz : Maze),
      PathfindingAlgorithms.astarLoop hfun heurName fuel st = some (r, mz) →
        mz = st.maze := by
  intro fuel
  induction fuel with
  | zero => intro st r mz h; simp [PathfindingAlgorithms.astarLoop] at h
  | succ k ih =>
    intro st r mz h
    rw [PathfindingAlgorithms.astarLoop] at h
    rcases hst : st.pq.values with _ | ⟨⟨current, pri⟩, restPQ⟩ <;> rw [hst] at h
    · simp at h
      exact h.2.symm
    · dsimp only at h
      split_ifs at h with hvis hend
      · exact (ih _ _ _ h).trans rfl
      · simp at h
        exact h.2.symm
      · exact (ih _ _ _ h).trans rfl

theorem greedyLoop_maze :
    ∀ (fuel : Nat) (st : GreedyState) (r : RunResult) (mz : Maze),
      PathfindingAlgorithms.greedyLoop fuel st = some (r, mz) → mz = st.maze := by
  intro fuel
  induction fuel with
  | zero => intro st r mz h; simp [PathfindingAlgorithms.greedyLoop] at h
  | succ k ih =>
    intro st r mz h
    rw [PathfindingAlgorithms.greedyLoop] at h
    rcases hst : st.pq.values with _ | ⟨⟨current, pri⟩, restPQ⟩ <;> rw [hst] at h
    · simp at h
      exact h.2.symm
    · dsimp only at h
      split_ifs at h with hend
      · simp at h
        exact h.2.symm
      · exact (ih _ _ _ h).trans rfl

theorem bidiLoop_maze :
    ∀ (fuel : Nat) (st : BidiState) (r : RunResult) (mz : Maze),
      PathfindingAlgorithms.bidiLoop fuel st = some (r, mz) → mz = st.maze := by
  intro fuel
  induction fuel with
  | zero => intro st r mz h; simp [PathfindingAlgorithms.bidiLoop] at h
  | succ k ih =>
    intro st r mz h
    rw [PathfindingAlgorithms.bidiLoop] at h
    rcases hqs : st.queueStart with _ | ⟨current, restS⟩ <;>
      rcases hqe : st.queueEnd with _ | ⟨ce, restE⟩ <;> rw [hqs, hqe] at h <;>
      try (simp at h; exact h.2.symm)
    dsimp only at h
    split_ifs at h with hmeet hmeet2
    · simp [PathfindingAlgorithms.bidiMeet] at h
      exact h.2.symm
    · simp [PathfindingAlgorithms.bidiMeet] at h
      exact h.2.symm
    · exact (ih _ _ _ h).trans rfl

/-- C8: running any of the seven algorithms leaves the maze object completely
unchanged — the maze returned alongside the result (threaded through every
loop state) is the input maze, so every cell of the grid and the start and
end coordinates are identical before and after the run. -/
theorem C8_no_mutation (m : Maze) :
    (PathfindingAlgorithms.dfs m).map Prod.snd =
      (PathfindingAlgorithms.dfs m).map (fun _ => m) ∧
    (PathfindingAlgorithms.bfs m).map Prod.snd =
      (PathfindingAlgorithms.bfs m).map (fun _ => m) ∧
    (PathfindingAlgorithms.dijkstra m).map Prod.snd =
      (PathfindingAlgorithms.dijkstra m).map (fun _ => m) ∧
    (∀ (P : Type) [LinearOrderedRing P] (hfun : Coordinate → Coordinate → P)
      (heurName : String),
      (PathfindingAlgorithms.astar hfun heurName m).map Prod.snd =
        (PathfindingAlgorithms.astar hfun heurName m).map (fun _ => m)) ∧
    (PathfindingAlgorithms.greedy m).map Prod.snd =
      (PathfindingAlgorithms.greedy m).map (fun _ => m) ∧
    (PathfindingAlgorithms.bidirectional m).map Prod.snd =
      (PathfindingAlgorithms.bidirectional m).map (fun _ => m) := by
  refine ⟨?_, ?_, ?_, ?_, ?_, ?_⟩
  · rcases h : PathfindingAlgorithms.dfs m with _ | ⟨r, mz⟩
    · rfl
    · simp [dfsLoop_maze _ _ r mz h]
  · rcases h : PathfindingAlgorithms.bfs m with _ | ⟨r, mz⟩
    · rfl
    · simp [bfsLoop_maze _ _ r mz h]
  · rcases h : PathfindingAlgorithms.dijkstra m with _ | ⟨r, mz⟩
    · rfl
    · simp [dijkstraLoop_maze _ _ r mz h]
  · intro P inst hfun heurName
    rcases h : PathfindingAlgorithms.astar hfun heurName m with _ | ⟨r, mz⟩
    · rfl
    · simp [astarLoop_maze hfun heurName _ _ r mz h]
  · rcases h : PathfindingAlgorithms.greedy m with _ | ⟨r, mz⟩
    · rfl
    · simp [greedyLoop_maze _ _ r mz h]
  · rcases h : PathfindingAlgorithms.bidirectional m with _ | ⟨r, mz⟩
    · rfl
    · simp [bidiLoop_maze _ _ r mz h]

/-! ## Claim C10 -/

/-- Strict lexicographic order on (enqueue tag, priority) entries: smaller
priority first, earlier enqueue tag breaking ties. -/
def LexLt {P : Type} [LinearOrder P] (x y : Nat × P) : Prop :=
  x.2 < y.2 ∨ (x.2 = y.2 ∧ x.1 < y.1)

/-- An abstract client operation on the `PriorityQueue`. -/
inductive PQOp (P : Type) where
  | enq (priority : P)
  | deq

/-- Replay a sequence of operations against an initially empty queue, tagging
each enqueued item with its enqueue sequence number. -/
def runOpsGo {P : Type} [LinearOrder P] :
    List (PQOp P) → Nat → PriorityQueue Nat P → PriorityQueue Nat P
  | [], _, q => q
  | PQOp.enq p :: rest, k, q => runOpsGo rest (k + 1) (q.enqueue k p)
  | PQOp.deq :: rest, k, q => runOpsGo rest k q.dequeue.2

/-- Replay from the empty queue. -/
def runOps {P : Type} [LinearOrder P] (ops : List (PQOp P)) :
    PriorityQueue Nat P :=
  runOpsGo ops 0 ⟨[]⟩

theorem mem_insertByPriority {α P : Type} [LinearOrder P]
    {l : List (α × P)} {x e : α × P} :
    e ∈ insertByPriority l x ↔ e ∈ l ∨ e = x := by
  induction l with
  | nil => simp [insertByPriority]
  | cons y tl ih =>
    rw [insertByPriority]
    split_ifs with hp
    · simp only [List.mem_cons]
      tauto
    · simp only [List.mem_cons, ih]
      tauto

theorem insertByPriority_lex {P : Type} [LinearOrder P]
    {l : List (Nat × P)} {k : Nat} {p : P}
    (hs : List.Pairwise LexLt l) (htag : ∀ e ∈ l, e.1 < k) :
    List.Pairwise LexLt (insertByPriority l (k, p)) := by
  induction l with
  | nil => simp [insertByPriority]
  | cons y tl ih =>
    rw [insertByPriority]
    rcases List.pairwise_cons.1 hs with ⟨hy, htl⟩
    split_ifs with hp
    · refine List.pairwise_cons.2 ⟨?_, hs⟩
      intro z hz
      rcases hz with _ | hz
      · exact Or.inl hp
      · rcases hy z (by assumption) with hlt | ⟨heq, _⟩
        · exact Or.inl (lt_trans hp hlt)
        · exact Or.inl (heq ▸ hp)
    · refine List.pairwise_cons.2 ⟨?_, ih htl (fun e he => htag e (List.mem_cons_of_mem _ he))⟩
      intro z hz
      rcases mem_insertByPriority.1 hz with hz2 | hz2
      · exact hy z hz2
      · subst hz2
        rcases lt_or_eq_of_le (not_lt.1 hp) with h2 | h2
        · exact Or.inl h2
        · exact Or.inr ⟨h2, htag y (List.mem_cons_self _ _)⟩

theorem runOpsGo_inv {P : Type} [LinearOrder P] :
    ∀ (ops : List (PQOp P)) (k : Nat) (q : PriorityQueue Nat P),
      List.Pairwise LexLt q.values → (∀ e ∈ q.values, e.1 < k) →
      List.Pairwise LexLt (runOpsGo ops k q).values := by
  intro ops
  induction ops with
  | nil => intro k q hs _; exact hs
  | cons op rest ih =>
    intro k q hs htag
    cases op with
    | enq p =>
      refine ih (k + 1) (q.enqueue k p) (insertByPriority_lex hs htag) ?_
      intro e he
      rcases mem_insertByPriority.1 he with h2 | h2
      · exact Nat.lt_succ_of_lt (htag e h2)
      · subst h2; exact Nat.lt_succ_self k
    | deq =>
      refine ih k q.dequeue.2 ?_ ?_
      · rcases hq : q.values with _ | ⟨hd, tl⟩
        · simp [PriorityQueue.dequeue, hq]
        · simpa [PriorityQueue.dequeue, hq] using (List.pairwise_cons.1 (hq ▸ hs)).2
      · intro e he
        exact htag e (List.mem_of_mem_tail he)

/-- C10: replaying any sequence of enqueue/dequeue operations against an
initially empty `PriorityQueue` (items tagged with their enqueue sequence
number), a dequeue on the resulting queue returns `undefined` (`none`) exactly
when the queue is empty — never an error — and otherwise returns an item
whose priority is minimal among the current entries and which is the earliest
enqueued among entries of that minimal priority.  Since `ops` is arbitrary,
this covers the queue state at every dequeue of every operation sequence. -/
theorem C10_priority_queue (P : Type) [LinearOrder P] (ops : List (PQOp P)) :
    ((runOps ops).dequeue.1 = none ↔ (runOps ops).values = []) ∧
    (∀ t : Nat, (runOps ops).dequeue.1 = some t →
      ∃ p, (t, p) ∈ (runOps ops).values ∧
        ∀ e ∈ (runOps ops).values, p ≤ e.2 ∧ (e.2 = p → t ≤ e.1)) := by
  have hs : List.Pairwise LexLt (runOps ops).values :=
    runOpsGo_inv ops 0 ⟨[]⟩ (by simp) (by simp)
  constructor
  · rcases hq : (runOps ops).values with _ | ⟨hd, tl⟩ <;>
      simp [PriorityQueue.dequeue, hq]
  · intro t ht
    simp only [PriorityQueue.dequeue] at ht
    rcases hq : (runOps ops).values with _ | ⟨⟨t0, p0⟩, tl⟩
    · rw [hq] at ht
      simp at ht
    · rw [hq] at ht
      simp only [List.head?, Option.map_some'] at ht
      cases ht
      refine ⟨p0, List.mem_cons_self _ _, ?_⟩
      intro e he
      rcases List.mem_cons.1 he with he2 | he2
      · subst he2; exact ⟨le_refl _, fun _ => le_refl _⟩
      · rcases (List.pairwise_cons.1 (hq ▸ hs)).1 e he2 with hlt | ⟨heq, hlt⟩
        · exact ⟨le_of_lt hlt, fun h2 => absurd (h2 ▸ hlt) (lt_irrefl _)⟩
        · exact ⟨le_of_eq heq, fun _ => le_of_lt hlt⟩

/-- C10 witness: a concrete replay — enqueue priorities 5, 3, 3, then dequeue
once — on which the second enqueue (tag 1, the earlier of the two entries of
minimal priority 3) is returned next. -/
theorem C10_priority_queue_witness :
    ((runOps [PQOp.enq (5 : Int), PQOp.enq 3, PQOp.enq 3, PQOp.deq]).dequeue.1 =
        none ↔
      (runOps [PQOp.enq (5 : Int), PQOp.enq 3, PQOp.enq 3, PQOp.deq]).values = []) ∧
    (∀ t : Nat,
      (runOps [PQOp.enq (5 : Int), PQOp.enq 3, PQOp.enq 3, PQOp.deq]).dequeue.1 =
        some t →
      ∃ p, (t, p) ∈ (runOps [PQOp.enq (5 : Int), PQOp.enq 3, PQOp.enq 3,
          PQOp.deq]).values ∧
        ∀ e ∈ (runOps [PQOp.enq (5 : Int), PQOp.enq 3, PQOp.enq 3,
            PQOp.deq]).values, p ≤ e.2 ∧ (e.2 = p → t ≤ e.1)) :=
  C10_priority_queue Int [PQOp.enq 5, PQOp.enq 3, PQOp.enq 3, PQOp.deq]

/-! ## Claim C9 -/

/-- Grid-level cell read (what `cellAt` does to the maze's grid). -/
def gridCell (g : JsGrid) (r c : Int) : Option Int :=
  ((listGetI g r).bind fun row => listGetI row c).join

theorem cellAt_eq_gridCell (m : Maze) (r c : Int) :
    cellAt m r c = gridCell m.grid r c := by
  unfold cellAt gridCell
  rcases listGetI m.grid r with _ | row <;> rfl

theorem listGetI_neg {α : Type} {l : List α} {i : Int} (h : i < 0) :
    listGetI l i = none := by
  simp [listGetI, h]

theorem listGetI_nonneg {α : Type} (l : List α) {i : Int} (h : 0 ≤ i) :
    listGetI l i = l.get? i.toNat := by
  simp [listGetI, not_lt.2 h]

theorem gridCell_bounds {g : JsGrid} {r c : Int} {w : Int}
    (h : gridCell g r c = some w) :
    0 ≤ r ∧ r.toNat < g.length ∧ 0 ≤ c := by
  unfold gridCell at h
  rcases hr : listGetI g r with _ | row
  · simp [hr] at h
  · rw [hr, Option.some_bind] at h
    have hr2 : ¬ r < 0 := fun hneg => by simp [listGetI_neg hneg] at hr
    have hrlen : r.toNat < g.length := by
      rw [listGetI_nonneg _ (not_lt.1 hr2)] at hr
      exact (List.get?_eq_some.1 hr).1
    have hc2 : ¬ c < 0 := fun hneg => by simp [listGetI_neg hneg] at h
    exact ⟨not_lt.1 hr2, hrlen, not_lt.1 hc2⟩

theorem setRowCell_get_same {row : List (Option Int)} {c v : Int} (hc : 0 ≤ c) :
    (listGetI (setRowCell row c v) c).join = some v := by
  rw [listGetI_nonneg _ hc]
  unfold setRowCell
  rw [if_neg (not_lt.2 hc)]
  split_ifs with h1
  · rw [List.get?_eq_getElem?, List.getElem?_set_eq_of_lt _ h1]
    rfl
  · have hPlen :
        (row ++ List.replicate (c.toNat - row.length) (none : Option Int)).length
          = c.toNat := by
      simp
      omega
    rw [List.get?_eq_getElem?, List.getElem?_append, if_neg (by omega),
      show c.toNat -
        (row ++ List.replicate (c.toNat - row.length) (none : Option Int)).length
        = 0 by omega]
    rfl

theorem setRowCell_get_other {row : List (Option Int)} {c v c' : Int}
    (hne : c' ≠ c) :
    (listGetI (setRowCell row c v) c').join = (listGetI row c').join := by
  by_cases hc' : c' < 0
  · rw [listGetI_neg hc', listGetI_neg hc']
  · rw [listGetI_nonneg _ (not_lt.1 hc'), listGetI_nonneg _ (not_lt.1 hc')]
    unfold setRowCell
    split_ifs with h1 h2
    · rfl
    · rw [List.get?_eq_getElem?, List.get?_eq_getElem?,
        List.getElem?_set_ne (by omega)]
    · have hc0 : 0 ≤ c := not_lt.1 h1
      have hPlen :
          (row ++ List.replicate (c.toNat - row.length) (none : Option Int)).length
            = c.toNat := by
        simp
        omega
      rw [List.get?_eq_getElem?, List.get?_eq_getElem?, List.getElem?_append]
      by_cases hi : c'.toNat < c.toNat
      · rw [if_pos (by omega), List.getElem?_append]
        by_cases hi2 : c'.toNat < row.length
        · rw [if_pos hi2]
        · rw [if_neg hi2, List.getElem?_replicate, if_pos (by omega),
            List.getElem?_eq_none (by omega)]
          rfl
      · have hgt : c'.toNat ≠ c.toNat := by omega
        rw [if_neg (by omega), List.getElem?_eq_none (by simp; omega),
          List.getElem?_eq_none (by omega)]

theorem gridCell_setCell_same {g g' : JsGrid} {r c v : Int}
    (h : setCell g r c v = some g') (hc : 0 ≤ c) :
    gridCell g' r c = some v := by
  unfold setCell at h
  split_ifs at h with h1
  · cases h
    unfold gridCell
    rw [listGetI_nonneg _ h1.1, List.get?_eq_getElem?,
      List.getElem?_set_eq_of_lt _ h1.2, Option.some_bind]
    exact setRowCell_get_same hc

theorem gridCell_setCell_other {g g' : JsGrid} {r c v r' c' : Int}
    (h : setCell g r c v = some g') (hne : r' ≠ r ∨ c' ≠ c) :
    gridCell g' r' c' = gridCell g r' c' := by
  unfold setCell at h
  split_ifs at h with h1
  · cases h
    unfold gridCell
    by_cases hr' : r' < 0
    · rw [listGetI_neg hr', listGetI_neg hr']
    · rw [listGetI_nonneg _ (not_lt.1 hr'), listGetI_nonneg _ (not_lt.1 hr')]
      simp only [List.get?_eq_getElem?]
      by_cases hrr : r' = r
      · subst hrr
        have hrow : g[r'.toNat]? = some (g[r'.toNat]) := List.getElem?_eq_getElem h1.2
        rw [List.getElem?_set_eq_of_lt _ h1.2, hrow, Option.some_bind,
          Option.some_bind, Option.getD_some]
        exact setRowCell_get_other (hne.resolve_left (fun h2 => h2 rfl))
      · rw [List.getElem?_set_ne (by omega)]

theorem setCellD_length (g : JsGrid) (r c v : Int) :
    (setCellD g r c v).length = g.length := by
  unfold setCellD
  rcases h : setCell g r c v with _ | g'
  · rfl
  · simpa using setCell_length h

theorem gridCell_setCellD_other {g : JsGrid} {r c v r' c' : Int}
    (hne : r' ≠ r ∨ c' ≠ c) :
    gridCell (setCellD g r c v) r' c' = gridCell g r' c' := by
  unfold setCellD
  rcases h : setCell g r c v with _ | g'
  · rfl
  · simpa using gridCell_setCell_other h hne

theorem gridCell_setCellD_same {g : JsGrid} {r c v : Int}
    (hr : 0 ≤ r ∧ r.toNat < g.length) (hc : 0 ≤ c) :
    gridCell (setCellD g r c v) r c = some v := by
  unfold setCellD
  rcases h : setCell g r c v with _ | g'
  · unfold setCell at h
    rw [if_pos hr] at h
    cases h
  · simpa using gridCell_setCell_same h hc

/-- Writing the value `0` anywhere preserves any cell already holding `0`. -/
theorem gridCell_setCellD_zero {g : JsGrid} {r c r' c' : Int}
    (h : gridCell g r c = some 0) :
    gridCell (setCellD g r' c' 0) r c = some 0 := by
  by_cases hsame : r' = r ∧ c' = c
  · obtain ⟨h1, h2⟩ := hsame
    subst h1; subst h2
    obtain ⟨hb1, hb2, hb3⟩ := gridCell_bounds h
    exact gridCell_setCellD_same ⟨hb1, hb2⟩ hb3
  · rw [gridCell_setCellD_other (by tauto)]
    exact h

/-- The start and end coordinates denote walkable cells. -/
def GoodSE (m : Maze) : Prop :=
  isWalkableCell m m.start = true ∧ isWalkableCell m m.endCoord = true

theorem isWalkableCell_iff {m : Maze} {c : Coordinate} :
    isWalkableCell m c = true ↔
      (0 ≤ c.row ∧ c.row < m.rows ∧ 0 ≤ c.col ∧ c.col < m.cols) ∧
        cellAt m c.row c.col ≠ some 1 := by
  simp [isWalkableCell, Maze.isValid]

/-- Writing a `0` with `setCell` preserves cells holding `0`. -/
theorem gridCell_setCell_zero {g g' : JsGrid} {r c r' c' : Int}
    (h : setCell g r' c' 0 = some g') (hz : gridCell g r c = some 0) :
    gridCell g' r c = some 0 := by
  by_cases hsame : r' = r ∧ c' = c
  · obtain ⟨h1, h2⟩ := hsame
    subst h1; subst h2
    exact gridCell_setCell_same h (gridCell_bounds hz).2.2
  · rw [gridCell_setCell_other h (by tauto)]
    exact hz

theorem initGridOn_spec {rows cols : Int} {s e : Coordinate}
    (hs : 0 ≤ s.row ∧ s.row < rows ∧ 0 ≤ s.col)
    (he : 0 ≤ e.row ∧ e.row < rows ∧ 0 ≤ e.col) :
    ∃ g, initGridOn rows cols s e = some g ∧
      gridCell g s.row s.col = some 0 ∧ gridCell g e.row e.col = some 0 ∧
      g.length = rows.toNat := by
  have h1 : (setCell (borderGrid rows cols) s.row s.col 0).isSome := by
    rw [setCell_isSome, borderGrid_length]
    omega
  rcases Option.isSome_iff_exists.1 h1 with ⟨g1, hg1⟩
  have hlen1 : g1.length = rows.toNat := by
    rw [setCell_length hg1, borderGrid_length]
  have h2 : (setCell g1 e.row e.col 0).isSome := by
    rw [setCell_isSome, hlen1]
    omega
  rcases Option.isSome_iff_exists.1 h2 with ⟨g2, hg2⟩
  refine ⟨g2, by simp [initGridOn, hg1, hg2], ?_, ?_, ?_⟩
  · exact gridCell_setCell_zero hg2 (gridCell_setCell_same hg1 hs.2.2)
  · exact gridCell_setCell_same hg2 he.2.2
  · rw [setCell_length hg2, hlen1]

theorem initGrid_GoodSE {m : Maze} (h : GoodSE m) :
    ∃ m', m.initGrid = some m' ∧ GoodSE m' := by
  obtain ⟨hws, hwe⟩ := h
  rcases isWalkableCell_iff.1 hws with ⟨⟨hs1, hs2, hs3, _⟩, _⟩
  rcases isWalkableCell_iff.1 hwe with ⟨⟨he1, he2, he3, _⟩, _⟩
  rcases @initGridOn_spec m.rows m.cols m.start m.endCoord
      ⟨hs1, hs2, hs3⟩ ⟨he1, he2, he3⟩ with ⟨g, hg, hgs, hge, _⟩
  refine ⟨{ m with grid := g }, by simp [Maze.initGrid, hg], ?_, ?_⟩
  · rw [isWalkableCell_iff]
    refine ⟨⟨hs1, hs2, hs3, by simpa using (isWalkableCell_iff.1 hws).1.2.2.2⟩, ?_⟩
    rw [cellAt_eq_gridCell]
    simp only
    rw [hgs]
    simp
  · rw [isWalkableCell_iff]
    refine ⟨⟨he1, he2, he3, by simpa using (isWalkableCell_iff.1 hwe).1.2.2.2⟩, ?_⟩
    rw [cellAt_eq_gridCell]
    simp only
    rw [hge]
    simp

theorem mazeNew_GoodSE {rows cols : Int} (hr : 3 ≤ rows) (hc : 3 ≤ cols) :
    ∃ mz, mazeNew rows cols = some mz ∧ GoodSE mz := by
  rcases @initGridOn_spec rows cols ⟨1, 1⟩ ⟨rows - 2, cols - 2⟩
      ⟨by norm_num, by show (1 : Int) < rows; omega, by norm_num⟩
      ⟨by show (0 : Int) ≤ rows - 2; omega, by show rows - 2 < rows; omega,
        by show (0 : Int) ≤ cols - 2; omega⟩
    with ⟨g, hg, hgs, hge, _⟩
  have hgs2 : gridCell g 1 1 = some 0 := hgs
  have hge2 : gridCell g (rows - 2) (cols - 2) = some 0 := hge
  refine ⟨{ rows := rows, cols := cols, grid := g, start := ⟨1, 1⟩,
            endCoord := ⟨rows - 2, cols - 2⟩ }, by simp [mazeNew, hg], ?_, ?_⟩
  · rw [isWalkableCell_iff]
    refine ⟨⟨by show (0 : Int) ≤ 1; norm_num, by show (1 : Int) < rows; omega,
      by show (0 : Int) ≤ 1; norm_num, by show (1 : Int) < cols; omega⟩, ?_⟩
    rw [cellAt_eq_gridCell]
    show gridCell g 1 1 ≠ some 1
    rw [hgs2]
    simp
  · rw [isWalkableCell_iff]
    refine ⟨⟨by show (0 : Int) ≤ rows - 2; omega, by show rows - 2 < rows; omega,
      by show (0 : Int) ≤ cols - 2; omega, by show cols - 2 < cols; omega⟩, ?_⟩
    rw [cellAt_eq_gridCell]
    show gridCell g (rows - 2) (cols - 2) ≠ some 1
    rw [hge2]
    simp

theorem fillRow_preserves (m1 : Maze) (coin : Int → Int → Bool) (i : Int)
    (t : Coordinate) (ht : t = m1.start ∨ t = m1.endCoord) :
    ∀ (cl : List Int) (g : JsGrid),
      gridCell (cl.foldl (fun g2 j =>
        if (i = m1.start.row ∧ j = m1.start.col) ∨
            (i = m1.endCoord.row ∧ j = m1.endCoord.col) then g2
        else setCellD g2 i j (if coin i j then 1 else 0)) g) t.row t.col =
      gridCell g t.row t.col := by
  intro cl
  induction cl with
  | nil => intro g; rfl
  | cons j tl ih =>
    intro g
    rw [List.foldl_cons, ih]
    by_cases hskip : (i = m1.start.row ∧ j = m1.start.col) ∨
        (i = m1.endCoord.row ∧ j = m1.endCoord.col)
    · rw [if_pos hskip]
    · rw [if_neg hskip]
      apply gridCell_setCellD_other
      have hne : ¬(i = t.row ∧ j = t.col) := by
        rcases ht with ht | ht <;> rw [ht] <;> tauto
      by_cases h1 : t.row = i
      · exact Or.inr fun h2 => hne ⟨h1.symm, h2.symm⟩
      · exact Or.inl h1

theorem fillGrid_preserves (m1 : Maze) (coin : Int → Int → Bool)
    (t : Coordinate) (ht : t = m1.start ∨ t = m1.endCoord) :
    ∀ (rl : List Int) (g : JsGrid),
      gridCell (rl.foldl (fun g i =>
        (intRange 1 (m1.cols - 1)).foldl (fun g2 j =>
          if (i = m1.start.row ∧ j = m1.start.col) ∨
              (i = m1.endCoord.row ∧ j = m1.endCoord.col) then g2
          else setCellD g2 i j (if coin i j then 1 else 0)) g) g) t.row t.col =
      gridCell g t.row t.col := by
  intro rl
  induction rl with
  | nil => intro g; rfl
  | cons i tl ih =>
    intro g
    rw [List.foldl_cons, ih, fillRow_preserves m1 coin i t ht]

theorem generateRandom_GoodSE {m : Maze} (coin : Int → Int → Bool)
    (h : GoodSE m) :
    ∃ m', m.generateRandom coin = some m' ∧ GoodSE m' := by
  rcases initGrid_GoodSE h with ⟨m1, hm1, hg1⟩
  refine ⟨_, by rw [Maze.generateRandom, hm1]; rfl, ?_, ?_⟩
  · rw [isWalkableCell_iff]
    rcases isWalkableCell_iff.1 hg1.1 with ⟨hb, hcell⟩
    refine ⟨hb, ?_⟩
    rw [cellAt_eq_gridCell]
    show gridCell (_) m1.start.row m1.start.col ≠ some 1
    rw [fillGrid_preserves m1 coin m1.start (Or.inl rfl)]
    rw [cellAt_eq_gridCell] at hcell
    exact hcell
  · rw [isWalkableCell_iff]
    rcases isWalkableCell_iff.1 hg1.2 with ⟨hb, hcell⟩
    refine ⟨hb, ?_⟩
    rw [cellAt_eq_gridCell]
    show gridCell (_) m1.endCoord.row m1.endCoord.col ≠ some 1
    rw [fillGrid_preserves m1 coin m1.endCoord (Or.inr rfl)]
    rw [cellAt_eq_gridCell] at hcell
    exact hcell

theorem setWall_at_endpoint {m : Maze} {row col : Int} {w : Bool}
    (h : (row = m.start.row ∧ col = m.start.col) ∨
      (row = m.endCoord.row ∧ col = m.endCoord.col)) :
    m.setWall row col w = some m := by
  rw [Maze.setWall, if_pos h]

theorem setWall_GoodSE {m m' : Maze} {row col : Int} {w : Bool}
    (hg : GoodSE m) (h : m.setWall row col w = some m') : GoodSE m' := by
  rw [Maze.setWall] at h
  by_cases hskip : (row = m.start.row ∧ col = m.start.col) ∨
      (row = m.endCoord.row ∧ col = m.endCoord.col)
  · rw [if_pos hskip] at h
    cases h
    exact hg
  · rw [if_neg hskip] at h
    rcases Option.map_eq_some'.1 h with ⟨g', hg', hm'⟩
    subst hm'
    push_neg at hskip
    constructor
    · rw [isWalkableCell_iff]
      rcases isWalkableCell_iff.1 hg.1 with ⟨hb, hcell⟩
      refine ⟨hb, ?_⟩
      rw [cellAt_eq_gridCell]
      show gridCell g' m.start.row m.start.col ≠ some 1
      rw [gridCell_setCell_other hg' ?_]
      · rw [cellAt_eq_gridCell] at hcell
        exact hcell
      · by_cases h1 : m.start.row = row
        · exact Or.inr fun h2 => (hskip.1 h1.symm) h2.symm
        · exact Or.inl h1
    · rw [isWalkableCell_iff]
      rcases isWalkableCell_iff.1 hg.2 with ⟨hb, hcell⟩
      refine ⟨hb, ?_⟩
      rw [cellAt_eq_gridCell]
      show gridCell g' m.endCoord.row m.endCoord.col ≠ some 1
      rw [gridCell_setCell_other hg' ?_]
      · rw [cellAt_eq_gridCell] at hcell
        exact hcell
      · by_cases h1 : m.endCoord.row = row
        · exact Or.inr fun h2 => (hskip.2 h1.symm) h2.symm
        · exact Or.inl h1

theorem setStart_GoodSE {m m' : Maze} {row col : Int}
    (hg : GoodSE m) (hv : m.isValid row col = true)
    (h : m.setStart row col = some m') :
    GoodSE m' ∧ (cellAt m row col = some 1 → m' = m) := by
  rw [Maze.setStart] at h
  split_ifs at h with hrange hcell
  · cases h
    refine ⟨⟨?_, hg.2⟩, fun h2 => absurd h2 hcell⟩
    rw [isWalkableCell_iff]
    exact ⟨of_decide_eq_true hv, hcell⟩
  · cases h
    exact ⟨hg, fun _ => rfl⟩

theorem setEnd_GoodSE {m m' : Maze} {row col : Int}
    (hg : GoodSE m) (hv : m.isValid row col = true)
    (h : m.setEnd row col = some m') :
    GoodSE m' ∧ (cellAt m row col = some 1 → m' = m) := by
  rw [Maze.setEnd] at h
  split_ifs at h with hrange hcell
  · cases h
    refine ⟨⟨hg.1, ?_⟩, fun h2 => absurd h2 hcell⟩
    rw [isWalkableCell_iff]
    exact ⟨of_decide_eq_true hv, hcell⟩
  · cases h
    exact ⟨hg, fun _ => rfl⟩

theorem carveLoop_nil (rand : Nat → Nat) (k n : Nat) (m : Maze) :
    carveLoop rand k (n + 1) m [] = m := by
  rw [carveLoop.eq_def]

theorem carveLoop_succ (rand : Nat → Nat) (k n : Nat) (m : Maze)
    (current : Coordinate) (rest : List Coordinate) :
    carveLoop rand k (n + 1) m (current :: rest) =
      (let neighbors := m.getUnvisitedNeighbors current 2
       if neighbors.length = 0 then
         carveLoop rand k n m rest
       else
         let next := neighbors.getD (rand k % neighbors.length) ⟨0, 0⟩
         let midRow := current.row + (next.row - current.row) / 2
         let midCol := current.col + (next.col - current.col) / 2
         let g1 := setCellD m.grid midRow midCol 0
         let g2 := setCellD g1 next.row next.col 0
         carveLoop rand (k + 1) n { m with grid := g2 } (next :: rest)) := by
  rw [carveLoop.eq_def]

theorem carveLoop_fields (rand : Nat → Nat) :
    ∀ (k fuel : Nat) (m : Maze) (stack : List Coordinate),
      (carveLoop rand k fuel m stack).rows = m.rows ∧
      (carveLoop rand k fuel m stack).cols = m.cols ∧
      (carveLoop rand k fuel m stack).start = m.start ∧
      (carveLoop rand k fuel m stack).endCoord = m.endCoord ∧
      (carveLoop rand k fuel m stack).grid.length = m.grid.length := by
  intro k fuel
  induction fuel generalizing k with
  | zero => intro m stack; exact ⟨rfl, rfl, rfl, rfl, rfl⟩
  | succ n ih =>
    intro m stack
    rcases stack with _ | ⟨current, rest⟩
    · rw [carveLoop_nil]
      exact ⟨rfl, rfl, rfl, rfl, rfl⟩
    · rw [carveLoop_succ]
      dsimp only
      split_ifs with hn
      · exact ih k m rest
      · rcases ih (k + 1) _ (_ :: rest) with ⟨h1, h2, h3, h4, h5⟩
        refine ⟨h1, h2, h3, h4, h5.trans ?_⟩
        rw [setCellD_length, setCellD_length]

theorem carveLoop_zero (rand : Nat → Nat) {r c : Int} :
    ∀ (k fuel : Nat) (m : Maze) (stack : List Coordinate),
      gridCell m.grid r c = some 0 →
      gridCell (carveLoop rand k fuel m stack).grid r c = some 0 := by
  intro k fuel
  induction fuel generalizing k with
  | zero => intro m stack h; exact h
  | succ n ih =>
    intro m stack h
    rcases stack with _ | ⟨current, rest⟩
    · rw [carveLoop_nil]; exact h
    · rw [carveLoop_succ]
      dsimp only
      split_ifs with hn
      · exact ih k m rest h
      · exact ih (k + 1) _ (_ :: rest)
          (gridCell_setCellD_zero (gridCell_setCellD_zero h))

theorem carveClear_GoodSE (rand : Nat → Nat) (fuel : Nat) (m1 : Maze)
    (hstart : m1.start = ⟨1, 1⟩) (hr : 3 ≤ m1.rows) (hc : 3 ≤ m1.cols)
    (he1 : 0 ≤ m1.endCoord.row) (he2 : m1.endCoord.row < m1.rows)
    (he3 : 0 ≤ m1.endCoord.col) (he4 : m1.endCoord.col < m1.cols)
    (hlen : m1.grid.length = m1.rows.toNat)
    (h11 : gridCell m1.grid 1 1 = some 0) :
    GoodSE { carveLoop rand 0 fuel m1 [⟨1, 1⟩] with
      grid := setCellD (carveLoop rand 0 fuel m1 [⟨1, 1⟩]).grid
        (carveLoop rand 0 fuel m1 [⟨1, 1⟩]).endCoord.row
        (carveLoop rand 0 fuel m1 [⟨1, 1⟩]).endCoord.col 0 } := by
  obtain ⟨hf1, hf2, hf3, hf4, hf5⟩ := carveLoop_fields rand 0 fuel m1 [⟨1, 1⟩]
  have hcarve := carveLoop_zero rand (r := 1) (c := 1) 0 fuel m1 [⟨1, 1⟩] h11
  constructor
  · rw [isWalkableCell_iff]
    dsimp only
    rw [hf1, hf2, hf3, hf4, hstart]
    dsimp only
    refine ⟨⟨by norm_num, by omega, by norm_num, by omega⟩, ?_⟩
    rw [cellAt_eq_gridCell]
    dsimp only
    rw [gridCell_setCellD_zero hcarve]
    simp
  · rw [isWalkableCell_iff]
    dsimp only
    rw [hf1, hf2, hf4]
    refine ⟨⟨he1, he2, he3, he4⟩, ?_⟩
    rw [cellAt_eq_gridCell]
    dsimp only
    rw [gridCell_setCellD_same ⟨he1, by rw [hf5, hlen]; omega⟩ he3]
    simp

theorem generatePerfect_GoodSE {m : Maze} (rand : Nat → Nat) (fuel : Nat)
    (hg : GoodSE m) (hs : m.start = ⟨1, 1⟩) (hr : 3 ≤ m.rows)
    (hc : 3 ≤ m.cols) : GoodSE (m.generatePerfect rand fuel) := by
  rcases isWalkableCell_iff.1 hg.2 with ⟨⟨he1, he2, he3, he4⟩, -⟩
  have hg0len : ((List.range m.rows.toNat).map
      fun _ => List.replicate m.cols.toNat ((some 1 : Option Int))).length
        = m.rows.toNat := by
    rw [List.length_map, List.length_range]
  exact carveClear_GoodSE rand fuel
    { m with grid := setCellD ((List.range m.rows.toNat).map
        fun _ => List.replicate m.cols.toNat ((some 1 : Option Int))) 1 1 0 }
    hs hr hc he1 he2 he3 he4
    (by show (setCellD _ 1 1 0).length = m.rows.toNat
        rw [setCellD_length]; exact hg0len)
    (gridCell_setCellD_same ⟨by norm_num, by rw [hg0len]; omega⟩ (by norm_num))

/-- C9 counterexample: `generatePerfect` does NOT keep a relocated start
walkable.  On `new Maze(7, 7)` with the start moved to `(2, 2)` (a legal
`setStart` onto an open cell), `generatePerfect` rebuilds the grid from an
all-wall state carving only from `(1, 1)` over the odd lattice, never clears
the even-even cell `(2, 2)`, and leaves the start standing on a wall. -/
theorem C9_counterexample :
    ((mazeNew 7 7).bind (fun mz => mz.setStart 2 2)).map
      (fun mz => isWalkableCell (mz.generatePerfect (fun _ => 0) 60)
        (mz.generatePerfect (fun _ => 0) 60).start) = some false := by
  decide

/-- C9 amended: with `GoodSE m` ("start and end cells are walkable") as the
invariant, construction with `rows, cols ≥ 3` establishes it, and it is
preserved by `initGrid`, `clear`, `generateRandom`, `setWall` (which is a
no-op at either endpoint), and by `setStart`/`setEnd` on in-bounds targets
(which moreover refuse wall targets, leaving the maze unchanged);
`generatePerfect` preserves it only under the extra hypothesis that the start
still sits at its constructor position `(1, 1)` — the carving origin. -/
theorem C9_invariants :
    (∀ rows cols : Int, 3 ≤ rows → 3 ≤ cols →
      ∃ mz, mazeNew rows cols = some mz ∧ GoodSE mz) ∧
    (∀ m : Maze, GoodSE m → ∃ m', m.initGrid = some m' ∧ GoodSE m') ∧
    (∀ m : Maze, GoodSE m → ∃ m', m.clear = some m' ∧ GoodSE m') ∧
    (∀ (m : Maze) (coin : Int → Int → Bool), GoodSE m →
      ∃ m', m.generateRandom coin = some m' ∧ GoodSE m') ∧
    (∀ (m : Maze) (row col : Int) (w : Bool),
      ((row = m.start.row ∧ col = m.start.col) ∨
        (row = m.endCoord.row ∧ col = m.endCoord.col)) →
      m.setWall row col w = some m) ∧
    (∀ (m m' : Maze) (row col : Int) (w : Bool), GoodSE m →
      m.setWall row col w = some m' → GoodSE m') ∧
    (∀ (m m' : Maze) (row col : Int), GoodSE m → m.isValid row col = true →
      m.setStart row col = some m' →
      GoodSE m' ∧ (cellAt m row col = some 1 → m' = m)) ∧
    (∀ (m m' : Maze) (row col : Int), GoodSE m → m.isValid row col = true →
      m.setEnd row col = some m' →
      GoodSE m' ∧ (cellAt m row col = some 1 → m' = m)) ∧
    (∀ (m : Maze) (rand : Nat → Nat) (fuel : Nat), GoodSE m →
      m.start = ⟨1, 1⟩ → 3 ≤ m.rows → 3 ≤ m.cols →
      GoodSE (m.generatePerfect rand fuel)) := by
  refine ⟨fun rows cols hr hc => mazeNew_GoodSE hr hc,
    fun m h => initGrid_GoodSE h,
    fun m h => initGrid_GoodSE h,
    fun m coin h => generateRandom_GoodSE coin h,
    fun m row col w h => setWall_at_endpoint h,
    fun m m' row col w hg h => setWall_GoodSE hg h,
    fun m m' row col hg hv h => setStart_GoodSE hg hv h,
    fun m m' row col hg hv h => setEnd_GoodSE hg hv h,
    fun m rand fuel hg hs hr hc => generatePerfect_GoodSE rand fuel hg hs hr hc⟩

theorem C9_invariants_witness :
    ∃ mz, mazeNew 7 7 = some mz ∧ GoodSE mz :=
  C9_invariants.1 7 7 (by decide) (by decide)

/-! ## Claim C3: parent maps encode valid chains -/

theorem mapGet_cons {β : Type} (e : Coordinate × β) (tl : CoordMap β)
    (k : Coordinate) :
    mapGet (e :: tl) k = if e.1 = k then some e.2 else mapGet tl k := rfl

theorem mapGet_isSome_cons {β : Type} {tl : CoordMap β} {c : Coordinate}
    (e : Coordinate × β) (h : (mapGet tl c).isSome = true) :
    (mapGet (e :: tl) c).isSome = true := by
  rw [mapGet_cons]
  split_ifs <;> simp_all

/-- Rank of a key in a parent map: one plus the length of the part older than
its binding, `0` for absent keys. -/
def rankOf : ParentMap → Coordinate → Nat
  | [], _ => 0
  | e :: tl, c => if e.1 = c then tl.length + 1 else rankOf tl c

/-- Structural invariant of mark-on-discovery parent maps: every binding has a
fresh non-root key whose parent is the root or an older key, and records an
edge `E parent key`. -/
def ParStruct (s : Coordinate) (E : Coordinate → Coordinate → Prop) :
    ParentMap → Prop
  | [] => True
  | (k, v) :: tl => k ≠ s ∧ mapGet tl k = none ∧
      (v = s ∨ (mapGet tl v).isSome = true) ∧ E v k ∧ ParStruct s E tl

theorem rankOf_le_length (par : ParentMap) (c : Coordinate) :
    rankOf par c ≤ par.length := by
  induction par with
  | nil => exact Nat.le_refl 0
  | cons e tl ih =>
    show (if e.1 = c then tl.length + 1 else rankOf tl c) ≤ tl.length + 1
    split_ifs
    · exact Nat.le_refl _
    · exact Nat.le_succ_of_le ih

theorem rankOf_eq_zero {par : ParentMap} {c : Coordinate}
    (h : mapGet par c = none) : rankOf par c = 0 := by
  induction par with
  | nil => rfl
  | cons e tl ih =>
    rw [mapGet_cons] at h
    show (if e.1 = c then tl.length + 1 else rankOf tl c) = 0
    split_ifs at h ⊢ with he
    · exact ih h

theorem parStruct_not_root {s : Coordinate} {E : Coordinate → Coordinate → Prop} :
    ∀ {par : ParentMap}, ParStruct s E par → mapGet par s = none
  | [], _ => rfl
  | (k, v) :: tl, ⟨hk, _, _, _, htl⟩ => by
    rw [mapGet_cons, if_neg hk]
    exact parStruct_not_root htl

theorem parStruct_mem {s : Coordinate} {E : Coordinate → Coordinate → Prop} :
    ∀ {par : ParentMap} {k v : Coordinate}, ParStruct s E par →
      mapGet par k = some v →
      E v k ∧ (v = s ∨ (mapGet par v).isSome = true) ∧ k ≠ s
  | [], k, v, _, hkv => by cases hkv
  | (k0, v0) :: tl, k, v, ⟨hk0, hfresh, hroot, hE, htl⟩, hkv => by
    rw [mapGet_cons] at hkv
    split_ifs at hkv with he
    · subst he
      cases hkv
      refine ⟨hE, ?_, hk0⟩
      rcases hroot with h | h
      · exact Or.inl h
      · exact Or.inr (mapGet_isSome_cons _ h)
    · rcases parStruct_mem htl hkv with ⟨h1, h2, h3⟩
      refine ⟨h1, ?_, h3⟩
      rcases h2 with h | h
      · exact Or.inl h
      · exact Or.inr (mapGet_isSome_cons _ h)

theorem parStruct_rank {s : Coordinate} {E : Coordinate → Coordinate → Prop} :
    ∀ {par : ParentMap} {k v : Coordinate}, ParStruct s E par →
      mapGet par k = some v → rankOf par v < rankOf par k
  | [], k, v, _, hkv => by cases hkv
  | (k0, v0) :: tl, k, v, hps, hkv => by
    obtain ⟨hk0, hfresh, hroot, hE, htl⟩ := hps
    rw [mapGet_cons] at hkv
    show rankOf ((k0, v0) :: tl) v < if k0 = k then tl.length + 1 else rankOf tl k
    split_ifs at hkv ⊢ with he
    · subst he
      have hv : v0 = v := by injection hkv
      subst hv
      show (if k0 = v0 then tl.length + 1 else rankOf tl v0) < tl.length + 1
      have hne : k0 ≠ v0 := by
        intro h
        rcases hroot with h' | h'
        · exact hk0 (h.trans h')
        · rw [← h] at h'
          rw [hfresh] at h'
          cases h'
      rw [if_neg hne]
      exact Nat.lt_succ_of_le (rankOf_le_length tl v0)
    · have ih := parStruct_rank htl hkv
      have hne : k0 ≠ v := by
        intro h
        rcases (parStruct_mem htl hkv).2.1 with h' | h'
        · exact hk0 (h.trans h')
        · rw [← h] at h'
          rw [hfresh] at h'
          cases h'
      show (if k0 = v then tl.length + 1 else rankOf tl v) < rankOf tl k
      rw [if_neg hne]
      exact ih

theorem reconstructGo_spec (par : ParentMap) (s : Coordinate)
    (rank : Coordinate → Nat)
    (hrank : ∀ k v, mapGet par k = some v → rank v < rank k)
    (hroot : ∀ k v, mapGet par k = some v →
      v = s ∨ (mapGet par v).isSome = true) :
    ∀ (fuel : Nat) (c : Coordinate) (acc : List Coordinate),
      rank c < fuel → (c = s ∨ (mapGet par c).isSome = true) →
      ∃ p, PathfindingAlgorithms.reconstructGo par s (some c) fuel acc =
          p ++ acc ∧
        p.head? = some s ∧ p.getLast? = some c ∧
        List.Chain' (fun a b => mapGet par b = some a) p := by
  intro fuel
  induction fuel with
  | zero => intro c acc hf; omega
  | succ n ih =>
    intro c acc hf hc
    by_cases hcs : c = s
    · subst hcs
      refine ⟨[c], ?_, rfl, rfl, List.chain'_singleton c⟩
      show (if c = c then c :: acc else _) = [c] ++ acc
      rw [if_pos rfl]
      rfl
    · rcases hc with rfl | hsome
      · exact absurd rfl hcs
      obtain ⟨v, hv⟩ := Option.isSome_iff_exists.1 hsome
      obtain ⟨p, hp, hh, hl, hch⟩ := ih v (c :: acc)
        (by have := hrank c v hv; omega) (hroot c v hv)
      refine ⟨p ++ [c], ?_, ?_, List.getLast?_concat p, ?_⟩
      · show (if c = s then c :: acc
            else PathfindingAlgorithms.reconstructGo par s (mapGet par c) n
              (c :: acc)) = (p ++ [c]) ++ acc
        rw [if_neg hcs, hv, hp]
        simp
      · rcases p with _ | ⟨x, tl⟩
        · cases hh
        · exact hh
      · rw [List.chain'_append]
        refine ⟨hch, List.chain'_singleton c, ?_⟩
        intro x hx y hy
        rw [hl] at hx
        cases hx
        cases hy
        exact hv

theorem reconstructEndGo_spec (par : ParentMap) (e : Coordinate)
    (rank : Coordinate → Nat)
    (hrank : ∀ k v, mapGet par k = some v → rank v < rank k)
    (hroot : ∀ k v, mapGet par k = some v →
      v = e ∨ (mapGet par v).isSome = true) :
    ∀ (fuel : Nat) (c : Coordinate) (acc : List Coordinate),
      rank c < fuel → (c = e ∨ (mapGet par c).isSome = true) →
      ∃ p, PathfindingAlgorithms.reconstructEndGo par e (some c) fuel acc =
          acc ++ p ∧
        p.head? = some c ∧ p.getLast? = some e ∧
        List.Chain' (fun a b => mapGet par a = some b) p := by
  intro fuel
  induction fuel with
  | zero => intro c acc hf; omega
  | succ n ih =>
    intro c acc hf hc
    by_cases hce : c = e
    · subst hce
      refine ⟨[c], ?_, rfl, rfl, List.chain'_singleton c⟩
      show (if c = c then acc ++ [c] else _) = acc ++ [c]
      rw [if_pos rfl]
    · rcases hc with rfl | hsome
      · exact absurd rfl hce
      obtain ⟨v, hv⟩ := Option.isSome_iff_exists.1 hsome
      obtain ⟨p, hp, hh, hl, hch⟩ := ih v (acc ++ [c])
        (by have := hrank c v hv; omega) (hroot c v hv)
      refine ⟨c :: p, ?_, rfl, ?_, ?_⟩
      · show (if c = e then acc ++ [c]
            else PathfindingAlgorithms.reconstructEndGo par e (mapGet par c) n
              (acc ++ [c])) = acc ++ c :: p
        rw [if_neg hce, hv, hp]
        simp
      · rcases p with _ | ⟨x, tl⟩
        · cases hh
        · rw [List.getLast?_cons_cons]
          exact hl
      · rw [List.chain'_cons']
        refine ⟨?_, hch⟩
        intro y hy
        rw [hh] at hy
        cases hy
        exact hv

theorem chain'_all_from_head {α : Type} {R : α → α → Prop} {W : α → Prop} :
    ∀ {p : List α}, List.Chain' R p → (∀ a b, R a b → W b) →
      ∀ {x}, p.head? = some x → W x → ∀ c ∈ p, W c := by
  intro p
  induction p with
  | nil => intro _ _ x hx; cases hx
  | cons a tl ih =>
    intro hch hR x hx hw c hcmem
    cases hx
    rcases List.mem_cons.1 hcmem with rfl | htl
    · exact hw
    · rcases tl with _ | ⟨b, tl2⟩
      · cases htl
      · rw [List.chain'_cons] at hch
        exact ih hch.2 hR rfl (hR _ _ hch.1) c htl

theorem chain'_all_from_last {α : Type} {R : α → α → Prop} {W : α → Prop} :
    ∀ {p : List α}, List.Chain' R p → (∀ a b, R a b → W a) →
      ∀ {x}, p.getLast? = some x → W x → ∀ c ∈ p, W c := by
  intro p
  induction p with
  | nil => intro _ _ x hx; cases hx
  | cons a tl ih =>
    intro hch hR x hx hw c hcmem
    rcases tl with _ | ⟨b, tl2⟩
    · cases hx
      rcases List.mem_singleton.1 hcmem with rfl
      exact hw
    · rw [List.chain'_cons] at hch
      rw [List.getLast?_cons_cons] at hx
      rcases List.mem_cons.1 hcmem with rfl | htl
      · exact hR _ _ hch.1
      · exact ih hch.2 hR hx hw c htl

theorem adjacent_symm {a b : Coordinate} (h : Adjacent a b) : Adjacent b a := by
  rcases h with ⟨h1, h2⟩ | ⟨h1, h2⟩
  · exact Or.inl ⟨by rw [abs_sub_comm]; exact h1, h2.symm⟩
  · exact Or.inr ⟨h1.symm, by rw [abs_sub_comm]; exact h2⟩

theorem adjacent_ne {a b : Coordinate} (h : Adjacent a b) : a ≠ b := by
  intro he
  subst he
  rcases h with ⟨h1, _⟩ | ⟨_, h1⟩ <;> simp at h1

theorem ne_of_mem_getNeighbors {m : Maze} {c d : Coordinate}
    (h : d ∈ m.getNeighbors c.row c.col) : d ≠ c :=
  fun he => adjacent_ne (adjacent_of_mem_getNeighbors h) (by rw [he])

/-- Invariant tying a mark-on-discovery parent map to its visited set: the
parent map is well-structured, the root is visited, exactly the root and the
keyed nodes are visited. -/
def MarkInv (E : Coordinate → Coordinate → Prop) (s : Coordinate)
    (par : ParentMap) (vis : List Coordinate) : Prop :=
  ParStruct s E par ∧ s ∈ vis ∧
    (∀ k, (mapGet par k).isSome = true → k ∈ vis) ∧
    (∀ c ∈ vis, c = s ∨ (mapGet par c).isSome = true)

theorem discoverFold_cons (current : Coordinate)
    (vis ns : List Coordinate) (par : ParentMap) (nb : Coordinate)
    (tl : List Coordinate) :
    discoverFold current (vis, par, ns) (nb :: tl) =
      if nb ∈ vis then discoverFold current (vis, par, ns) tl
      else discoverFold current
        (nb :: vis, (nb, current) :: par, ns ++ [nb]) tl := rfl

theorem discoverFold_inv {E : Coordinate → Coordinate → Prop}
    {s current : Coordinate} :
    ∀ (l vis ns : List Coordinate) (par : ParentMap),
      (∀ c ∈ l, E current c) →
      (current = s ∨ (mapGet par current).isSome = true) →
      MarkInv E s par vis →
      (∀ c ∈ ns, c ∈ vis) →
      MarkInv E s (discoverFold current (vis, par, ns) l).2.1
          (discoverFold current (vis, par, ns) l).1 ∧
        (∀ c ∈ vis, c ∈ (discoverFold current (vis, par, ns) l).1) ∧
        (∀ c ∈ (discoverFold current (vis, par, ns) l).2.2,
          c ∈ (discoverFold current (vis, par, ns) l).1) ∧
        (∀ k, (mapGet par k).isSome = true →
          (mapGet (discoverFold current (vis, par, ns) l).2.1 k).isSome = true) := by
  intro l
  induction l with
  | nil =>
    intro vis ns par hl hcur hinv hns
    exact ⟨hinv, fun c hc => hc, hns, fun k hk => hk⟩
  | cons nb tl ih =>
    intro vis ns par hl hcur hinv hns
    obtain ⟨hps, hsvis, hkeys, hviscond⟩ := hinv
    rw [discoverFold_cons]
    by_cases hmem : nb ∈ vis
    · rw [if_pos hmem]
      exact ih vis ns par (fun c hc => hl c (List.mem_cons_of_mem _ hc)) hcur
        ⟨hps, hsvis, hkeys, hviscond⟩ hns
    · rw [if_neg hmem]
      have hfresh : mapGet par nb = none := by
        cases h : mapGet par nb with
        | none => rfl
        | some v => exact absurd (hkeys nb (by rw [h]; rfl)) hmem
      have hnbs : nb ≠ s := fun h => hmem (h ▸ hsvis)
      have hinv' : MarkInv E s ((nb, current) :: par) (nb :: vis) := by
        refine ⟨⟨hnbs, hfresh, hcur, hl nb (List.mem_cons_self nb tl), hps⟩,
          List.mem_cons_of_mem _ hsvis, ?_, ?_⟩
        · intro k hk
          rw [mapGet_cons] at hk
          split_ifs at hk with he
          · exact he ▸ List.mem_cons_self nb vis
          · exact List.mem_cons_of_mem _ (hkeys k hk)
        · intro c hc
          rcases List.mem_cons.1 hc with rfl | hcv
          · refine Or.inr ?_
            rw [mapGet_cons, if_pos rfl]
            rfl
          · rcases hviscond c hcv with h | h
            · exact Or.inl h
            · exact Or.inr (mapGet_isSome_cons _ h)
      obtain ⟨h1, h2, h3, h4⟩ := ih (nb :: vis) (ns ++ [nb]) ((nb, current) :: par)
        (fun c hc => hl c (List.mem_cons_of_mem _ hc))
        (by rcases hcur with h | h
            · exact Or.inl h
            · exact Or.inr (mapGet_isSome_cons _ h))
        hinv'
        (by intro c hc
            rcases List.mem_append.1 hc with h | h
            · exact List.mem_cons_of_mem _ (hns c h)
            · rcases List.mem_singleton.1 h with rfl
              exact List.mem_cons_self _ _)
      refine ⟨h1, ?_, h3, ?_⟩
      · intro c hc
        exact h2 c (List.mem_cons_of_mem _ hc)
      · intro k hk
        exact h4 k (mapGet_isSome_cons _ hk)

/-- Edge relation used by every search invariant: the key was discovered as a
grid neighbor of its parent. -/
def NbEdge (m : Maze) (v k : Coordinate) : Prop :=
  k ∈ m.getNeighbors v.row v.col

theorem markInv_reconstruct_valid {m : Maze} {par : ParentMap}
    {vis : List Coordinate}
    (hinv : MarkInv (NbEdge m) m.start par vis)
    (hs : isWalkableCell m m.start = true)
    (he : m.endCoord = m.start ∨ (mapGet par m.endCoord).isSome = true) :
    ValidPath m (PathfindingAlgorithms.reconstructPath par m.start m.endCoord
      (par.length + 1)) := by
  obtain ⟨p, hp, hh, hl, hch⟩ := reconstructGo_spec par m.start (rankOf par)
    (fun k v h => parStruct_rank hinv.1 h)
    (fun k v h => (parStruct_mem hinv.1 h).2.1)
    (par.length + 1) m.endCoord []
    (Nat.lt_succ_of_le (rankOf_le_length par m.endCoord)) he
  rw [PathfindingAlgorithms.reconstructPath, hp, List.append_nil]
  refine ⟨hh, hl, ?_, ?_⟩
  · exact hch.imp fun a b h =>
      adjacent_of_mem_getNeighbors (parStruct_mem hinv.1 h).1
  · exact chain'_all_from_head hch
      (fun a b h => walkable_of_mem_getNeighbors (parStruct_mem hinv.1 h).1)
      hh hs

theorem dfsLoop_validPath (m : Maze) (hs : isWalkableCell m m.start = true) :
    ∀ (fuel : Nat) (st : FrontierState), st.maze = m →
      MarkInv (NbEdge m) m.start st.parent st.visited →
      (∀ c ∈ st.frontier, c ∈ st.visited) →
      ∀ r mz p, PathfindingAlgorithms.dfsLoop fuel st = some (r, mz) →
        r.path = some p → ValidPath m p := by
  intro fuel
  induction fuel with
  | zero =>
    intro st hmz hinv hfr r mz p h
    simp [PathfindingAlgorithms.dfsLoop] at h
  | succ k ih =>
    intro st hmz hinv hfr r mz p h hp
    rw [PathfindingAlgorithms.dfsLoop] at h
    rw [hmz] at h
    rcases hst : st.frontier with _ | ⟨current, rest⟩ <;> rw [hst] at h
    · simp at h
      rw [← h.1] at hp
      cases hp
    · dsimp only at h
      have hcur : current ∈ st.visited := hfr current (hst ▸ List.mem_cons_self _ _)
      split_ifs at h with hend
      · simp at h
        rw [← h.1] at hp
        simp at hp
        subst hp
        exact hend ▸ markInv_reconstruct_valid hinv hs
          (hend ▸ hinv.2.2.2 current hcur)
      · obtain ⟨h1, h2, h3, h4⟩ := discoverFold_inv
          (m.getNeighbors current.row current.col) st.visited [] st.parent
          (fun c hc => hc) (hinv.2.2.2 current hcur) hinv (fun c hc => by cases hc)
        refine ih _ rfl h1 ?_ r mz p h hp
        intro c hc
        rcases List.mem_append.1 hc with hc' | hc'
        · exact h3 c (List.mem_reverse.1 hc')
        · exact h2 c (hfr c (hst ▸ List.mem_cons_of_mem _ hc'))

theorem bfsLoop_validPath (m : Maze) (hs : isWalkableCell m m.start = true) :
    ∀ (fuel : Nat) (st : FrontierState), st.maze = m →
      MarkInv (NbEdge m) m.start st.parent st.visited →
      (∀ c ∈ st.frontier, c ∈ st.visited) →
      ∀ r mz p, PathfindingAlgorithms.bfsLoop fuel st = some (r, mz) →
        r.path = some p → ValidPath m p := by
  intro fuel
  induction fuel with
  | zero =>
    intro st hmz hinv hfr r mz p h
    simp [PathfindingAlgorithms.bfsLoop] at h
  | succ k ih =>
    intro st hmz hinv hfr r mz p h hp
    rw [PathfindingAlgorithms.bfsLoop] at h
    rw [hmz] at h
    rcases hst : st.frontier with _ | ⟨current, rest⟩ <;> rw [hst] at h
    · simp at h
      rw [← h.1] at hp
      cases hp
    · dsimp only at h
      have hcur : current ∈ st.visited := hfr current (hst ▸ List.mem_cons_self _ _)
      split_ifs at h with hend
      · simp at h
        rw [← h.1] at hp
        simp at hp
        subst hp
        exact hend ▸ markInv_reconstruct_valid hinv hs
          (hend ▸ hinv.2.2.2 current hcur)
      · obtain ⟨h1, h2, h3, h4⟩ := discoverFold_inv
          (m.getNeighbors current.row current.col) st.visited [] st.parent
          (fun c hc => hc) (hinv.2.2.2 current hcur) hinv (fun c hc => by cases hc)
        refine ih _ rfl h1 ?_ r mz p h hp
        intro c hc
        rcases List.mem_append.1 hc with hc' | hc'
        · exact h2 c (hfr c (hst ▸ List.mem_cons_of_mem _ hc'))
        · exact h3 c hc'

theorem greedyFold_cons (goal current : Coordinate) (vis : List Coordinate)
    (par : ParentMap) (pq : PriorityQueue Coordinate Int) (nb : Coordinate)
    (tl : List Coordinate) :
    greedyFold goal current (vis, par, pq) (nb :: tl) =
      if nb ∈ vis then greedyFold goal current (vis, par, pq) tl
      else greedyFold goal current
        (nb :: vis, (nb, current) :: par,
          pq.enqueue nb (PathfindingAlgorithms.manhattanDistance nb goal)) tl :=
  rfl

theorem greedyFold_inv {E : Coordinate → Coordinate → Prop}
    {s current goal : Coordinate} :
    ∀ (l vis : List Coordinate) (par : ParentMap)
      (pq : PriorityQueue Coordinate Int),
      (∀ c ∈ l, E current c) →
      (current = s ∨ (mapGet par current).isSome = true) →
      MarkInv E s par vis →
      (∀ e ∈ pq.values, e.1 ∈ vis) →
      MarkInv E s (greedyFold goal current (vis, par, pq) l).2.1
          (greedyFold goal current (vis, par, pq) l).1 ∧
        (∀ c ∈ vis, c ∈ (greedyFold goal current (vis, par, pq) l).1) ∧
        (∀ e ∈ (greedyFold goal current (vis, par, pq) l).2.2.values,
          e.1 ∈ (greedyFold goal current (vis, par, pq) l).1) := by
  intro l
  induction l with
  | nil =>
    intro vis par pq hl hcur hinv hpq
    exact ⟨hinv, fun c hc => hc, hpq⟩
  | cons nb tl ih =>
    intro vis par pq hl hcur hinv hpq
    obtain ⟨hps, hsvis, hkeys, hviscond⟩ := hinv
    rw [greedyFold_cons]
    by_cases hmem : nb ∈ vis
    · rw [if_pos hmem]
      exact ih vis par pq (fun c hc => hl c (List.mem_cons_of_mem _ hc)) hcur
        ⟨hps, hsvis, hkeys, hviscond⟩ hpq
    · rw [if_neg hmem]
      have hfresh : mapGet par nb = none := by
        cases h : mapGet par nb with
        | none => rfl
        | some v => exact absurd (hkeys nb (by rw [h]; rfl)) hmem
      have hnbs : nb ≠ s := fun h => hmem (h ▸ hsvis)
      have hinv' : MarkInv E s ((nb, current) :: par) (nb :: vis) := by
        refine ⟨⟨hnbs, hfresh, hcur, hl nb (List.mem_cons_self nb tl), hps⟩,
          List.mem_cons_of_mem _ hsvis, ?_, ?_⟩
        · intro k hk
          rw [mapGet_cons] at hk
          split_ifs at hk with he
          · exact he ▸ List.mem_cons_self nb vis
          · exact List.mem_cons_of_mem _ (hkeys k hk)
        · intro c hc
          rcases List.mem_cons.1 hc with rfl | hcv
          · refine Or.inr ?_
            rw [mapGet_cons, if_pos rfl]
            rfl
          · rcases hviscond c hcv with h | h
            · exact Or.inl h
            · exact Or.inr (mapGet_isSome_cons _ h)
      obtain ⟨h1, h2, h3⟩ := ih (nb :: vis) ((nb, current) :: par)
        (pq.enqueue nb (PathfindingAlgorithms.manhattanDistance nb goal))
        (fun c hc => hl c (List.mem_cons_of_mem _ hc))
        (by rcases hcur with h | h
            · exact Or.inl h
            · exact Or.inr (mapGet_isSome_cons _ h))
        hinv'
        (by intro e he
            rcases mem_insertByPriority.1 he with h | h
            · exact List.mem_cons_of_mem _ (hpq e h)
            · rw [h]
              exact List.mem_cons_self _ _)
      refine ⟨h1, ?_, h3⟩
      intro c hc
      exact h2 c (List.mem_cons_of_mem _ hc)

theorem greedyLoop_validPath (m : Maze) (hs : isWalkableCell m m.start = true) :
    ∀ (fuel : Nat) (st : GreedyState), st.maze = m →
      MarkInv (NbEdge m) m.start st.parent st.visited →
      (∀ e ∈ st.pq.values, e.1 ∈ st.visited) →
      ∀ r mz p, PathfindingAlgorithms.greedyLoop fuel st = some (r, mz) →
        r.path = some p → ValidPath m p := by
  intro fuel
  induction fuel with
  | zero =>
    intro st hmz hinv hpq r mz p h
    simp [PathfindingAlgorithms.greedyLoop] at h
  | succ k ih =>
    intro st hmz hinv hpq r mz p h hp
    rw [PathfindingAlgorithms.greedyLoop] at h
    rw [hmz] at h
    rcases hst : st.pq.values with _ | ⟨⟨current, pri⟩, restPQ⟩ <;> rw [hst] at h
    · simp at h
      rw [← h.1] at hp
      cases hp
    · dsimp only at h
      have hcur : current ∈ st.visited :=
        hpq (current, pri) (hst ▸ List.mem_cons_self _ _)
      split_ifs at h with hend
      · simp at h
        rw [← h.1] at hp
        simp at hp
        subst hp
        exact hend ▸ markInv_reconstruct_valid hinv hs
          (hend ▸ hinv.2.2.2 current hcur)
      · obtain ⟨h1, h2, h3⟩ := greedyFold_inv
          (m.getNeighbors current.row current.col) st.visited st.parent ⟨restPQ⟩
          (fun c hc => hc) (hinv.2.2.2 current hcur) hinv
          (fun e he => hpq e (hst ▸ List.mem_cons_of_mem _ he))
        exact ih _ rfl h1 h3 r mz p h hp

/-- Invariant of relaxation-based parent maps (`dijkstra`, `astar`): every
binding records an edge and a parent that is the root or another key, with
strictly smaller recorded g-score; all g-scores are nonnegative and bounded by
the number of parent bindings. -/
def GParInv (E : Coordinate → Coordinate → Prop) (s : Coordinate)
    (g : CoordMap Int) (par : ParentMap) : Prop :=
  (∀ k v, mapGet par k = some v → E v k ∧
    (v = s ∨ (mapGet par v).isSome = true) ∧
    ∃ gk gv, mapGet g k = some gk ∧ mapGet g v = some gv ∧ gv < gk) ∧
  (∀ k gk, mapGet g k = some gk → 0 ≤ gk ∧ gk.toNat ≤ par.length)

theorem gparInv_reconstruct_valid {m : Maze} {g : CoordMap Int}
    {par : ParentMap}
    (hinv : GParInv (NbEdge m) m.start g par)
    (hs : isWalkableCell m m.start = true)
    (he : m.endCoord = m.start ∨ (mapGet par m.endCoord).isSome = true)
    (hge : (mapGet g m.endCoord).isSome = true) :
    ValidPath m (PathfindingAlgorithms.reconstructPath par m.start m.endCoord
      (par.length + 1)) := by
  obtain ⟨ge, hge'⟩ := Option.isSome_iff_exists.1 hge
  obtain ⟨p, hp, hh, hl, hch⟩ := reconstructGo_spec par m.start
    (fun c => ((mapGet g c).getD 0).toNat)
    (by intro k v hkv
        obtain ⟨-, -, gk, gv, hgk, hgv, hlt⟩ := hinv.1 k v hkv
        have h0 : 0 ≤ gv := (hinv.2 v gv hgv).1
        show ((mapGet g v).getD 0).toNat < ((mapGet g k).getD 0).toNat
        rw [hgk, hgv]
        simp only [Option.getD_some]
        omega)
    (fun k v hkv => (hinv.1 k v hkv).2.1)
    (par.length + 1) m.endCoord []
    (by show ((mapGet g m.endCoord).getD 0).toNat < par.length + 1
        rw [hge']
        simp only [Option.getD_some]
        exact Nat.lt_succ_of_le (hinv.2 m.endCoord ge hge').2)
    he
  rw [PathfindingAlgorithms.reconstructPath, hp, List.append_nil]
  refine ⟨hh, hl, ?_, ?_⟩
  · exact hch.imp fun a b h => adjacent_of_mem_getNeighbors (hinv.1 b a h).1
  · exact chain'_all_from_head hch
      (fun a b h => walkable_of_mem_getNeighbors (hinv.1 b a h).1) hh hs

theorem relaxFold_cons (current : Coordinate) (dcur : Int) (g : CoordMap Int)
    (par : ParentMap) (pq : PriorityQueue Coordinate Int) (nb : Coordinate)
    (tl : List Coordinate) :
    relaxFold current dcur (g, par, pq) (nb :: tl) =
      if (match mapGet g nb with
          | none => true
          | some d => decide (dcur + 1 < d)) = true then
        relaxFold current dcur
          ((nb, dcur + 1) :: g, (nb, current) :: par,
            pq.enqueue nb (dcur + 1)) tl
      else relaxFold current dcur (g, par, pq) tl := rfl

theorem relaxFold_gparInv {E : Coordinate → Coordinate → Prop}
    {s current : Coordinate} {dcur : Int} :
    ∀ (l : List Coordinate) (g : CoordMap Int) (par : ParentMap)
      (pq : PriorityQueue Coordinate Int),
      (∀ c ∈ l, E current c ∧ c ≠ current) →
      (current = s ∨ (mapGet par current).isSome = true) →
      mapGet g current = some dcur →
      GParInv E s g par →
      (∀ e ∈ pq.values, (e.1 = s ∨ (mapGet par e.1).isSome = true) ∧
        (mapGet g e.1).isSome = true) →
      GParInv E s (relaxFold current dcur (g, par, pq) l).1
          (relaxFold current dcur (g, par, pq) l).2.1 ∧
        (∀ e ∈ (relaxFold current dcur (g, par, pq) l).2.2.values,
          (e.1 = s ∨
            (mapGet (relaxFold current dcur (g, par, pq) l).2.1 e.1).isSome
              = true) ∧
          (mapGet (relaxFold current dcur (g, par, pq) l).1 e.1).isSome
            = true) := by
  intro l
  induction l with
  | nil =>
    intro g par pq hl hcur hg hinv hpq
    exact ⟨hinv, hpq⟩
  | cons nb tl ih =>
    intro g par pq hl hcur hg hinv hpq
    have hnbc : nb ≠ current := (hl nb (List.mem_cons_self _ _)).2
    rw [relaxFold_cons]
    by_cases hrel : (match mapGet g nb with
        | none => true
        | some d => decide (dcur + 1 < d)) = true
    · rw [if_pos hrel]
      have hlt : ∀ d, mapGet g nb = some d → dcur + 1 < d := by
        intro d hd
        rw [hd] at hrel
        exact of_decide_eq_true hrel
      have hdcur := hinv.2 current dcur hg
      have hg' : mapGet ((nb, dcur + 1) :: g) current = some dcur := by
        rw [mapGet_cons, if_neg hnbc]
        exact hg
      have hinv' : GParInv E s ((nb, dcur + 1) :: g)
          ((nb, current) :: par) := by
        constructor
        · intro k v hkv
          rw [mapGet_cons] at hkv
          split_ifs at hkv with he
          · subst he
            have hv : v = current := by injection hkv with h; exact h.symm
            subst hv
            refine ⟨(hl nb (List.mem_cons_self _ _)).1, ?_, dcur + 1, dcur,
              by rw [mapGet_cons, if_pos rfl], hg', by omega⟩
            rcases hcur with h | h
            · exact Or.inl h
            · exact Or.inr (mapGet_isSome_cons _ h)
          · obtain ⟨hE, hroot, gk, gv, hgk, hgv, hltv⟩ := hinv.1 k v hkv
            refine ⟨hE, ?_, ?_⟩
            · rcases hroot with h | h
              · exact Or.inl h
              · exact Or.inr (mapGet_isSome_cons _ h)
            · by_cases hvnb : nb = v
              · subst hvnb
                refine ⟨gk, dcur + 1, ?_, by rw [mapGet_cons, if_pos rfl], ?_⟩
                · rw [mapGet_cons, if_neg he]
                  exact hgk
                · exact lt_trans (hlt gv hgv) hltv
              · refine ⟨gk, gv, ?_, ?_, hltv⟩
                · rw [mapGet_cons, if_neg he]
                  exact hgk
                · rw [mapGet_cons, if_neg hvnb]
                  exact hgv
        · intro k gk hgk
          rw [mapGet_cons] at hgk
          split_ifs at hgk with he
          · have h2 : gk = dcur + 1 := by injection hgk with h; exact h.symm
            subst h2
            show _ ∧ _ ≤ par.length + 1
            omega
          · have := hinv.2 k gk hgk
            show _ ∧ _ ≤ par.length + 1
            omega
      refine ih ((nb, dcur + 1) :: g) ((nb, current) :: par)
        (pq.enqueue nb (dcur + 1))
        (fun c hc => hl c (List.mem_cons_of_mem _ hc))
        (by rcases hcur with h | h
            · exact Or.inl h
            · exact Or.inr (mapGet_isSome_cons _ h))
        hg' hinv' ?_
      intro e he
      rcases mem_insertByPriority.1 he with h | h
      · obtain ⟨h1, h2⟩ := hpq e h
        refine ⟨?_, mapGet_isSome_cons _ h2⟩
        rcases h1 with h' | h'
        · exact Or.inl h'
        · exact Or.inr (mapGet_isSome_cons _ h')
      · subst h
        constructor
        · refine Or.inr ?_
          rw [mapGet_cons, if_pos rfl]
          rfl
        · rw [mapGet_cons, if_pos rfl]
          rfl
    · rw [if_neg hrel]
      exact ih g par pq (fun c hc => hl c (List.mem_cons_of_mem _ hc)) hcur hg
        hinv hpq

theorem dijkstraLoop_validPath (m : Maze)
    (hs : isWalkableCell m m.start = true) :
    ∀ (fuel : Nat) (st : DijkstraState), st.maze = m →
      GParInv (NbEdge m) m.start st.distances st.parent →
      (∀ e ∈ st.pq.values,
        (e.1 = m.start ∨ (mapGet st.parent e.1).isSome = true) ∧
        (mapGet st.distances e.1).isSome = true) →
      ∀ r mz p, PathfindingAlgorithms.dijkstraLoop fuel st = some (r, mz) →
        r.path = some p → ValidPath m p := by
  intro fuel
  induction fuel with
  | zero =>
    intro st hmz hinv hpq r mz p h
    simp [PathfindingAlgorithms.dijkstraLoop] at h
  | succ k ih =>
    intro st hmz hinv hpq r mz p h hp
    rw [PathfindingAlgorithms.dijkstraLoop] at h
    rw [hmz] at h
    rcases hst : st.pq.values with _ | ⟨⟨current, pri⟩, restPQ⟩ <;> rw [hst] at h
    · simp at h
      rw [← h.1] at hp
      cases hp
    · dsimp only at h
      have hent := hpq (current, pri) (hst ▸ List.mem_cons_self _ _)
      split_ifs at h with hvis hend
      · exact ih { st with maze := m, pq := ⟨restPQ⟩ } rfl hinv
          (fun e he => hpq e (hst ▸ List.mem_cons_of_mem _ he)) r mz p h hp
      · simp at h
        rw [← h.1] at hp
        simp at hp
        subst hp
        exact hend ▸ gparInv_reconstruct_valid hinv hs (hend ▸ hent.1)
          (hend ▸ hent.2)
      · obtain ⟨ge, hge'⟩ := Option.isSome_iff_exists.1 hent.2
        rw [hge'] at h
        simp only [Option.getD_some] at h
        obtain ⟨h1, h2⟩ := relaxFold_gparInv
          (m.getNeighbors current.row current.col) st.distances st.parent
          ⟨restPQ⟩
          (fun c hc => ⟨hc, ne_of_mem_getNeighbors hc⟩)
          hent.1 hge' hinv
          (fun e he => hpq e (hst ▸ List.mem_cons_of_mem _ he))
        exact ih _ rfl h1 h2 r mz p h hp

theorem astarRelaxFold_cons {P : Type} [LinearOrderedRing P]
    (hfun : Coordinate → Coordinate → P) (goal current : Coordinate)
    (gcur : Int) (g : CoordMap Int) (f : CoordMap P) (par : ParentMap)
    (pq : PriorityQueue Coordinate P) (nb : Coordinate)
    (tl : List Coordinate) :
    astarRelaxFold hfun goal current gcur (g, f, par, pq) (nb :: tl) =
      if (match mapGet g nb with
          | none => true
          | some gn => decide (gcur + 1 < gn)) = true then
        astarRelaxFold hfun goal current gcur
          ((nb, gcur + 1) :: g,
            (nb, ((gcur + 1 : Int) : P) + hfun nb goal) :: f,
            (nb, current) :: par,
            pq.enqueue nb ((mapGet
                ((nb, ((gcur + 1 : Int) : P) + hfun nb goal) :: f) nb).getD
              (((gcur + 1 : Int) : P) + hfun nb goal))) tl
      else astarRelaxFold hfun goal current gcur (g, f, par, pq) tl := rfl

theorem astarRelaxFold_gparInv {P : Type} [LinearOrderedRing P]
    {hfun : Coordinate → Coordinate → P}
    {E : Coordinate → Coordinate → Prop} {s goal current : Coordinate}
    {gcur : Int} :
    ∀ (l : List Coordinate) (g : CoordMap Int) (f : CoordMap P)
      (par : ParentMap) (pq : PriorityQueue Coordinate P),
      (∀ c ∈ l, E current c ∧ c ≠ current) →
      (current = s ∨ (mapGet par current).isSome = true) →
      mapGet g current = some gcur →
      GParInv E s g par →
      (∀ e ∈ pq.values, (e.1 = s ∨ (mapGet par e.1).isSome = true) ∧
        (mapGet g e.1).isSome = true) →
      GParInv E s (astarRelaxFold hfun goal current gcur (g, f, par, pq) l).1
          (astarRelaxFold hfun goal current gcur (g, f, par, pq) l).2.2.1 ∧
        (∀ e ∈ (astarRelaxFold hfun goal current gcur
            (g, f, par, pq) l).2.2.2.values,
          (e.1 = s ∨ (mapGet (astarRelaxFold hfun goal current gcur
              (g, f, par, pq) l).2.2.1 e.1).isSome = true) ∧
          (mapGet (astarRelaxFold hfun goal current gcur
              (g, f, par, pq) l).1 e.1).isSome = true) := by
  intro l
  induction l with
  | nil =>
    intro g f par pq hl hcur hg hinv hpq
    exact ⟨hinv, hpq⟩
  | cons nb tl ih =>
    intro g f par pq hl hcur hg hinv hpq
    have hnbc : nb ≠ current := (hl nb (List.mem_cons_self _ _)).2
    rw [astarRelaxFold_cons]
    by_cases hrel : (match mapGet g nb with
        | none => true
        | some gn => decide (gcur + 1 < gn)) = true
    · rw [if_pos hrel]
      have hlt : ∀ d, mapGet g nb = some d → gcur + 1 < d := by
        intro d hd
        rw [hd] at hrel
        exact of_decide_eq_true hrel
      have hdcur := hinv.2 current gcur hg
      have hg' : mapGet ((nb, gcur + 1) :: g) current = some gcur := by
        rw [mapGet_cons, if_neg hnbc]
        exact hg
      have hinv' : GParInv E s ((nb, gcur + 1) :: g)
          ((nb, current) :: par) := by
        constructor
        · intro k v hkv
          rw [mapGet_cons] at hkv
          split_ifs at hkv with he
          · subst he
            have hv : v = current := by injection hkv with h; exact h.symm
            subst hv
            refine ⟨(hl nb (List.mem_cons_self _ _)).1, ?_, gcur + 1, gcur,
              by rw [mapGet_cons, if_pos rfl], hg', by omega⟩
            rcases hcur with h | h
            · exact Or.inl h
            · exact Or.inr (mapGet_isSome_cons _ h)
          · obtain ⟨hE, hroot, gk, gv, hgk, hgv, hltv⟩ := hinv.1 k v hkv
            refine ⟨hE, ?_, ?_⟩
            · rcases hroot with h | h
              · exact Or.inl h
              · exact Or.inr (mapGet_isSome_cons _ h)
            · by_cases hvnb : nb = v
              · subst hvnb
                refine ⟨gk, gcur + 1, ?_, by rw [mapGet_cons, if_pos rfl], ?_⟩
                · rw [mapGet_cons, if_neg he]
                  exact hgk
                · exact lt_trans (hlt gv hgv) hltv
              · refine ⟨gk, gv, ?_, ?_, hltv⟩
                · rw [mapGet_cons, if_neg he]
                  exact hgk
                · rw [mapGet_cons, if_neg hvnb]
                  exact hgv
        · intro k gk hgk
          rw [mapGet_cons] at hgk
          split_ifs at hgk with he
          · have h2 : gk = gcur + 1 := by injection hgk with h; exact h.symm
            subst h2
            show _ ∧ _ ≤ par.length + 1
            omega
          · have := hinv.2 k gk hgk
            show _ ∧ _ ≤ par.length + 1
            omega
      refine ih ((nb, gcur + 1) :: g)
        ((nb, ((gcur + 1 : Int) : P) + hfun nb goal) :: f)
        ((nb, current) :: par) _
        (fun c hc => hl c (List.mem_cons_of_mem _ hc))
        (by rcases hcur with h | h
            · exact Or.inl h
            · exact Or.inr (mapGet_isSome_cons _ h))
        hg' hinv' ?_
      intro e he
      rcases mem_insertByPriority.1 he with h | h
      · obtain ⟨h1, h2⟩ := hpq e h
        refine ⟨?_, mapGet_isSome_cons _ h2⟩
        rcases h1 with h' | h'
        · exact Or.inl h'
        · exact Or.inr (mapGet_isSome_cons _ h')
      · subst h
        constructor
        · refine Or.inr ?_
          rw [mapGet_cons, if_pos rfl]
          rfl
        · rw [mapGet_cons, if_pos rfl]
          rfl
    · rw [if_neg hrel]
      exact ih g f par pq (fun c hc => hl c (List.mem_cons_of_mem _ hc)) hcur
        hg hinv hpq

theorem astarLoop_validPath {P : Type} [LinearOrderedRing P]
    (hfun : Coordinate → Coordinate → P) (heurName : String) (m : Maze)
    (hs : isWalkableCell m m.start = true) :
    ∀ (fuel : Nat) (st : AstarState P), st.maze = m →
      GParInv (NbEdge m) m.start st.gScore st.parent →
      (∀ e ∈ st.pq.values,
        (e.1 = m.start ∨ (mapGet st.parent e.1).isSome = true) ∧
        (mapGet st.gScore e.1).isSome = true) →
      ∀ r mz p,
        PathfindingAlgorithms.astarLoop hfun heurName fuel st = some (r, mz) →
        r.path = some p → ValidPath m p := by
  intro fuel
  induction fuel with
  | zero =>
    intro st hmz hinv hpq r mz p h
    simp [PathfindingAlgorithms.astarLoop] at h
  | succ k ih =>
    intro st hmz hinv hpq r mz p h hp
    rw [PathfindingAlgorithms.astarLoop] at h
    rw [hmz] at h
    rcases hst : st.pq.values with _ | ⟨⟨current, pri⟩, restPQ⟩ <;> rw [hst] at h
    · simp at h
      rw [← h.1] at hp
      cases hp
    · dsimp only at h
      have hent := hpq (current, pri) (hst ▸ List.mem_cons_self _ _)
      split_ifs at h with hvis hend
      · exact ih { st with maze := m, pq := ⟨restPQ⟩ } rfl hinv
          (fun e he => hpq e (hst ▸ List.mem_cons_of_mem _ he)) r mz p h hp
      · simp at h
        rw [← h.1] at hp
        simp at hp
        subst hp
        exact hend ▸ gparInv_reconstruct_valid hinv hs (hend ▸ hent.1)
          (hend ▸ hent.2)
      · obtain ⟨ge, hge'⟩ := Option.isSome_iff_exists.1 hent.2
        rw [hge'] at h
        simp only [Option.getD_some] at h
        obtain ⟨h1, h2⟩ := astarRelaxFold_gparInv
          (m.getNeighbors current.row current.col) st.gScore st.fScore
          st.parent ⟨restPQ⟩
          (fun c hc => ⟨hc, ne_of_mem_getNeighbors hc⟩)
          hent.1 hge' hinv
          (fun e he => hpq e (hst ▸ List.mem_cons_of_mem _ he))
        exact ih _ rfl h1 h2 r mz p h hp

theorem bidi_reconstruct_valid {m : Maze} {parS parE : ParentMap}
    {visS visE : List Coordinate} {meeting : Coordinate}
    (hinvS : MarkInv (NbEdge m) m.start parS visS)
    (hinvE : MarkInv (NbEdge m) m.endCoord parE visE)
    (hs : isWalkableCell m m.start = true)
    (he : isWalkableCell m m.endCoord = true)
    (hmS : meeting = m.start ∨ (mapGet parS meeting).isSome = true)
    (hmE : meeting = m.endCoord ∨ (mapGet parE meeting).isSome = true) :
    ValidPath m (PathfindingAlgorithms.reconstructBidirectionalPath parS parE
      m.start meeting m.endCoord (parS.length + 1) (parE.length + 1)) := by
  obtain ⟨pF, hpF, hFh, hFl, hFch⟩ := reconstructGo_spec parS m.start
    (rankOf parS)
    (fun k v h => parStruct_rank hinvS.1 h)
    (fun k v h => (parStruct_mem hinvS.1 h).2.1)
    (parS.length + 1) meeting []
    (Nat.lt_succ_of_le (rankOf_le_length parS meeting)) hmS
  rw [List.append_nil] at hpF
  rw [PathfindingAlgorithms.reconstructBidirectionalPath, hpF]
  cases h2 : mapGet parE meeting with
  | none =>
    have hme : meeting = m.endCoord := by
      rcases hmE with h | h
      · exact h
      · rw [h2] at h
        cases h
    show ValidPath m (pF ++ [])
    rw [List.append_nil]
    refine ⟨hFh, by rw [hFl, hme], ?_, ?_⟩
    · exact hFch.imp fun a b h =>
        adjacent_of_mem_getNeighbors (parStruct_mem hinvS.1 h).1
    · exact chain'_all_from_head hFch
        (fun a b h => walkable_of_mem_getNeighbors (parStruct_mem hinvS.1 h).1)
        hFh hs
  | some v =>
    obtain ⟨pE, hpE, hEh, hEl, hEch⟩ := reconstructEndGo_spec parE m.endCoord
      (rankOf parE)
      (fun k v h => parStruct_rank hinvE.1 h)
      (fun k v h => (parStruct_mem hinvE.1 h).2.1)
      (parE.length + 1) v []
      (Nat.lt_succ_of_le (rankOf_le_length parE v))
      ((parStruct_mem hinvE.1 h2).2.1)
    rw [List.nil_append] at hpE
    rw [hpE]
    have hpFne : pF ≠ [] := by
      intro hnil
      rw [hnil] at hFh
      cases hFh
    have hpEne : pE ≠ [] := by
      intro hnil
      rw [hnil] at hEh
      cases hEh
    refine ⟨?_, ?_, ?_, ?_⟩
    · rcases pF with _ | ⟨x, t⟩
      · cases hFh
      · exact hFh
    · rw [List.getLast?_append, hEl]
      rfl
    · rw [List.chain'_append]
      refine ⟨?_, ?_, ?_⟩
      · exact hFch.imp fun a b h =>
          adjacent_of_mem_getNeighbors (parStruct_mem hinvS.1 h).1
      · exact hEch.imp fun a b h =>
          adjacent_symm (adjacent_of_mem_getNeighbors (parStruct_mem hinvE.1 h).1)
      · intro x hx y hy
        rw [hFl] at hx
        cases hx
        rw [hEh] at hy
        cases hy
        exact adjacent_symm
          (adjacent_of_mem_getNeighbors (parStruct_mem hinvE.1 h2).1)
    · intro c hc
      rcases List.mem_append.1 hc with hcF | hcE
      · exact chain'_all_from_head hFch
          (fun a b h =>
            walkable_of_mem_getNeighbors (parStruct_mem hinvS.1 h).1)
          hFh hs c hcF
      · exact chain'_all_from_last hEch
          (fun a b h =>
            walkable_of_mem_getNeighbors (parStruct_mem hinvE.1 h).1)
          hEl he c hcE

theorem bidiLoop_validPath (m : Maze)
    (hs : isWalkableCell m m.start = true)
    (he : isWalkableCell m m.endCoord = true) :
    ∀ (fuel : Nat) (st : BidiState), st.maze = m →
      MarkInv (NbEdge m) m.start st.parentStart st.visitedStart →
      MarkInv (NbEdge m) m.endCoord st.parentEnd st.visitedEnd →
      (∀ c ∈ st.queueStart, c ∈ st.visitedStart) →
      (∀ c ∈ st.queueEnd, c ∈ st.visitedEnd) →
      ∀ r mz p, PathfindingAlgorithms.bidiLoop fuel st = some (r, mz) →
        r.path = some p → ValidPath m p := by
  intro fuel
  induction fuel with
  | zero =>
    intro st hmz hinvS hinvE hqS hqE r mz p h
    simp [PathfindingAlgorithms.bidiLoop] at h
  | succ k ih =>
    intro st hmz hinvS hinvE hqS hqE r mz p h hp
    rw [PathfindingAlgorithms.bidiLoop] at h
    rw [hmz] at h
    rcases hq1 : st.queueStart with _ | ⟨current, restS⟩ <;> rw [hq1] at h
    · dsimp only at h
      simp at h
      rw [← h.1] at hp
      cases hp
    · rcases hq2 : st.queueEnd with _ | ⟨current2, restE⟩ <;> rw [hq2] at h
      · dsimp only at h
        simp at h
        rw [← h.1] at hp
        cases hp
      · dsimp only at h
        have hcur : current ∈ st.visitedStart :=
          hqS current (hq1 ▸ List.mem_cons_self _ _)
        have hcur2E : current2 ∈ st.visitedEnd :=
          hqE current2 (hq2 ▸ List.mem_cons_self _ _)
        split_ifs at h with hmeet1 hmeet2
        · simp [PathfindingAlgorithms.bidiMeet] at h
          rw [← h.1] at hp
          simp at hp
          subst hp
          rw [hmz]
          exact bidi_reconstruct_valid hinvS hinvE hs he
            (hinvS.2.2.2 current hcur) (hinvE.2.2.2 current hmeet1)
        · obtain ⟨h1, h2, h3, h4⟩ := discoverFold_inv
            (m.getNeighbors current.row current.col) st.visitedStart []
            st.parentStart (fun c hc => hc) (hinvS.2.2.2 current hcur) hinvS
            (fun c hc => by cases hc)
          simp [PathfindingAlgorithms.bidiMeet] at h
          rw [← h.1] at hp
          simp at hp
          subst hp
          exact bidi_reconstruct_valid h1 hinvE hs he
            (h1.2.2.2 current2 hmeet2) (hinvE.2.2.2 current2 hcur2E)
        · obtain ⟨h1, h2, h3, h4⟩ := discoverFold_inv
            (m.getNeighbors current.row current.col) st.visitedStart []
            st.parentStart (fun c hc => hc) (hinvS.2.2.2 current hcur) hinvS
            (fun c hc => by cases hc)
          obtain ⟨h1', h2', h3', h4'⟩ := discoverFold_inv
            (m.getNeighbors current2.row current2.col) st.visitedEnd []
            st.parentEnd (fun c hc => hc) (hinvE.2.2.2 current2 hcur2E) hinvE
            (fun c hc => by cases hc)
          refine ih _ rfl h1 h1' ?_ ?_ r mz p h hp
          · intro c hc
            rcases List.mem_append.1 hc with hc' | hc'
            · exact h2 c (hqS c (hq1 ▸ List.mem_cons_of_mem _ hc'))
            · exact h3 c hc'
          · intro c hc
            rcases List.mem_append.1 hc with hc' | hc'
            · exact h2' c (hqE c (hq2 ▸ List.mem_cons_of_mem _ hc'))
            · exact h3' c hc'

theorem markInv_init (m : Maze) (root : Coordinate) :
    MarkInv (NbEdge m) root [] [root] := by
  refine ⟨trivial, List.mem_cons_self _ _, ?_, ?_⟩
  · intro k hk
    cases hk
  · intro c hc
    rcases List.mem_singleton.1 hc with rfl
    exact Or.inl rfl

theorem gparInv_init (m : Maze) (root : Coordinate) :
    GParInv (NbEdge m) root [(root, 0)] [] := by
  constructor
  · intro k v hkv
    cases hkv
  · intro k gk hgk
    rw [mapGet_cons] at hgk
    split_ifs at hgk with he
    · have h2 : gk = 0 := by injection hgk with h; exact h.symm
      subst h2
      exact ⟨le_refl 0, Nat.le_refl 0⟩
    · cases hgk

/-- C3: on a maze whose start and goal cells are walkable, every non-null
path returned by any of the algorithms (DFS, BFS, Dijkstra, A* over any
ordered-ring priority type and any heuristic function — in particular the two
JS-selectable heuristics — Greedy, and Bidirectional BFS) starts at the start
coordinate, ends at the goal coordinate, moves one unit along one axis per
step, and visits only walkable cells. -/
theorem C3_path_validity (m : Maze)
    (hs : isWalkableCell m m.start = true)
    (he : isWalkableCell m m.endCoord = true) :
    (∀ r mz p, PathfindingAlgorithms.dfs m = some (r, mz) →
      r.path = some p → ValidPath m p) ∧
    (∀ r mz p, PathfindingAlgorithms.bfs m = some (r, mz) →
      r.path = some p → ValidPath m p) ∧
    (∀ r mz p, PathfindingAlgorithms.dijkstra m = some (r, mz) →
      r.path = some p → ValidPath m p) ∧
    (∀ (P : Type) [inst : LinearOrderedRing P]
      (hfun : Coordinate → Coordinate → P) (heurName : String) r mz p,
      PathfindingAlgorithms.astar hfun heurName m = some (r, mz) →
      r.path = some p → ValidPath m p) ∧
    (∀ heuristic r mz p,
      PathfindingAlgorithms.astarJS m heuristic = some (r, mz) →
      r.path = some p → ValidPath m p) ∧
    (∀ r mz p, PathfindingAlgorithms.greedy m = some (r, mz) →
      r.path = some p → ValidPath m p) ∧
    (∀ r mz p, PathfindingAlgorithms.bidirectional m = some (r, mz) →
      r.path = some p → ValidPath m p) := by
  have hq1 : ∀ c ∈ [m.start], c ∈ [m.start] := fun c hc => hc
  have hastar : ∀ (P : Type) [inst : LinearOrderedRing P]
      (hfun : Coordinate → Coordinate → P) (heurName : String) r mz p,
      PathfindingAlgorithms.astar hfun heurName m = some (r, mz) →
      r.path = some p → ValidPath m p := by
    intro P inst hfun heurName r mz p h hp
    rw [PathfindingAlgorithms.astar] at h
    refine astarLoop_validPath hfun heurName m hs _ _ rfl (gparInv_init m _)
      ?_ r mz p h hp
    intro e heq
    rcases List.mem_singleton.1 heq with rfl
    refine ⟨Or.inl rfl, ?_⟩
    rw [mapGet_cons, if_pos rfl]
    rfl
  refine ⟨?_, ?_, ?_, hastar, ?_, ?_, ?_⟩
  · intro r mz p h hp
    rw [PathfindingAlgorithms.dfs] at h
    exact dfsLoop_validPath m hs _ _ rfl (markInv_init m _) hq1 r mz p h hp
  · intro r mz p h hp
    rw [PathfindingAlgorithms.bfs] at h
    exact bfsLoop_validPath m hs _ _ rfl (markInv_init m _) hq1 r mz p h hp
  · intro r mz p h hp
    rw [PathfindingAlgorithms.dijkstra] at h
    refine dijkstraLoop_validPath m hs _ _ rfl (gparInv_init m _) ?_ r mz p h hp
    intro e heq
    rcases List.mem_singleton.1 heq with rfl
    refine ⟨Or.inl rfl, ?_⟩
    rw [mapGet_cons, if_pos rfl]
    rfl
  · intro heuristic r mz p h hp
    rw [PathfindingAlgorithms.astarJS] at h
    exact hastar ℝ (PathfindingAlgorithms.heuristicFuncOf heuristic)
      heuristic r mz p h hp
  · intro r mz p h hp
    rw [PathfindingAlgorithms.greedy] at h
    refine greedyLoop_validPath m hs _ _ rfl (markInv_init m _) ?_ r mz p h hp
    intro e heq
    rcases List.mem_singleton.1 heq with rfl
    exact List.mem_cons_self _ _
  · intro r mz p h hp
    rw [PathfindingAlgorithms.bidirectional] at h
    exact bidiLoop_validPath m hs he _ _ rfl (markInv_init m _)
      (markInv_init m _) hq1 (fun c hc => hc) r mz p h hp

def wit3Maze : Maze :=
  { rows := 3, cols := 4,
    grid := [[some 1, some 1, some 1, some 1],
             [some 1, some 0, some 0, some 1],
             [some 1, some 1, some 0, some 1]],
    start := ⟨1, 1⟩, endCoord := ⟨2, 2⟩ }

theorem C3_path_validity_witness :
    ValidPath wit3Maze [⟨1, 1⟩, ⟨1, 2⟩, ⟨2, 2⟩] :=
  (C3_path_validity wit3Maze (by decide) (by decide)).2.1
    { path := some [⟨1, 1⟩, ⟨1, 2⟩, ⟨2, 2⟩], nodesExplored := 3,
      optimal := true, heuristic := none }
    wit3Maze [⟨1, 1⟩, ⟨1, 2⟩, ⟨2, 2⟩] (by decide) rfl

/-! ## Claim C2: termination and completeness machinery -/

/-- In-bounds coordinates (the `isValid` bound, as a proposition). -/
def InBounds (m : Maze) (c : Coordinate) : Prop :=
  0 ≤ c.row ∧ c.row < m.rows ∧ 0 ≤ c.col ∧ c.col < m.cols

theorem inBounds_of_walkable {m : Maze} {c : Coordinate}
    (h : isWalkableCell m c = true) : InBounds m c :=
  (isWalkableCell_iff.1 h).1

theorem inBounds_of_mem_getNeighbors {m : Maze} {row col : Int}
    {c : Coordinate} (h : c ∈ m.getNeighbors row col) : InBounds m c :=
  inBounds_of_walkable (walkable_of_mem_getNeighbors h)

/-- Linear cell index of an in-bounds coordinate. -/
def coordKey (cols : Int) (c : Coordinate) : Nat :=
  c.row.toNat * cols.toNat + c.col.toNat

theorem coordKey_step {ra ca rb : Nat} (C : Nat) (hac : ca < C)
    (hr : ra < rb) : ra * C + ca < rb * C := by
  have h1 : ra * C + ca < ra * C + C := by omega
  have h2 : ra * C + C = (ra + 1) * C := by ring
  have h3 : (ra + 1) * C ≤ rb * C := Nat.mul_le_mul_right C (by omega)
  omega

theorem coordKey_inj {m : Maze} {a b : Coordinate} (ha : InBounds m a)
    (hb : InBounds m b) (h : coordKey m.cols a = coordKey m.cols b) :
    a = b := by
  obtain ⟨ha1, ha2, ha3, ha4⟩ := ha
  obtain ⟨hb1, hb2, hb3, hb4⟩ := hb
  unfold coordKey at h
  have hac : a.col.toNat < m.cols.toNat := by omega
  have hbc : b.col.toNat < m.cols.toNat := by omega
  rcases Nat.lt_trichotomy a.row.toNat b.row.toNat with hr | hr | hr
  · have := coordKey_step m.cols.toNat hac hr
    omega
  · rw [hr] at h
    have hcol := Nat.add_left_cancel h
    obtain ⟨ar, ac⟩ := a
    obtain ⟨br, bc⟩ := b
    simp only [Coordinate.mk.injEq]
    simp only at ha1 ha2 ha3 ha4 hb1 hb2 hb3 hb4 hcol hr
    omega
  · have := coordKey_step m.cols.toNat hbc hr
    omega

theorem coordKey_lt {m : Maze} {c : Coordinate} (hc : InBounds m c) :
    coordKey m.cols c < cellCount m := by
  obtain ⟨h1, h2, h3, h4⟩ := hc
  unfold coordKey cellCount
  have hcc : c.col.toNat < m.cols.toNat := by omega
  have hrr : c.row.toNat < m.rows.toNat := by omega
  calc c.row.toNat * m.cols.toNat + c.col.toNat
      < c.row.toNat * m.cols.toNat + m.cols.toNat := by omega
    _ = (c.row.toNat + 1) * m.cols.toNat := by ring
    _ ≤ m.rows.toNat * m.cols.toNat := Nat.mul_le_mul_right _ (by omega)

theorem length_le_cellCount {m : Maze} {l : List Coordinate}
    (hnd : l.Nodup) (hb : ∀ c ∈ l, InBounds m c) :
    l.length ≤ cellCount m := by
  have hmap : (l.map (coordKey m.cols)).Nodup := by
    rw [List.nodup_map_iff_inj_on hnd]
    intro a ha b hb' h
    exact coordKey_inj (hb a ha) (hb b hb') h
  have hsub : (l.map (coordKey m.cols)).toFinset ⊆
      Finset.range (cellCount m) := by
    intro x hx
    rw [List.mem_toFinset] at hx
    obtain ⟨c, hc, rfl⟩ := List.mem_map.1 hx
    exact Finset.mem_range.2 (coordKey_lt (hb c hc))
  have := Finset.card_le_card hsub
  rw [Finset.card_range, List.toFinset_card_of_nodup hmap] at this
  simpa using this

theorem getNeighbors_length_le (m : Maze) (row col : Int) :
    (m.getNeighbors row col).length ≤ 4 := by
  rw [getNeighbors_eq_filter]
  exact le_trans (List.length_filter_le _ _) (by rfl)

theorem insertByPriority_length {α P : Type} [LinearOrder P]
    (l : List (α × P)) (x : α × P) :
    (insertByPriority l x).length = l.length + 1 := by
  induction l with
  | nil => rfl
  | cons y tl ih =>
    rw [insertByPriority]
    split_ifs
    · rfl
    · simp [ih]

theorem discoverFold_comp {m : Maze} {root current : Coordinate} :
    ∀ (l vis ns : List Coordinate) (par : ParentMap),
      (∀ c ∈ l, c ∈ m.getNeighbors current.row current.col) →
      Reachable m root current →
      vis.Nodup →
      (∀ c ∈ vis, InBounds m c) →
      (∀ c ∈ vis, Reachable m root c) →
      (∀ c ∈ ns, c ∈ vis) →
      (∀ c ∈ vis, c ∈ (discoverFold current (vis, par, ns) l).1) ∧
        (discoverFold current (vis, par, ns) l).1.Nodup ∧
        (∀ c ∈ (discoverFold current (vis, par, ns) l).1, InBounds m c) ∧
        (∀ c ∈ (discoverFold current (vis, par, ns) l).1,
          Reachable m root c) ∧
        (∀ c ∈ l, c ∈ (discoverFold current (vis, par, ns) l).1) ∧
        (∀ c ∈ (discoverFold current (vis, par, ns) l).1,
          c ∈ vis ∨ c ∈ (discoverFold current (vis, par, ns) l).2.2) ∧
        (∀ c ∈ ns, c ∈ (discoverFold current (vis, par, ns) l).2.2) ∧
        ((discoverFold current (vis, par, ns) l).1.length + ns.length =
          vis.length + (discoverFold current (vis, par, ns) l).2.2.length) ∧
        (∀ c ∈ (discoverFold current (vis, par, ns) l).2.2,
          c ∈ (discoverFold current (vis, par, ns) l).1) := by
  intro l
  induction l with
  | nil =>
    intro vis ns par hl hreach hnd hbnd hrch hnsv
    exact ⟨fun c hc => hc, hnd, hbnd, hrch,
      fun c hc => absurd hc (List.not_mem_nil c),
      fun c hc => Or.inl hc, fun c hc => hc, rfl, fun c hc => hnsv c hc⟩
  | cons nb tl ih =>
    intro vis ns par hl hreach hnd hbnd hrch hnsv
    rw [discoverFold_cons]
    by_cases hmem : nb ∈ vis
    · rw [if_pos hmem]
      obtain ⟨h1, h2, h3, h4, h5, h6, h7, h8, h9⟩ := ih vis ns par
        (fun c hc => hl c (List.mem_cons_of_mem _ hc)) hreach hnd hbnd hrch hnsv
      exact ⟨h1, h2, h3, h4,
        fun c hc => by
          rcases List.mem_cons.1 hc with rfl | hc'
          · exact h1 c hmem
          · exact h5 c hc',
        h6, h7, h8, h9⟩
    · rw [if_neg hmem]
      have hnbmem := hl nb (List.mem_cons_self _ _)
      have hnbreach : Reachable m root nb := by
        obtain ⟨n, hw⟩ := hreach
        exact ⟨n + 1, walkN_snoc hw hnbmem⟩
      obtain ⟨h1, h2, h3, h4, h5, h6, h7, h8, h9⟩ := ih (nb :: vis)
        (ns ++ [nb]) ((nb, current) :: par)
        (fun c hc => hl c (List.mem_cons_of_mem _ hc)) hreach
        (List.nodup_cons.2 ⟨hmem, hnd⟩)
        (by intro c hc
            rcases List.mem_cons.1 hc with rfl | hc'
            · exact inBounds_of_mem_getNeighbors hnbmem
            · exact hbnd c hc')
        (by intro c hc
            rcases List.mem_cons.1 hc with rfl | hc'
            · exact hnbreach
            · exact hrch c hc')
        (by intro c hc
            rcases List.mem_append.1 hc with hc' | hc'
            · exact List.mem_cons_of_mem _ (hnsv c hc')
            · rcases List.mem_singleton.1 hc' with rfl
              exact List.mem_cons_self _ _)
      refine ⟨fun c hc => h1 c (List.mem_cons_of_mem _ hc), h2, h3, h4,
        ?_, ?_, ?_, ?_, h9⟩
      · intro c hc
        rcases List.mem_cons.1 hc with rfl | hc'
        · exact h1 c (List.mem_cons_self _ _)
        · exact h5 c hc'
      · intro c hc
        rcases h6 c hc with hc' | hc'
        · rcases List.mem_cons.1 hc' with rfl | hc''
          · exact Or.inr (h7 c (List.mem_append.2 (Or.inr
              (List.mem_singleton.2 rfl))))
          · exact Or.inl hc''
        · exact Or.inr hc'
      · intro c hc
        exact h7 c (List.mem_append.2 (Or.inl hc))
      · have hlen : (ns ++ [nb]).length = ns.length + 1 := by simp
        have hvlen : (nb :: vis).length = vis.length + 1 := rfl
        rw [hlen, hvlen] at h8
        omega

theorem walkN_mem_closed {m : Maze} {vis : List Coordinate}
    (hclosed : ∀ c ∈ vis, ∀ nb ∈ m.getNeighbors c.row c.col, nb ∈ vis) :
    ∀ {n : Nat} {a b : Coordinate}, walkN m n a b = true → a ∈ vis →
      b ∈ vis := by
  intro n
  induction n with
  | zero =>
    intro a b h ha
    rw [walkN_zero] at h
    exact h ▸ ha
  | succ k ih =>
    intro a b h ha
    rcases walkN_succ.1 h with ⟨c, hc, hw⟩
    exact ih hw (hclosed a ha c hc)

theorem closed_not_reachable {m : Maze} {vis : List Coordinate}
    (hclosed : ∀ c ∈ vis, ∀ nb ∈ m.getNeighbors c.row c.col, nb ∈ vis)
    (hstart : m.start ∈ vis) (hgoal : m.endCoord ∉ vis) :
    ¬ Reachable m m.start m.endCoord := by
  rintro ⟨n, hw⟩
  exact hgoal (walkN_mem_closed hclosed hw hstart)

theorem dfsLoop_complete (m : Maze) :
    ∀ (fuel : Nat) (st : FrontierState), st.maze = m →
      (∀ c ∈ st.frontier, c ∈ st.visited) →
      st.visited.Nodup →
      (∀ c ∈ st.visited, InBounds m c) →
      (∀ c ∈ st.visited, Reachable m m.start c) →
      (m.endCoord ∈ st.visited → m.endCoord ∈ st.frontier) →
      (∀ c ∈ st.visited, c ∈ st.frontier ∨
        ∀ nb ∈ m.getNeighbors c.row c.col, nb ∈ st.visited) →
      m.start ∈ st.visited →
      2 * (cellCount m - st.visited.length) + st.frontier.length < fuel →
      ∃ r mz, PathfindingAlgorithms.dfsLoop fuel st = some (r, mz) ∧
        (r.path ≠ none ↔ Reachable m m.start m.endCoord) := by
  intro fuel
  induction fuel with
  | zero =>
    intro st hmz hfr hnd hbnd hrch hgoalI hclosed hstart hphi
    omega
  | succ k ih =>
    intro st hmz hfr hnd hbnd hrch hgoalI hclosed hstart hphi
    rw [PathfindingAlgorithms.dfsLoop]
    rw [hmz]
    rcases hfrv : st.frontier with _ | ⟨current, rest⟩
    · refine ⟨_, _, rfl, ?_⟩
      have hvisclosed : ∀ c ∈ st.visited,
          ∀ nb ∈ m.getNeighbors c.row c.col, nb ∈ st.visited := by
        intro c hc
        rcases hclosed c hc with h | h
        · rw [hfrv] at h
          cases h
        · exact h
      have hgoalout : m.endCoord ∉ st.visited := by
        intro h
        have := hgoalI h
        rw [hfrv] at this
        cases this
      exact iff_of_false (fun h => h rfl)
        (closed_not_reachable hvisclosed hstart hgoalout)
    · dsimp only
      have hcur : current ∈ st.visited := hfr current
        (hfrv ▸ List.mem_cons_self _ _)
      by_cases hend : current = m.endCoord
      · rw [if_pos hend]
        refine ⟨_, _, rfl, ?_⟩
        exact iff_of_true (fun h => by cases h) (hend ▸ hrch current hcur)
      · rw [if_neg hend]
        obtain ⟨h1, h2, h3, h4, h5, h6, h7, h8, h9⟩ := discoverFold_comp
          (m.getNeighbors current.row current.col) st.visited [] st.parent
          (fun c hc => hc) (hrch current hcur) hnd hbnd hrch
          (fun c hc => absurd hc (List.not_mem_nil c))
        have hvb := length_le_cellCount h2 h3
        have hfl : st.frontier.length = rest.length + 1 := by
          rw [hfrv]
          rfl
        have h8' := h8
        simp only [List.length_nil, Nat.add_zero] at h8'
        refine ih _ rfl ?_ h2 h3 h4 ?_ ?_ (h1 _ hstart) ?_
        · intro c hc
          rcases List.mem_append.1 hc with hc' | hc'
          · exact h9 c (List.mem_reverse.1 hc')
          · exact h1 c (hfr c (hfrv ▸ List.mem_cons_of_mem _ hc'))
        · intro hgv
          rcases h6 _ hgv with hv | hv
          · have := hgoalI hv
            rw [hfrv] at this
            rcases List.mem_cons.1 this with he | he
            · exact absurd he.symm hend
            · exact List.mem_append.2 (Or.inr he)
          · exact List.mem_append.2 (Or.inl (List.mem_reverse.2 hv))
        · intro c hc
          rcases h6 c hc with hv | hv
          · rcases hclosed c hv with hf | hcl
            · rw [hfrv] at hf
              rcases List.mem_cons.1 hf with he | he
              · refine Or.inr ?_
                subst he
                intro nb hnb
                exact h5 nb hnb
              · exact Or.inl (List.mem_append.2 (Or.inr he))
            · exact Or.inr (fun nb hnb => h1 nb (hcl nb hnb))
          · exact Or.inl (List.mem_append.2 (Or.inl (List.mem_reverse.2 hv)))
        · dsimp only
          rw [List.length_append, List.length_reverse]
          rw [hfl] at hphi
          omega

theorem bfsLoop_complete (m : Maze) :
    ∀ (fuel : Nat) (st : FrontierState), st.maze = m →
      (∀ c ∈ st.frontier, c ∈ st.visited) →
      st.visited.Nodup →
      (∀ c ∈ st.visited, InBounds m c) →
      (∀ c ∈ st.visited, Reachable m m.start c) →
      (m.endCoord ∈ st.visited → m.endCoord ∈ st.frontier) →
      (∀ c ∈ st.visited, c ∈ st.frontier ∨
        ∀ nb ∈ m.getNeighbors c.row c.col, nb ∈ st.visited) →
      m.start ∈ st.visited →
      2 * (cellCount m - st.visited.length) + st.frontier.length < fuel →
      ∃ r mz, PathfindingAlgorithms.bfsLoop fuel st = some (r, mz) ∧
        (r.path ≠ none ↔ Reachable m m.start m.endCoord) := by
  intro fuel
  induction fuel with
  | zero =>
    intro st hmz hfr hnd hbnd hrch hgoalI hclosed hstart hphi
    omega
  | succ k ih =>
    intro st hmz hfr hnd hbnd hrch hgoalI hclosed hstart hphi
    rw [PathfindingAlgorithms.bfsLoop]
    rw [hmz]
    rcases hfrv : st.frontier with _ | ⟨current, rest⟩
    · refine ⟨_, _, rfl, ?_⟩
      have hvisclosed : ∀ c ∈ st.visited,
          ∀ nb ∈ m.getNeighbors c.row c.col, nb ∈ st.visited := by
        intro c hc
        rcases hclosed c hc with h | h
        · rw [hfrv] at h
          cases h
        · exact h
      have hgoalout : m.endCoord ∉ st.visited := by
        intro h
        have := hgoalI h
        rw [hfrv] at this
        cases this
      exact iff_of_false (fun h => h rfl)
        (closed_not_reachable hvisclosed hstart hgoalout)
    · dsimp only
      have hcur : current ∈ st.visited := hfr current
        (hfrv ▸ List.mem_cons_self _ _)
      by_cases hend : current = m.endCoord
      · rw [if_pos hend]
        refine ⟨_, _, rfl, ?_⟩
        exact iff_of_true (fun h => by cases h) (hend ▸ hrch current hcur)
      · rw [if_neg hend]
        obtain ⟨h1, h2, h3, h4, h5, h6, h7, h8, h9⟩ := discoverFold_comp
          (m.getNeighbors current.row current.col) st.visited [] st.parent
          (fun c hc => hc) (hrch current hcur) hnd hbnd hrch
          (fun c hc => absurd hc (List.not_mem_nil c))
        have hvb := length_le_cellCount h2 h3
        have hfl : st.frontier.length = rest.length + 1 := by
          rw [hfrv]
          rfl
        have h8' := h8
        simp only [List.length_nil, Nat.add_zero] at h8'
        refine ih _ rfl ?_ h2 h3 h4 ?_ ?_ (h1 _ hstart) ?_
        · intro c hc
          rcases List.mem_append.1 hc with hc' | hc'
          · exact h1 c (hfr c (hfrv ▸ List.mem_cons_of_mem _ hc'))
          · exact h9 c hc'
        · intro hgv
          rcases h6 _ hgv with hv | hv
          · have := hgoalI hv
            rw [hfrv] at this
            rcases List.mem_cons.1 this with he | he
            · exact absurd he.symm hend
            · exact List.mem_append.2 (Or.inl he)
          · exact List.mem_append.2 (Or.inr hv)
        · intro c hc
          rcases h6 c hc with hv | hv
          · rcases hclosed c hv with hf | hcl
            · rw [hfrv] at hf
              rcases List.mem_cons.1 hf with he | he
              · refine Or.inr ?_
                subst he
                intro nb hnb
                exact h5 nb hnb
              · exact Or.inl (List.mem_append.2 (Or.inl he))
            · exact Or.inr (fun nb hnb => h1 nb (hcl nb hnb))
          · exact Or.inl (List.mem_append.2 (Or.inr hv))
        · dsimp only
          rw [List.length_append]
          rw [hfl] at hphi
          omega

theorem nodup_subset_length_le {α : Type} [DecidableEq α]
    {l1 l2 : List α} (h1 : l1.Nodup) (h2 : l2.Nodup)
    (hsub : ∀ x ∈ l1, x ∈ l2) : l1.length ≤ l2.length := by
  have hss : l1.toFinset ⊆ l2.toFinset := by
    intro x hx
    rw [List.mem_toFinset] at hx ⊢
    exact hsub x hx
  have hcard := Finset.card_le_card hss
  rwa [List.toFinset_card_of_nodup h1, List.toFinset_card_of_nodup h2]
    at hcard

theorem greedyFold_comp {m : Maze} {current goalc : Coordinate} :
    ∀ (l vis : List Coordinate) (par : ParentMap)
      (pq : PriorityQueue Coordinate Int),
      (∀ c ∈ l, c ∈ m.getNeighbors current.row current.col) →
      Reachable m m.start current →
      vis.Nodup →
      (∀ c ∈ vis, InBounds m c) →
      (∀ c ∈ vis, Reachable m m.start c) →
      (∀ e ∈ pq.values, e.1 ∈ vis) →
      (∀ c ∈ vis, c ∈ (greedyFold goalc current (vis, par, pq) l).1) ∧
        (greedyFold goalc current (vis, par, pq) l).1.Nodup ∧
        (∀ c ∈ (greedyFold goalc current (vis, par, pq) l).1, InBounds m c) ∧
        (∀ c ∈ (greedyFold goalc current (vis, par, pq) l).1,
          Reachable m m.start c) ∧
        (∀ c ∈ l, c ∈ (greedyFold goalc current (vis, par, pq) l).1) ∧
        (∀ c ∈ (greedyFold goalc current (vis, par, pq) l).1, c ∈ vis ∨
          ∃ e ∈ (greedyFold goalc current (vis, par, pq) l).2.2.values,
            e.1 = c) ∧
        (∀ e ∈ pq.values,
          e ∈ (greedyFold goalc current (vis, par, pq) l).2.2.values) ∧
        ((greedyFold goalc current (vis, par, pq) l).1.length +
            pq.values.length =
          vis.length +
            (greedyFold goalc current (vis, par, pq) l).2.2.values.length) ∧
        (∀ e ∈ (greedyFold goalc current (vis, par, pq) l).2.2.values,
          e.1 ∈ (greedyFold goalc current (vis, par, pq) l).1) := by
  intro l
  induction l with
  | nil =>
    intro vis par pq hl hreach hnd hbnd hrch hpq
    exact ⟨fun c hc => hc, hnd, hbnd, hrch,
      fun c hc => absurd hc (List.not_mem_nil c),
      fun c hc => Or.inl hc, fun e he => he, rfl, fun e he => hpq e he⟩
  | cons nb tl ih =>
    intro vis par pq hl hreach hnd hbnd hrch hpq
    rw [greedyFold_cons]
    by_cases hmem : nb ∈ vis
    · rw [if_pos hmem]
      obtain ⟨h1, h2, h3, h4, h5, h6, h7, h8, h9⟩ := ih vis par pq
        (fun c hc => hl c (List.mem_cons_of_mem _ hc)) hreach hnd hbnd hrch hpq
      exact ⟨h1, h2, h3, h4,
        fun c hc => by
          rcases List.mem_cons.1 hc with rfl | hc'
          · exact h1 c hmem
          · exact h5 c hc',
        h6, h7, h8, h9⟩
    · rw [if_neg hmem]
      have hnbmem := hl nb (List.mem_cons_self _ _)
      have hnbreach : Reachable m m.start nb := by
        obtain ⟨n, hw⟩ := hreach
        exact ⟨n + 1, walkN_snoc hw hnbmem⟩
      obtain ⟨h1, h2, h3, h4, h5, h6, h7, h8, h9⟩ := ih (nb :: vis)
        ((nb, current) :: par)
        (pq.enqueue nb (PathfindingAlgorithms.manhattanDistance nb goalc))
        (fun c hc => hl c (List.mem_cons_of_mem _ hc)) hreach
        (List.nodup_cons.2 ⟨hmem, hnd⟩)
        (by intro c hc
            rcases List.mem_cons.1 hc with rfl | hc'
            · exact inBounds_of_mem_getNeighbors hnbmem
            · exact hbnd c hc')
        (by intro c hc
            rcases List.mem_cons.1 hc with rfl | hc'
            · exact hnbreach
            · exact hrch c hc')
        (by intro e he
            rcases mem_insertByPriority.1 he with h | h
            · exact List.mem_cons_of_mem _ (hpq e h)
            · rw [h]
              exact List.mem_cons_self _ _)
      refine ⟨fun c hc => h1 c (List.mem_cons_of_mem _ hc), h2, h3, h4,
        ?_, ?_, ?_, ?_, h9⟩
      · intro c hc
        rcases List.mem_cons.1 hc with rfl | hc'
        · exact h1 c (List.mem_cons_self _ _)
        · exact h5 c hc'
      · intro c hc
        rcases h6 c hc with hc' | hc'
        · rcases List.mem_cons.1 hc' with rfl | hc''
          · refine Or.inr ⟨(c, PathfindingAlgorithms.manhattanDistance c goalc),
              h7 _ (mem_insertByPriority.2 (Or.inr rfl)), rfl⟩
          · exact Or.inl hc''
        · exact Or.inr hc'
      · intro e he
        exact h7 e (mem_insertByPriority.2 (Or.inl he))
      · have hql : (pq.enqueue nb
            (PathfindingAlgorithms.manhattanDistance nb goalc)).values.length =
            pq.values.length + 1 := insertByPriority_length _ _
        rw [hql] at h8
        have hvlen : (nb :: vis).length = vis.length + 1 := rfl
        rw [hvlen] at h8
        omega

theorem greedyLoop_complete (m : Maze) :
    ∀ (fuel : Nat) (st : GreedyState), st.maze = m →
      (∀ e ∈ st.pq.values, e.1 ∈ st.visited) →
      st.visited.Nodup →
      (∀ c ∈ st.visited, InBounds m c) →
      (∀ c ∈ st.visited, Reachable m m.start c) →
      (m.endCoord ∈ st.visited →
        ∃ e ∈ st.pq.values, e.1 = m.endCoord) →
      (∀ c ∈ st.visited, (∃ e ∈ st.pq.values, e.1 = c) ∨
        ∀ nb ∈ m.getNeighbors c.row c.col, nb ∈ st.visited) →
      m.start ∈ st.visited →
      2 * (cellCount m - st.visited.length) + st.pq.values.length < fuel →
      ∃ r mz, PathfindingAlgorithms.greedyLoop fuel st = some (r, mz) ∧
        (r.path ≠ none ↔ Reachable m m.start m.endCoord) := by
  intro fuel
  induction fuel with
  | zero =>
    intro st hmz hpq hnd hbnd hrch hgoalI hclosed hstart hphi
    omega
  | succ k ih =>
    intro st hmz hpq hnd hbnd hrch hgoalI hclosed hstart hphi
    rw [PathfindingAlgorithms.greedyLoop]
    rw [hmz]
    rcases hfrv : st.pq.values with _ | ⟨⟨current, pri⟩, restPQ⟩
    · refine ⟨_, _, rfl, ?_⟩
      have hvisclosed : ∀ c ∈ st.visited,
          ∀ nb ∈ m.getNeighbors c.row c.col, nb ∈ st.visited := by
        intro c hc
        rcases hclosed c hc with ⟨e, he, -⟩ | h
        · rw [hfrv] at he
          cases he
        · exact h
      have hgoalout : m.endCoord ∉ st.visited := by
        intro h
        obtain ⟨e, he, -⟩ := hgoalI h
        rw [hfrv] at he
        cases he
      exact iff_of_false (fun h => h rfl)
        (closed_not_reachable hvisclosed hstart hgoalout)
    · dsimp only
      have hcur : current ∈ st.visited :=
        hpq (current, pri) (hfrv ▸ List.mem_cons_self _ _)
      by_cases hend : current = m.endCoord
      · rw [if_pos hend]
        refine ⟨_, _, rfl, ?_⟩
        exact iff_of_true (fun h => by cases h) (hend ▸ hrch current hcur)
      · rw [if_neg hend]
        obtain ⟨h1, h2, h3, h4, h5, h6, h7, h8, h9⟩ := greedyFold_comp
          (m.getNeighbors current.row current.col) st.visited st.parent
          ⟨restPQ⟩ (fun c hc => hc) (hrch current hcur) hnd hbnd hrch
          (fun e he => hpq e (hfrv ▸ List.mem_cons_of_mem _ he))
        have hvb := length_le_cellCount h2 h3
        have hfl : st.pq.values.length = restPQ.length + 1 := by
          rw [hfrv]
          rfl
        refine ih _ rfl h9 h2 h3 h4 ?_ ?_ (h1 _ hstart) ?_
        · intro hgv
          rcases h6 _ hgv with hv | hv
          · obtain ⟨e, he, hek⟩ := hgoalI hv
            rw [hfrv] at he
            rcases List.mem_cons.1 he with he' | he'
            · exfalso
              apply hend
              rw [← hek, he']
            · exact ⟨e, h7 e he', hek⟩
          · exact hv
        · intro c hc
          rcases h6 c hc with hv | hv
          · rcases hclosed c hv with ⟨e, he, hek⟩ | hcl
            · rw [hfrv] at he
              rcases List.mem_cons.1 he with he' | he'
              · refine Or.inr ?_
                have : current = c := by rw [← hek, he']
                subst this
                intro nb hnb
                exact h5 nb hnb
              · exact Or.inl ⟨e, h7 e he', hek⟩
            · exact Or.inr (fun nb hnb => h1 nb (hcl nb hnb))
          · exact Or.inl hv
        · dsimp only
          dsimp only at h8
          rw [hfl] at hphi
          have hRV := nodup_subset_length_le hnd h2 h1
          omega

theorem relaxFold_comp {current : Coordinate} {dcur : Int} :
    ∀ (l : List Coordinate) (g : CoordMap Int) (par : ParentMap)
      (pq : PriorityQueue Coordinate Int),
      (∀ e ∈ pq.values, (mapGet g e.1).isSome = true) →
      (∀ k, (mapGet g k).isSome = true →
        (mapGet (relaxFold current dcur (g, par, pq) l).1 k).isSome = true) ∧
        (∀ c ∈ l,
          (mapGet (relaxFold current dcur (g, par, pq) l).1 c).isSome
            = true) ∧
        (∀ k,
          (mapGet (relaxFold current dcur (g, par, pq) l).1 k).isSome = true →
          (mapGet g k).isSome = true ∨ k ∈ l) ∧
        (∀ e ∈ (relaxFold current dcur (g, par, pq) l).2.2.values,
          e ∈ pq.values ∨ e.1 ∈ l) ∧
        (∀ e ∈ (relaxFold current dcur (g, par, pq) l).2.2.values,
          (mapGet (relaxFold current dcur (g, par, pq) l).1 e.1).isSome
            = true) ∧
        ((relaxFold current dcur (g, par, pq) l).2.2.values.length ≤
          pq.values.length + l.length) ∧
        (∀ e ∈ pq.values,
          e ∈ (relaxFold current dcur (g, par, pq) l).2.2.values) ∧
        (∀ c ∈ l, (∃ e ∈ (relaxFold current dcur (g, par, pq) l).2.2.values,
          e.1 = c) ∨ (mapGet g c).isSome = true) := by
  intro l
  induction l with
  | nil =>
    intro g par pq hpqg
    exact ⟨fun k hk => hk, fun c hc => absurd hc (List.not_mem_nil c),
      fun k hk => Or.inl hk, fun e he => Or.inl he,
      fun e he => hpqg e he, Nat.le_of_eq rfl, fun e he => he,
      fun c hc => absurd hc (List.not_mem_nil c)⟩
  | cons nb tl ih =>
    intro g par pq hpqg
    rw [relaxFold_cons]
    by_cases hrel : (match mapGet g nb with
        | none => true
        | some d => decide (dcur + 1 < d)) = true
    · rw [if_pos hrel]
      have hnbkey : (mapGet ((nb, dcur + 1) :: g) nb).isSome = true := by
        rw [mapGet_cons, if_pos rfl]
        rfl
      obtain ⟨hA, hB, hC, hD, hE, hF, hG, hH⟩ := ih ((nb, dcur + 1) :: g)
        ((nb, current) :: par) (pq.enqueue nb (dcur + 1))
        (by intro e he
            rcases mem_insertByPriority.1 he with h | h
            · exact mapGet_isSome_cons _ (hpqg e h)
            · rw [h]
              exact hnbkey)
      refine ⟨?_, ?_, ?_, ?_, hE, ?_, ?_, ?_⟩
      · intro k hk
        exact hA k (mapGet_isSome_cons _ hk)
      · intro c hc
        rcases List.mem_cons.1 hc with rfl | hc'
        · exact hA c hnbkey
        · exact hB c hc'
      · intro k hk
        rcases hC k hk with hk' | hk'
        · rw [mapGet_cons] at hk'
          split_ifs at hk' with he
          · exact Or.inr (he ▸ List.mem_cons_self _ _)
          · exact Or.inl hk'
        · exact Or.inr (List.mem_cons_of_mem _ hk')
      · intro e he
        rcases hD e he with he' | he'
        · rcases mem_insertByPriority.1 he' with h | h
          · exact Or.inl h
          · rw [h]
            exact Or.inr (List.mem_cons_self _ _)
        · exact Or.inr (List.mem_cons_of_mem _ he')
      · have hql := insertByPriority_length pq.values (nb, dcur + 1)
        have : (pq.enqueue nb (dcur + 1)).values.length =
            pq.values.length + 1 := hql
        calc (relaxFold current dcur ((nb, dcur + 1) :: g, (nb, current) :: par,
              pq.enqueue nb (dcur + 1)) tl).2.2.values.length
            ≤ (pq.enqueue nb (dcur + 1)).values.length + tl.length := hF
          _ = pq.values.length + 1 + tl.length := by rw [this]
          _ = pq.values.length + (nb :: tl).length := by
              rw [List.length_cons]
              ring
      · intro e he
        exact hG e (mem_insertByPriority.2 (Or.inl he))
      · intro c hc
        rcases List.mem_cons.1 hc with rfl | hc'
        · exact Or.inl ⟨(c, dcur + 1),
            hG _ (mem_insertByPriority.2 (Or.inr rfl)), rfl⟩
        · rcases hH c hc' with h | h
          · exact Or.inl h
          · rw [mapGet_cons] at h
            split_ifs at h with he
            · exact Or.inl ⟨(nb, dcur + 1),
                hG _ (mem_insertByPriority.2 (Or.inr rfl)), he⟩
            · exact Or.inr h
    · rw [if_neg hrel]
      have hnbkey : (mapGet g nb).isSome = true := by
        cases h : mapGet g nb with
        | none =>
          rw [h] at hrel
          exact absurd rfl hrel
        | some d => rfl
      obtain ⟨hA, hB, hC, hD, hE, hF, hG, hH⟩ := ih g par pq hpqg
      refine ⟨hA, ?_, ?_, ?_, hE, ?_, hG, ?_⟩
      · intro c hc
        rcases List.mem_cons.1 hc with rfl | hc'
        · exact hA c hnbkey
        · exact hB c hc'
      · intro k hk
        rcases hC k hk with hk' | hk'
        · exact Or.inl hk'
        · exact Or.inr (List.mem_cons_of_mem _ hk')
      · intro e he
        rcases hD e he with he' | he'
        · exact Or.inl he'
        · exact Or.inr (List.mem_cons_of_mem _ he')
      · calc (relaxFold current dcur (g, par, pq) tl).2.2.values.length
            ≤ pq.values.length + tl.length := hF
          _ ≤ pq.values.length + (nb :: tl).length := by
              rw [List.length_cons]
              omega
      · intro c hc
        rcases List.mem_cons.1 hc with rfl | hc'
        · exact Or.inr hnbkey
        · rcases hH c hc' with h | h
          · exact Or.inl h
          · exact Or.inr h

theorem dijkstraLoop_complete (m : Maze) :
    ∀ (fuel : Nat) (st : DijkstraState), st.maze = m →
      (∀ e ∈ st.pq.values, (mapGet st.distances e.1).isSome = true) →
      (∀ e ∈ st.pq.values, Reachable m m.start e.1) →
      (∀ e ∈ st.pq.values, InBounds m e.1) →
      (∀ k, (mapGet st.distances k).isSome = true →
        k ∈ st.visited ∨ ∃ e ∈ st.pq.values, e.1 = k) →
      st.visited.Nodup →
      (∀ c ∈ st.visited, InBounds m c) →
      (∀ c ∈ st.visited, Reachable m m.start c) →
      m.endCoord ∉ st.visited →
      (∀ c ∈ st.visited, ∀ nb ∈ m.getNeighbors c.row c.col,
        (mapGet st.distances nb).isSome = true) →
      (mapGet st.distances m.start).isSome = true →
      5 * (cellCount m + 1 - st.visited.length) + st.pq.values.length < fuel →
      ∃ r mz, PathfindingAlgorithms.dijkstraLoop fuel st = some (r, mz) ∧
        (r.path ≠ none ↔ Reachable m m.start m.endCoord) := by
  intro fuel
  induction fuel with
  | zero =>
    intro st hmz hpqg hpqr hpqb hkeyloc hnd hbnd hrch hgoalout hvclosed
      hstart hphi
    omega
  | succ k ih =>
    intro st hmz hpqg hpqr hpqb hkeyloc hnd hbnd hrch hgoalout hvclosed
      hstart hphi
    rw [PathfindingAlgorithms.dijkstraLoop]
    rw [hmz]
    rcases hfrv : st.pq.values with _ | ⟨⟨current, pri⟩, restPQ⟩
    · refine ⟨_, _, rfl, ?_⟩
      have hkeyvis : ∀ kk, (mapGet st.distances kk).isSome = true →
          kk ∈ st.visited := by
        intro kk hk
        rcases hkeyloc kk hk with h | ⟨e, he, -⟩
        · exact h
        · rw [hfrv] at he
          cases he
      have hvisclosed : ∀ c ∈ st.visited,
          ∀ nb ∈ m.getNeighbors c.row c.col, nb ∈ st.visited :=
        fun c hc nb hnb => hkeyvis nb (hvclosed c hc nb hnb)
      exact iff_of_false (fun h => h rfl)
        (closed_not_reachable hvisclosed (hkeyvis _ hstart) hgoalout)
    · dsimp only
      have hcurg : (mapGet st.distances current).isSome = true :=
        hpqg (current, pri) (hfrv ▸ List.mem_cons_self _ _)
      have hcurr : Reachable m m.start current :=
        hpqr (current, pri) (hfrv ▸ List.mem_cons_self _ _)
      have hcurb : InBounds m current :=
        hpqb (current, pri) (hfrv ▸ List.mem_cons_self _ _)
      split_ifs with hvis hend
      · refine ih { st with maze := m, pq := ⟨restPQ⟩ } rfl ?_ ?_ ?_ ?_ hnd
          hbnd hrch hgoalout hvclosed hstart ?_
        · exact fun e he => hpqg e (hfrv ▸ List.mem_cons_of_mem _ he)
        · exact fun e he => hpqr e (hfrv ▸ List.mem_cons_of_mem _ he)
        · exact fun e he => hpqb e (hfrv ▸ List.mem_cons_of_mem _ he)
        · intro kk hk
          rcases hkeyloc kk hk with h | ⟨e, he, hek⟩
          · exact Or.inl h
          · rw [hfrv] at he
            rcases List.mem_cons.1 he with he' | he'
            · refine Or.inl ?_
              rw [← hek, he']
              exact hvis
            · exact Or.inr ⟨e, he', hek⟩
        · dsimp only
          rw [hfrv] at hphi
          rw [List.length_cons] at hphi
          omega
      · refine ⟨_, _, rfl, ?_⟩
        exact iff_of_true (fun h => by cases h) (hend ▸ hcurr)
      · obtain ⟨ge, hge'⟩ := Option.isSome_iff_exists.1 hcurg
        rw [hge']
        simp only [Option.getD_some]
        obtain ⟨hA, hB, hC, hD, hE, hF, hG, hH⟩ := relaxFold_comp
          (m.getNeighbors current.row current.col) st.distances st.parent
          ⟨restPQ⟩
          (fun e he => hpqg e (hfrv ▸ List.mem_cons_of_mem _ he))
        have hndnew : (current :: st.visited).Nodup :=
          List.nodup_cons.2 ⟨hvis, hnd⟩
        have hbndnew : ∀ c ∈ current :: st.visited, InBounds m c := by
          intro c hc
          rcases List.mem_cons.1 hc with rfl | hc'
          · exact hcurb
          · exact hbnd c hc'
        refine ih _ rfl hE ?_ ?_ ?_ hndnew hbndnew ?_ ?_ ?_
          (hA _ hstart) ?_
        · intro e he
          rcases hD e he with he' | he'
          · exact hpqr e (hfrv ▸ List.mem_cons_of_mem _ he')
          · obtain ⟨n, hw⟩ := hcurr
            exact ⟨n + 1, walkN_snoc hw he'⟩
        · intro e he
          rcases hD e he with he' | he'
          · exact hpqb e (hfrv ▸ List.mem_cons_of_mem _ he')
          · exact inBounds_of_mem_getNeighbors he'
        · intro kk hk
          rcases hC kk hk with hk' | hk'
          · rcases hkeyloc kk hk' with h | ⟨e, he, hek⟩
            · exact Or.inl (List.mem_cons_of_mem _ h)
            · rw [hfrv] at he
              rcases List.mem_cons.1 he with he' | he'
              · refine Or.inl ?_
                rw [← hek, he']
                exact List.mem_cons_self _ _
              · exact Or.inr ⟨e, hG e he', hek⟩
          · rcases hH kk hk' with ⟨e, he, hek⟩ | h
            · exact Or.inr ⟨e, he, hek⟩
            · rcases hkeyloc kk h with hv | ⟨e, he, hek⟩
              · exact Or.inl (List.mem_cons_of_mem _ hv)
              · rw [hfrv] at he
                rcases List.mem_cons.1 he with he' | he'
                · refine Or.inl ?_
                  rw [← hek, he']
                  exact List.mem_cons_self _ _
                · exact Or.inr ⟨e, hG e he', hek⟩
        · intro c hc
          rcases List.mem_cons.1 hc with rfl | hc'
          · exact hcurr
          · exact hrch c hc'
        · intro h
          rcases List.mem_cons.1 h with he' | he'
          · exact hend he'.symm
          · exact hgoalout he'
        · intro c hc nb hnb
          rcases List.mem_cons.1 hc with rfl | hc'
          · exact hB nb hnb
          · exact hA nb (hvclosed c hc' nb hnb)
        · dsimp only
          have hvb := length_le_cellCount hndnew hbndnew
          have hnl := getNeighbors_length_le m current.row current.col
          have hF' := hF
          have hcc : (PriorityQueue.mk restPQ :
              PriorityQueue Coordinate Int).values.length = restPQ.length :=
            rfl
          rw [hcc] at hF'
          rw [hfrv] at hphi
          simp only [List.length_cons] at hphi hvb ⊢
          omega

theorem astarRelaxFold_comp {P : Type} [LinearOrderedRing P]
    {hfun : Coordinate → Coordinate → P} {goalc current : Coordinate}
    {gcur : Int} :
    ∀ (l : List Coordinate) (g : CoordMap Int) (f : CoordMap P)
      (par : ParentMap) (pq : PriorityQueue Coordinate P),
      (∀ e ∈ pq.values, (mapGet g e.1).isSome = true) →
      (∀ k, (mapGet g k).isSome = true →
        (mapGet (astarRelaxFold hfun goalc current gcur
          (g, f, par, pq) l).1 k).isSome = true) ∧
        (∀ c ∈ l, (mapGet (astarRelaxFold hfun goalc current gcur
          (g, f, par, pq) l).1 c).isSome = true) ∧
        (∀ k, (mapGet (astarRelaxFold hfun goalc current gcur
            (g, f, par, pq) l).1 k).isSome = true →
          (mapGet g k).isSome = true ∨ k ∈ l) ∧
        (∀ e ∈ (astarRelaxFold hfun goalc current gcur
            (g, f, par, pq) l).2.2.2.values, e ∈ pq.values ∨ e.1 ∈ l) ∧
        (∀ e ∈ (astarRelaxFold hfun goalc current gcur
            (g, f, par, pq) l).2.2.2.values,
          (mapGet (astarRelaxFold hfun goalc current gcur
            (g, f, par, pq) l).1 e.1).isSome = true) ∧
        ((astarRelaxFold hfun goalc current gcur
            (g, f, par, pq) l).2.2.2.values.length ≤
          pq.values.length + l.length) ∧
        (∀ e ∈ pq.values, e ∈ (astarRelaxFold hfun goalc current gcur
          (g, f, par, pq) l).2.2.2.values) ∧
        (∀ c ∈ l, (∃ e ∈ (astarRelaxFold hfun goalc current gcur
            (g, f, par, pq) l).2.2.2.values, e.1 = c) ∨
          (mapGet g c).isSome = true) := by
  intro l
  induction l with
  | nil =>
    intro g f par pq hpqg
    exact ⟨fun k hk => hk, fun c hc => absurd hc (List.not_mem_nil c),
      fun k hk => Or.inl hk, fun e he => Or.inl he,
      fun e he => hpqg e he, Nat.le_of_eq rfl, fun e he => he,
      fun c hc => absurd hc (List.not_mem_nil c)⟩
  | cons nb tl ih =>
    intro g f par pq hpqg
    rw [astarRelaxFold_cons]
    by_cases hrel : (match mapGet g nb with
        | none => true
        | some gn => decide (gcur + 1 < gn)) = true
    · rw [if_pos hrel]
      have hnbkey : (mapGet ((nb, gcur + 1) :: g) nb).isSome = true := by
        rw [mapGet_cons, if_pos rfl]
        rfl
      obtain ⟨hA, hB, hC, hD, hE, hF, hG, hH⟩ := ih ((nb, gcur + 1) :: g)
        ((nb, ((gcur + 1 : Int) : P) + hfun nb goalc) :: f)
        ((nb, current) :: par)
        (pq.enqueue nb ((mapGet
            ((nb, ((gcur + 1 : Int) : P) + hfun nb goalc) :: f) nb).getD
          (((gcur + 1 : Int) : P) + hfun nb goalc)))
        (by intro e he
            rcases mem_insertByPriority.1 he with h | h
            · exact mapGet_isSome_cons _ (hpqg e h)
            · have he1 : e.1 = nb := by rw [h]
              rw [he1]
              exact hnbkey)
      refine ⟨?_, ?_, ?_, ?_, hE, ?_, ?_, ?_⟩
      · intro k hk
        exact hA k (mapGet_isSome_cons _ hk)
      · intro c hc
        rcases List.mem_cons.1 hc with rfl | hc'
        · exact hA c hnbkey
        · exact hB c hc'
      · intro k hk
        rcases hC k hk with hk' | hk'
        · rw [mapGet_cons] at hk'
          split_ifs at hk' with he
          · exact Or.inr (he ▸ List.mem_cons_self _ _)
          · exact Or.inl hk'
        · exact Or.inr (List.mem_cons_of_mem _ hk')
      · intro e he
        rcases hD e he with he' | he'
        · rcases mem_insertByPriority.1 he' with h | h
          · exact Or.inl h
          · have he1 : e.1 = nb := by rw [h]
            rw [he1]
            exact Or.inr (List.mem_cons_self _ _)
        · exact Or.inr (List.mem_cons_of_mem _ he')
      · have heq : (pq.enqueue nb ((mapGet
            ((nb, ((gcur + 1 : Int) : P) + hfun nb goalc) :: f) nb).getD
          (((gcur + 1 : Int) : P) + hfun nb goalc))).values.length =
            pq.values.length + 1 := insertByPriority_length _ _
        have hF' := hF
        rw [heq] at hF'
        rw [List.length_cons]
        omega
      · intro e he
        exact hG e (mem_insertByPriority.2 (Or.inl he))
      · intro c hc
        rcases List.mem_cons.1 hc with rfl | hc'
        · exact Or.inl ⟨_, hG _ (mem_insertByPriority.2 (Or.inr rfl)), rfl⟩
        · rcases hH c hc' with h | h
          · exact Or.inl h
          · rw [mapGet_cons] at h
            split_ifs at h with he
            · exact Or.inl ⟨_, hG _ (mem_insertByPriority.2 (Or.inr rfl)), he⟩
            · exact Or.inr h
    · rw [if_neg hrel]
      have hnbkey : (mapGet g nb).isSome = true := by
        cases h : mapGet g nb with
        | none =>
          rw [h] at hrel
          exact absurd rfl hrel
        | some d => rfl
      obtain ⟨hA, hB, hC, hD, hE, hF, hG, hH⟩ := ih g f par pq hpqg
      refine ⟨hA, ?_, ?_, ?_, hE, ?_, hG, ?_⟩
      · intro c hc
        rcases List.mem_cons.1 hc with rfl | hc'
        · exact hA c hnbkey
        · exact hB c hc'
      · intro k hk
        rcases hC k hk with hk' | hk'
        · exact Or.inl hk'
        · exact Or.inr (List.mem_cons_of_mem _ hk')
      · intro e he
        rcases hD e he with he' | he'
        · exact Or.inl he'
        · exact Or.inr (List.mem_cons_of_mem _ he')
      · calc (astarRelaxFold hfun goalc current gcur
              (g, f, par, pq) tl).2.2.2.values.length
            ≤ pq.values.length + tl.length := hF
          _ ≤ pq.values.length + (nb :: tl).length := by
              rw [List.length_cons]
              omega
      · intro c hc
        rcases List.mem_cons.1 hc with rfl | hc'
        · exact Or.inr hnbkey
        · rcases hH c hc' with h | h
          · exact Or.inl h
          · exact Or.inr h

theorem astarLoop_complete {P : Type} [LinearOrderedRing P]
    (hfun : Coordinate → Coordinate → P) (heurName : String) (m : Maze) :
    ∀ (fuel : Nat) (st : AstarState P), st.maze = m →
      (∀ e ∈ st.pq.values, (mapGet st.gScore e.1).isSome = true) →
      (∀ e ∈ st.pq.values, Reachable m m.start e.1) →
      (∀ e ∈ st.pq.values, InBounds m e.1) →
      (∀ k, (mapGet st.gScore k).isSome = true →
        k ∈ st.visited ∨ ∃ e ∈ st.pq.values, e.1 = k) →
      st.visited.Nodup →
      (∀ c ∈ st.visited, InBounds m c) →
      (∀ c ∈ st.visited, Reachable m m.start c) →
      m.endCoord ∉ st.visited →
      (∀ c ∈ st.visited, ∀ nb ∈ m.getNeighbors c.row c.col,
        (mapGet st.gScore nb).isSome = true) →
      (mapGet st.gScore m.start).isSome = true →
      5 * (cellCount m + 1 - st.visited.length) + st.pq.values.length < fuel →
      ∃ r mz,
        PathfindingAlgorithms.astarLoop hfun heurName fuel st = some (r, mz) ∧
        (r.path ≠ none ↔ Reachable m m.start m.endCoord) := by
  intro fuel
  induction fuel with
  | zero =>
    intro st hmz hpqg hpqr hpqb hkeyloc hnd hbnd hrch hgoalout hvclosed
      hstart hphi
    omega
  | succ k ih =>
    intro st hmz hpqg hpqr hpqb hkeyloc hnd hbnd hrch hgoalout hvclosed
      hstart hphi
    rw [PathfindingAlgorithms.astarLoop]
    rw [hmz]
    rcases hfrv : st.pq.values with _ | ⟨⟨current, pri⟩, restPQ⟩
    · refine ⟨_, _, rfl, ?_⟩
      have hkeyvis : ∀ kk, (mapGet st.gScore kk).isSome = true →
          kk ∈ st.visited := by
        intro kk hk
        rcases hkeyloc kk hk with h | ⟨e, he, -⟩
        · exact h
        · rw [hfrv] at he
          cases he
      have hvisclosed : ∀ c ∈ st.visited,
          ∀ nb ∈ m.getNeighbors c.row c.col, nb ∈ st.visited :=
        fun c hc nb hnb => hkeyvis nb (hvclosed c hc nb hnb)
      exact iff_of_false (fun h => h rfl)
        (closed_not_reachable hvisclosed (hkeyvis _ hstart) hgoalout)
    · dsimp only
      have hcurg : (mapGet st.gScore current).isSome = true :=
        hpqg (current, pri) (hfrv ▸ List.mem_cons_self _ _)
      have hcurr : Reachable m m.start current :=
        hpqr (current, pri) (hfrv ▸ List.mem_cons_self _ _)
      have hcurb : InBounds m current :=
        hpqb (current, pri) (hfrv ▸ List.mem_cons_self _ _)
      split_ifs with hvis hend
      · refine ih { st with maze := m, pq := ⟨restPQ⟩ } rfl ?_ ?_ ?_ ?_ hnd
          hbnd hrch hgoalout hvclosed hstart ?_
        · exact fun e he => hpqg e (hfrv ▸ List.mem_cons_of_mem _ he)
        · exact fun e he => hpqr e (hfrv ▸ List.mem_cons_of_mem _ he)
        · exact fun e he => hpqb e (hfrv ▸ List.mem_cons_of_mem _ he)
        · intro kk hk
          rcases hkeyloc kk hk with h | ⟨e, he, hek⟩
          · exact Or.inl h
          · rw [hfrv] at he
            rcases List.mem_cons.1 he with he' | he'
            · refine Or.inl ?_
              rw [← hek, he']
              exact hvis
            · exact Or.inr ⟨e, he', hek⟩
        · dsimp only
          rw [hfrv] at hphi
          rw [List.length_cons] at hphi
          omega
      · refine ⟨_, _, rfl, ?_⟩
        exact iff_of_true (fun h => by cases h) (hend ▸ hcurr)
      · obtain ⟨ge, hge'⟩ := Option.isSome_iff_exists.1 hcurg
        rw [hge']
        simp only [Option.getD_some]
        obtain ⟨hA, hB, hC, hD, hE, hF, hG, hH⟩ := astarRelaxFold_comp
          (m.getNeighbors current.row current.col) st.gScore st.fScore
          st.parent ⟨restPQ⟩
          (fun e he => hpqg e (hfrv ▸ List.mem_cons_of_mem _ he))
        have hndnew : (current :: st.visited).Nodup :=
          List.nodup_cons.2 ⟨hvis, hnd⟩
        have hbndnew : ∀ c ∈ current :: st.visited, InBounds m c := by
          intro c hc
          rcases List.mem_cons.1 hc with rfl | hc'
          · exact hcurb
          · exact hbnd c hc'
        refine ih _ rfl hE ?_ ?_ ?_ hndnew hbndnew ?_ ?_ ?_
          (hA _ hstart) ?_
        · intro e he
          rcases hD e he with he' | he'
          · exact hpqr e (hfrv ▸ List.mem_cons_of_mem _ he')
          · obtain ⟨n, hw⟩ := hcurr
            exact ⟨n + 1, walkN_snoc hw he'⟩
        · intro e he
          rcases hD e he with he' | he'
          · exact hpqb e (hfrv ▸ List.mem_cons_of_mem _ he')
          · exact inBounds_of_mem_getNeighbors he'
        · intro kk hk
          rcases hC kk hk with hk' | hk'
          · rcases hkeyloc kk hk' with h | ⟨e, he, hek⟩
            · exact Or.inl (List.mem_cons_of_mem _ h)
            · rw [hfrv] at he
              rcases List.mem_cons.1 he with he' | he'
              · refine Or.inl ?_
                rw [← hek, he']
                exact List.mem_cons_self _ _
              · exact Or.inr ⟨e, hG e he', hek⟩
          · rcases hH kk hk' with ⟨e, he, hek⟩ | h
            · exact Or.inr ⟨e, he, hek⟩
            · rcases hkeyloc kk h with hv | ⟨e, he, hek⟩
              · exact Or.inl (List.mem_cons_of_mem _ hv)
              · rw [hfrv] at he
                rcases List.mem_cons.1 he with he' | he'
                · refine Or.inl ?_
                  rw [← hek, he']
                  exact List.mem_cons_self _ _
                · exact Or.inr ⟨e, hG e he', hek⟩
        · intro c hc
          rcases List.mem_cons.1 hc with rfl | hc'
          · exact hcurr
          · exact hrch c hc'
        · intro h
          rcases List.mem_cons.1 h with he' | he'
          · exact hend he'.symm
          · exact hgoalout he'
        · intro c hc nb hnb
          rcases List.mem_cons.1 hc with rfl | hc'
          · exact hB nb hnb
          · exact hA nb (hvclosed c hc' nb hnb)
        · dsimp only
          have hvb := length_le_cellCount hndnew hbndnew
          have hnl := getNeighbors_length_le m current.row current.col
          have hF' := hF
          have hcc : (PriorityQueue.mk restPQ :
              PriorityQueue Coordinate P).values.length = restPQ.length :=
            rfl
          rw [hcc] at hF'
          rw [hfrv] at hphi
          simp only [List.length_cons] at hphi hvb ⊢
          omega

theorem reachable_link {m : Maze} {c : Coordinate}
    (he : isWalkableCell m m.endCoord = true)
    (h1 : Reachable m m.start c) (h2 : Reachable m m.endCoord c) :
    Reachable m m.start m.endCoord := by
  obtain ⟨n1, hw1⟩ := h1
  obtain ⟨n2, hw2⟩ := h2
  exact ⟨n1 + n2, walkN_trans hw1 (walkN_reverse hw2 he)⟩

theorem bidiLoop_complete (m : Maze)
    (hs : isWalkableCell m m.start = true)
    (he : isWalkableCell m m.endCoord = true) :
    ∀ (fuel : Nat) (st : BidiState), st.maze = m →
      (∀ c ∈ st.queueStart, c ∈ st.visitedStart) →
      st.visitedStart.Nodup →
      (∀ c ∈ st.visitedStart, InBounds m c) →
      (∀ c ∈ st.visitedStart, Reachable m m.start c) →
      (∀ c ∈ st.visitedStart, c ∈ st.queueStart ∨
        ∀ nb ∈ m.getNeighbors c.row c.col, nb ∈ st.visitedStart) →
      m.start ∈ st.visitedStart →
      (∀ c ∈ st.queueEnd, c ∈ st.visitedEnd) →
      st.visitedEnd.Nodup →
      (∀ c ∈ st.visitedEnd, InBounds m c) →
      (∀ c ∈ st.visitedEnd, Reachable m m.endCoord c) →
      (∀ c ∈ st.visitedEnd, c ∈ st.queueEnd ∨
        ∀ nb ∈ m.getNeighbors c.row c.col, nb ∈ st.visitedEnd) →
      m.endCoord ∈ st.visitedEnd →
      (m.endCoord ∈ st.visitedStart → m.endCoord ∈ st.queueStart) →
      (m.start ∈ st.visitedEnd → m.start ∈ st.queueEnd) →
      2 * (cellCount m - st.visitedStart.length) + st.queueStart.length +
        (2 * (cellCount m - st.visitedEnd.length) + st.queueEnd.length) <
        2 * fuel →
      ∃ r mz, PathfindingAlgorithms.bidiLoop fuel st = some (r, mz) ∧
        (r.path ≠ none ↔ Reachable m m.start m.endCoord) := by
  intro fuel
  induction fuel with
  | zero =>
    intro st hmz hqS hndS hbndS hrchS hclosedS hstartS hqE hndE hbndE hrchE
      hclosedE hendE hIS hIE hphi
    omega
  | succ k ih =>
    intro st hmz hqS hndS hbndS hrchS hclosedS hstartS hqE hndE hbndE hrchE
      hclosedE hendE hIS hIE hphi
    rw [PathfindingAlgorithms.bidiLoop]
    rw [hmz]
    rcases hq1 : st.queueStart with _ | ⟨current, restS⟩
    · refine ⟨_, _, rfl, ?_⟩
      have hSclosed : ∀ c ∈ st.visitedStart,
          ∀ nb ∈ m.getNeighbors c.row c.col, nb ∈ st.visitedStart := by
        intro c hc
        rcases hclosedS c hc with h | h
        · rw [hq1] at h
          cases h
        · exact h
      refine iff_of_false (fun h => h rfl) ?_
      intro hreach
      obtain ⟨n, hw⟩ := hreach
      have : m.endCoord ∈ st.visitedStart :=
        walkN_mem_closed hSclosed hw hstartS
      have := hIS this
      rw [hq1] at this
      cases this
    · rcases hq2 : st.queueEnd with _ | ⟨current2, restE⟩
      · refine ⟨_, _, rfl, ?_⟩
        have hEclosed : ∀ c ∈ st.visitedEnd,
            ∀ nb ∈ m.getNeighbors c.row c.col, nb ∈ st.visitedEnd := by
          intro c hc
          rcases hclosedE c hc with h | h
          · rw [hq2] at h
            cases h
          · exact h
        refine iff_of_false (fun h => h rfl) ?_
        intro hreach
        obtain ⟨n, hw⟩ := hreach
        have hw' := walkN_reverse hw hs
        have : m.start ∈ st.visitedEnd :=
          walkN_mem_closed hEclosed hw' hendE
        have := hIE this
        rw [hq2] at this
        cases this
      · dsimp only
        have hcurS : current ∈ st.visitedStart :=
          hqS current (hq1 ▸ List.mem_cons_self _ _)
        have hcur2E : current2 ∈ st.visitedEnd :=
          hqE current2 (hq2 ▸ List.mem_cons_self _ _)
        split_ifs with hmeet1 hmeet2
        · refine ⟨_, _, rfl, ?_⟩
          exact iff_of_true (fun h => by cases h)
            (reachable_link he (hrchS current hcurS) (hrchE current hmeet1))
        · obtain ⟨h1, h2, h3, h4, h5, h6, h7, h8, h9⟩ := discoverFold_comp
            (m.getNeighbors current.row current.col) st.visitedStart []
            st.parentStart (fun c hc => hc) (hrchS current hcurS) hndS hbndS
            hrchS (fun c hc => absurd hc (List.not_mem_nil c))
          refine ⟨_, _, rfl, ?_⟩
          exact iff_of_true (fun h => by cases h)
            (reachable_link he (h4 current2 hmeet2)
              (hrchE current2 hcur2E))
        · obtain ⟨h1, h2, h3, h4, h5, h6, h7, h8, h9⟩ := discoverFold_comp
            (m.getNeighbors current.row current.col) st.visitedStart []
            st.parentStart (fun c hc => hc) (hrchS current hcurS) hndS hbndS
            hrchS (fun c hc => absurd hc (List.not_mem_nil c))
          obtain ⟨g1, g2, g3, g4, g5, g6, g7, g8, g9⟩ := discoverFold_comp
            (m.getNeighbors current2.row current2.col) st.visitedEnd []
            st.parentEnd (fun c hc => hc) (hrchE current2 hcur2E) hndE hbndE
            hrchE (fun c hc => absurd hc (List.not_mem_nil c))
          have hvbS := length_le_cellCount h2 h3
          have hvbE := length_le_cellCount g2 g3
          have h8' := h8
          simp only [List.length_nil, Nat.add_zero] at h8'
          have g8' := g8
          simp only [List.length_nil, Nat.add_zero] at g8'
          refine ih _ rfl ?_ h2 h3 h4 ?_ (h1 _ hstartS) ?_ g2 g3 g4 ?_
            (g1 _ hendE) ?_ ?_ ?_
          · intro c hc
            rcases List.mem_append.1 hc with hc' | hc'
            · exact h1 c (hqS c (hq1 ▸ List.mem_cons_of_mem _ hc'))
            · exact h9 c hc'
          · intro c hc
            rcases h6 c hc with hv | hv
            · rcases hclosedS c hv with hf | hcl
              · rw [hq1] at hf
                rcases List.mem_cons.1 hf with hcc | hcc
                · refine Or.inr ?_
                  subst hcc
                  intro nb hnb
                  exact h5 nb hnb
                · exact Or.inl (List.mem_append.2 (Or.inl hcc))
              · exact Or.inr (fun nb hnb => h1 nb (hcl nb hnb))
            · exact Or.inl (List.mem_append.2 (Or.inr hv))
          · intro c hc
            rcases List.mem_append.1 hc with hc' | hc'
            · exact g1 c (hqE c (hq2 ▸ List.mem_cons_of_mem _ hc'))
            · exact g9 c hc'
          · intro c hc
            rcases g6 c hc with hv | hv
            · rcases hclosedE c hv with hf | hcl
              · rw [hq2] at hf
                rcases List.mem_cons.1 hf with hcc | hcc
                · refine Or.inr ?_
                  subst hcc
                  intro nb hnb
                  exact g5 nb hnb
                · exact Or.inl (List.mem_append.2 (Or.inl hcc))
              · exact Or.inr (fun nb hnb => g1 nb (hcl nb hnb))
            · exact Or.inl (List.mem_append.2 (Or.inr hv))
          · intro hgv
            rcases h6 _ hgv with hv | hv
            · have := hIS hv
              rw [hq1] at this
              rcases List.mem_cons.1 this with hcc | hcc
              · exfalso
                apply hmeet1
                rw [← hcc]
                exact hendE
              · exact List.mem_append.2 (Or.inl hcc)
            · exact List.mem_append.2 (Or.inr hv)
          · intro hgv
            rcases g6 _ hgv with hv | hv
            · have := hIE hv
              rw [hq2] at this
              rcases List.mem_cons.1 this with hcc | hcc
              · exfalso
                apply hmeet2
                rw [← hcc]
                exact h1 _ hstartS
              · exact List.mem_append.2 (Or.inl hcc)
            · exact List.mem_append.2 (Or.inr hv)
          · dsimp only
            simp only [List.length_append]
            rw [hq1] at hphi
            rw [hq2] at hphi
            simp only [List.length_cons] at hphi
            omega

def cex2Maze : Maze :=
  { rows := 3, cols := 4,
    grid := [[some 1, some 1, some 1, some 1],
             [some 1, some 1, some 0, some 1],
             [some 1, some 1, some 1, some 1]],
    start := ⟨1, 1⟩, endCoord := ⟨1, 2⟩ }

/-- C2 counterexample: on a maze whose start cell is itself a wall (legal
state: `setStart` performs no wall check on the pre-move grid it reads, and
the constructor clears only the default position), no walkable route exists
between start and goal — the start cell is not walkable — yet `bfs` returns a
non-null path: the main loops never test the start cell, only neighbors. -/
theorem C2_counterexample :
    ¬ WalkableRoute cex2Maze ∧
    (PathfindingAlgorithms.bfs cex2Maze).map
      (fun rm => rm.1.path.isSome) = some true := by
  constructor
  · rintro ⟨h1, -⟩
    revert h1
    decide
  · decide

/-- C2 amended: on a maze whose start AND goal cells are walkable, every one
of the algorithms terminates within its fuel and returns a result whose path
is non-null exactly when a walkable route from start to goal exists (and null
exactly when none does).  Without the walkable-start hypothesis the
equivalence fails (`C2_counterexample`). -/
theorem C2_completeness (m : Maze)
    (hs : isWalkableCell m m.start = true)
    (he : isWalkableCell m m.endCoord = true) :
    (∃ r mz, PathfindingAlgorithms.dfs m = some (r, mz) ∧
      (r.path ≠ none ↔ WalkableRoute m)) ∧
    (∃ r mz, PathfindingAlgorithms.bfs m = some (r, mz) ∧
      (r.path ≠ none ↔ WalkableRoute m)) ∧
    (∃ r mz, PathfindingAlgorithms.dijkstra m = some (r, mz) ∧
      (r.path ≠ none ↔ WalkableRoute m)) ∧
    (∀ (P : Type) [inst : LinearOrderedRing P]
      (hfun : Coordinate → Coordinate → P) (heurName : String),
      ∃ r mz, PathfindingAlgorithms.astar hfun heurName m = some (r, mz) ∧
        (r.path ≠ none ↔ WalkableRoute m)) ∧
    (∀ heuristic : String,
      ∃ r mz, PathfindingAlgorithms.astarJS m heuristic = some (r, mz) ∧
        (r.path ≠ none ↔ WalkableRoute m)) ∧
    (∃ r mz, PathfindingAlgorithms.greedy m = some (r, mz) ∧
      (r.path ≠ none ↔ WalkableRoute m)) ∧
    (∃ r mz, PathfindingAlgorithms.bidirectional m = some (r, mz) ∧
      (r.path ≠ none ↔ WalkableRoute m)) := by
  have hWR : WalkableRoute m ↔ Reachable m m.start m.endCoord :=
    ⟨fun h => h.2, fun h => ⟨hs, h⟩⟩
  have hsb : InBounds m m.start := inBounds_of_walkable hs
  have hrs : Reachable m m.start m.start := ⟨0, walkN_zero.2 rfl⟩
  have hrcheb : Reachable m m.endCoord m.endCoord := ⟨0, walkN_zero.2 rfl⟩
  have heb : InBounds m m.endCoord := inBounds_of_walkable he
  have hsingle : ∀ root : Coordinate, ([root] : List Coordinate).Nodup :=
    fun root => List.nodup_singleton root
  have hastar : ∀ (P : Type) [inst : LinearOrderedRing P]
      (hfun : Coordinate → Coordinate → P) (heurName : String),
      ∃ r mz, PathfindingAlgorithms.astar hfun heurName m = some (r, mz) ∧
        (r.path ≠ none ↔ WalkableRoute m) := by
    intro P inst hfun heurName
    rw [PathfindingAlgorithms.astar]
    obtain ⟨r, mz, hrun, hiff⟩ := astarLoop_complete hfun heurName m
      (5 * cellCount m + 7)
      { maze := m, gScore := [(m.start, 0)],
        fScore := [(m.start, hfun m.start m.endCoord)], parent := [],
        visited := [], pq := ⟨[(m.start, hfun m.start m.endCoord)]⟩,
        nodesExplored := 0 } rfl
      (by intro e heq
          rcases List.mem_singleton.1 heq with rfl
          rw [mapGet_cons, if_pos rfl]
          rfl)
      (by intro e heq
          rcases List.mem_singleton.1 heq with rfl
          exact hrs)
      (by intro e heq
          rcases List.mem_singleton.1 heq with rfl
          exact hsb)
      (by intro kk hk
          rw [mapGet_cons] at hk
          split_ifs at hk with hkk
          · exact Or.inr ⟨(m.start, hfun m.start m.endCoord),
              List.mem_singleton.2 rfl, hkk⟩
          · cases hk)
      List.nodup_nil
      (fun c hc => absurd hc (List.not_mem_nil c))
      (fun c hc => absurd hc (List.not_mem_nil c))
      (List.not_mem_nil m.endCoord)
      (fun c hc => absurd hc (List.not_mem_nil c))
      (by rw [mapGet_cons, if_pos rfl]; rfl)
      (by show 5 * (cellCount m + 1 - 0) + 1 < 5 * cellCount m + 7
          omega)
    exact ⟨r, mz, hrun, hiff.trans hWR.symm⟩
  refine ⟨?_, ?_, ?_, hastar, ?_, ?_, ?_⟩
  · rw [PathfindingAlgorithms.dfs]
    obtain ⟨r, mz, hrun, hiff⟩ := dfsLoop_complete m (2 * cellCount m + 4)
      { maze := m, frontier := [m.start], visited := [m.start], parent := [],
        nodesExplored := 0 } rfl
      (fun c hc => hc) (hsingle m.start)
      (by intro c hc
          rcases List.mem_singleton.1 hc with rfl
          exact hsb)
      (by intro c hc
          rcases List.mem_singleton.1 hc with rfl
          exact hrs)
      (fun h => h)
      (fun c hc => Or.inl hc)
      (List.mem_singleton.2 rfl)
      (by show 2 * (cellCount m - 1) + 1 < 2 * cellCount m + 4
          omega)
    exact ⟨r, mz, hrun, hiff.trans hWR.symm⟩
  · rw [PathfindingAlgorithms.bfs]
    obtain ⟨r, mz, hrun, hiff⟩ := bfsLoop_complete m (2 * cellCount m + 4)
      { maze := m, frontier := [m.start], visited := [m.start], parent := [],
        nodesExplored := 0 } rfl
      (fun c hc => hc) (hsingle m.start)
      (by intro c hc
          rcases List.mem_singleton.1 hc with rfl
          exact hsb)
      (by intro c hc
          rcases List.mem_singleton.1 hc with rfl
          exact hrs)
      (fun h => h)
      (fun c hc => Or.inl hc)
      (List.mem_singleton.2 rfl)
      (by show 2 * (cellCount m - 1) + 1 < 2 * cellCount m + 4
          omega)
    exact ⟨r, mz, hrun, hiff.trans hWR.symm⟩
  · rw [PathfindingAlgorithms.dijkstra]
    obtain ⟨r, mz, hrun, hiff⟩ := dijkstraLoop_complete m
      (5 * cellCount m + 7)
      { maze := m, distances := [(m.start, 0)], parent := [], visited := [],
        pq := ⟨[(m.start, 0)]⟩, nodesExplored := 0 } rfl
      (by intro e heq
          rcases List.mem_singleton.1 heq with rfl
          rw [mapGet_cons, if_pos rfl]
          rfl)
      (by intro e heq
          rcases List.mem_singleton.1 heq with rfl
          exact hrs)
      (by intro e heq
          rcases List.mem_singleton.1 heq with rfl
          exact hsb)
      (by intro kk hk
          rw [mapGet_cons] at hk
          split_ifs at hk with hkk
          · exact Or.inr ⟨(m.start, 0), List.mem_singleton.2 rfl, hkk⟩
          · cases hk)
      List.nodup_nil
      (fun c hc => absurd hc (List.not_mem_nil c))
      (fun c hc => absurd hc (List.not_mem_nil c))
      (List.not_mem_nil m.endCoord)
      (fun c hc => absurd hc (List.not_mem_nil c))
      (by rw [mapGet_cons, if_pos rfl]; rfl)
      (by show 5 * (cellCount m + 1 - 0) + 1 < 5 * cellCount m + 7
          omega)
    exact ⟨r, mz, hrun, hiff.trans hWR.symm⟩
  · intro heuristic
    rw [PathfindingAlgorithms.astarJS]
    exact hastar ℝ (PathfindingAlgorithms.heuristicFuncOf heuristic) heuristic
  · rw [PathfindingAlgorithms.greedy]
    obtain ⟨r, mz, hrun, hiff⟩ := greedyLoop_complete m (2 * cellCount m + 4)
      { maze := m, parent := [], visited := [m.start],
        pq := ⟨[(m.start, PathfindingAlgorithms.manhattanDistance m.start
          m.endCoord)]⟩, nodesExplored := 0 } rfl
      (by intro e heq
          rcases List.mem_singleton.1 heq with rfl
          exact List.mem_singleton.2 rfl)
      (hsingle m.start)
      (by intro c hc
          rcases List.mem_singleton.1 hc with rfl
          exact hsb)
      (by intro c hc
          rcases List.mem_singleton.1 hc with rfl
          exact hrs)
      (by intro hgv
          rcases List.mem_singleton.1 hgv with hgv'
          exact ⟨(m.start, PathfindingAlgorithms.manhattanDistance m.start
            m.endCoord), List.mem_singleton.2 rfl, hgv'.symm⟩)
      (by intro c hc
          rcases List.mem_singleton.1 hc with rfl
          exact Or.inl ⟨(m.start, PathfindingAlgorithms.manhattanDistance
            m.start m.endCoord), List.mem_singleton.2 rfl, rfl⟩)
      (List.mem_singleton.2 rfl)
      (by show 2 * (cellCount m - 1) + 1 < 2 * cellCount m + 4
          omega)
    exact ⟨r, mz, hrun, hiff.trans hWR.symm⟩
  · rw [PathfindingAlgorithms.bidirectional]
    obtain ⟨r, mz, hrun, hiff⟩ := bidiLoop_complete m hs he
      (2 * cellCount m + 4)
      { maze := m, queueStart := [m.start], queueEnd := [m.endCoord],
        visitedStart := [m.start], visitedEnd := [m.endCoord],
        parentStart := [], parentEnd := [], nodesExplored := 0 } rfl
      (fun c hc => hc) (hsingle m.start)
      (by intro c hc
          rcases List.mem_singleton.1 hc with rfl
          exact hsb)
      (by intro c hc
          rcases List.mem_singleton.1 hc with rfl
          exact hrs)
      (fun c hc => Or.inl hc)
      (List.mem_singleton.2 rfl)
      (fun c hc => hc) (hsingle m.endCoord)
      (by intro c hc
          rcases List.mem_singleton.1 hc with rfl
          exact heb)
      (by intro c hc
          rcases List.mem_singleton.1 hc with rfl
          exact hrcheb)
      (fun c hc => Or.inl hc)
      (List.mem_singleton.2 rfl)
      (fun h => h) (fun h => h)
      (by show 2 * (cellCount m - 1) + 1 +
            (2 * (cellCount m - 1) + 1) < 2 * (2 * cellCount m + 4)
          omega)
    exact ⟨r, mz, hrun, hiff.trans hWR.symm⟩

theorem C2_completeness_witness :
    ∃ r mz, PathfindingAlgorithms.bfs wit3Maze = some (r, mz) ∧
      (r.path ≠ none ↔ WalkableRoute wit3Maze) :=
  (C2_completeness wit3Maze (by decide) (by decide)).2.1

/-! ## Claim C1: shortest-distance machinery -/

/-- `n` is the length of a shortest neighbor walk from `a` to `b`. -/
def DistTo (m : Maze) (a b : Coordinate) (n : Nat) : Prop :=
  walkN m n a b = true ∧ ∀ k, walkN m k a b = true → n ≤ k

theorem distTo_exists {m : Maze} {a b : Coordinate}
    (h : Reachable m a b) : ∃ n, DistTo m a b n := by
  obtain ⟨n, hn⟩ := h
  have hex : ∃ k, walkN m k a b = true := ⟨n, hn⟩
  exact ⟨Nat.find hex, Nat.find_spec hex, fun k hk => Nat.find_le hk⟩

theorem distTo_unique {m : Maze} {a b : Coordinate} {n1 n2 : Nat}
    (h1 : DistTo m a b n1) (h2 : DistTo m a b n2) : n1 = n2 :=
  Nat.le_antisymm (h1.2 n2 h2.1) (h2.2 n1 h1.1)

theorem distTo_self (m : Maze) (a : Coordinate) : DistTo m a a 0 :=
  ⟨walkN_zero.2 rfl, fun k _ => Nat.zero_le k⟩

theorem distTo_zero {m : Maze} {a b : Coordinate} (h : DistTo m a b 0) :
    a = b := walkN_zero.1 h.1

theorem distTo_le_of_walk {m : Maze} {a b : Coordinate} {n d : Nat}
    (h : DistTo m a b d) (hw : walkN m n a b = true) : d ≤ n := h.2 n hw

/-- Splitting the last step off a walk. -/
theorem walkN_last_step {m : Maze} :
    ∀ {n : Nat} {a b : Coordinate}, walkN m (n + 1) a b = true →
      ∃ w, walkN m n a w = true ∧ b ∈ m.getNeighbors w.row w.col := by
  intro n
  induction n with
  | zero =>
    intro a b h
    rcases walkN_succ.1 h with ⟨c, hc, hw⟩
    rw [walkN_zero] at hw
    subst hw
    exact ⟨a, walkN_zero.2 rfl, hc⟩
  | succ k ih =>
    intro a b h
    rcases walkN_succ.1 h with ⟨c, hc, hw⟩
    obtain ⟨w, hw1, hw2⟩ := ih hw
    exact ⟨w, walkN_succ.2 ⟨c, hc, hw1⟩, hw2⟩

/-- Walk lengths have the parity of the endpoint coordinate sums: the grid is
bipartite. -/
theorem walkN_parity {m : Maze} :
    ∀ {n : Nat} {a b : Coordinate}, walkN m n a b = true →
      ((n : Int) + a.row + a.col + b.row + b.col) % 2 = 0 := by
  intro n
  induction n with
  | zero =>
    intro a b h
    rw [walkN_zero] at h
    subst h
    omega
  | succ k ih =>
    intro a b h
    rcases walkN_succ.1 h with ⟨c, hc, hw⟩
    have := ih hw
    have hadj := adjacent_of_mem_getNeighbors hc
    rcases hadj with ⟨h1, h2⟩ | ⟨h1, h2⟩
    · simp only at h1 h2
      rcases (abs_eq (by norm_num : (0 : Int) ≤ 1)).1 h1 with h1' | h1' <;>
        omega
    · simp only at h1 h2
      rcases (abs_eq (by norm_num : (0 : Int) ≤ 1)).1 h2 with h2' | h2' <;>
        omega

theorem distTo_symm {m : Maze} {a b : Coordinate} {d : Nat}
    (ha : isWalkableCell m a = true) (hb : isWalkableCell m b = true)
    (h : DistTo m a b d) : DistTo m b a d := by
  refine ⟨walkN_reverse h.1 ha, ?_⟩
  intro k hk
  exact h.2 k (walkN_reverse hk hb)

theorem distTo_triangle_nb {m : Maze} {s v u : Coordinate} {dv : Nat}
    (h : DistTo m s v dv) (hu : u ∈ m.getNeighbors v.row v.col) :
    Reachable m s u ∧ ∀ du, DistTo m s u du → du ≤ dv + 1 := by
  have hw : walkN m (dv + 1) s u = true := walkN_snoc h.1 hu
  exact ⟨⟨dv + 1, hw⟩, fun du hdu => hdu.2 _ hw⟩

theorem reconstructGo_len (par : ParentMap) (s : Coordinate)
    (rank lab : Coordinate → Nat)
    (hrank : ∀ k v, mapGet par k = some v → rank v < rank k)
    (hroot : ∀ k v, mapGet par k = some v →
      v = s ∨ (mapGet par v).isSome = true)
    (hstep : ∀ k v, mapGet par k = some v → lab k = lab v + 1)
    (hs0 : lab s = 0) :
    ∀ (fuel : Nat) (c : Coordinate) (acc : List Coordinate),
      rank c < fuel → (c = s ∨ (mapGet par c).isSome = true) →
      (PathfindingAlgorithms.reconstructGo par s (some c) fuel acc).length =
        lab c + 1 + acc.length := by
  intro fuel
  induction fuel with
  | zero => intro c acc hf; omega
  | succ n ih =>
    intro c acc hf hc
    by_cases hcs : c = s
    · subst hcs
      show (if c = c then c :: acc else _).length = lab c + 1 + acc.length
      rw [if_pos rfl, hs0]
      simp only [List.length_cons]
      omega
    · rcases hc with rfl | hsome
      · exact absurd rfl hcs
      obtain ⟨v, hv⟩ := Option.isSome_iff_exists.1 hsome
      show (if c = s then c :: acc
          else PathfindingAlgorithms.reconstructGo par s (mapGet par c) n
            (c :: acc)).length = lab c + 1 + acc.length
      rw [if_neg hcs, hv]
      rw [ih v (c :: acc) (by have := hrank c v hv; omega) (hroot c v hv)]
      rw [hstep c v hv]
      simp only [List.length_cons]
      omega

theorem reconstructEndGo_len (par : ParentMap) (e : Coordinate)
    (rank lab : Coordinate → Nat)
    (hrank : ∀ k v, mapGet par k = some v → rank v < rank k)
    (hroot : ∀ k v, mapGet par k = some v →
      v = e ∨ (mapGet par v).isSome = true)
    (hstep : ∀ k v, mapGet par k = some v → lab k = lab v + 1)
    (he0 : lab e = 0) :
    ∀ (fuel : Nat) (c : Coordinate) (acc : List Coordinate),
      rank c < fuel → (c = e ∨ (mapGet par c).isSome = true) →
      (PathfindingAlgorithms.reconstructEndGo par e (some c) fuel acc).length =
        acc.length + lab c + 1 := by
  intro fuel
  induction fuel with
  | zero => intro c acc hf; omega
  | succ n ih =>
    intro c acc hf hc
    by_cases hce : c = e
    · subst hce
      show (if c = c then acc ++ [c] else _).length = acc.length + lab c + 1
      rw [if_pos rfl, he0]
      simp
    · rcases hc with rfl | hsome
      · exact absurd rfl hce
      obtain ⟨v, hv⟩ := Option.isSome_iff_exists.1 hsome
      show (if c = e then acc ++ [c]
          else PathfindingAlgorithms.reconstructEndGo par e (mapGet par c) n
            (acc ++ [c])).length = acc.length + lab c + 1
      rw [if_neg hce, hv]
      rw [ih v (acc ++ [c]) (by have := hrank c v hv; omega) (hroot c v hv)]
      rw [hstep c v hv]
      simp only [List.length_append, List.length_cons, List.length_nil]
      omega

theorem discoverFold_ns_mono {current : Coordinate} :
    ∀ (l vis ns : List Coordinate) (par : ParentMap),
      ∀ c ∈ ns, c ∈ (discoverFold current (vis, par, ns) l).2.2 := by
  intro l
  induction l with
  | nil => intro vis ns par c hc; exact hc
  | cons nb tl ih =>
    intro vis ns par c hc
    rw [discoverFold_cons]
    by_cases hmem : nb ∈ vis
    · rw [if_pos hmem]
      exact ih vis ns par c hc
    · rw [if_neg hmem]
      exact ih (nb :: vis) (ns ++ [nb]) ((nb, current) :: par) c
        (List.mem_append.2 (Or.inl hc))

theorem discoverFold_opt {current : Coordinate} :
    ∀ (l vis ns : List Coordinate) (par : ParentMap),
      (∀ c ∈ (discoverFold current (vis, par, ns) l).2.2,
        c ∈ ns ∨ (c ∈ l ∧ c ∉ vis)) ∧
      (∀ k v, mapGet (discoverFold current (vis, par, ns) l).2.1 k = some v →
        mapGet par k = some v ∨
          (k ∈ (discoverFold current (vis, par, ns) l).2.2 ∧ v = current)) := by
  intro l
  induction l with
  | nil =>
    intro vis ns par
    exact ⟨fun c hc => Or.inl hc, fun k v hkv => Or.inl hkv⟩
  | cons nb tl ih =>
    intro vis ns par
    rw [discoverFold_cons]
    by_cases hmem : nb ∈ vis
    · rw [if_pos hmem]
      obtain ⟨h1, h2⟩ := ih vis ns par
      refine ⟨?_, h2⟩
      intro c hc
      rcases h1 c hc with hc' | ⟨hc1, hc2⟩
      · exact Or.inl hc'
      · exact Or.inr ⟨List.mem_cons_of_mem _ hc1, hc2⟩
    · rw [if_neg hmem]
      obtain ⟨h1, h2⟩ := ih (nb :: vis) (ns ++ [nb]) ((nb, current) :: par)
      constructor
      · intro c hc
        rcases h1 c hc with hc' | ⟨hc1, hc2⟩
        · rcases List.mem_append.1 hc' with hc'' | hc''
          · exact Or.inl hc''
          · rcases List.mem_singleton.1 hc'' with rfl
            exact Or.inr ⟨List.mem_cons_self _ _, hmem⟩
        · refine Or.inr ⟨List.mem_cons_of_mem _ hc1, ?_⟩
          intro hcv
          exact hc2 (List.mem_cons_of_mem _ hcv)
      · intro k v hkv
        rcases h2 k v hkv with hk' | ⟨hk1, hk2⟩
        · rw [mapGet_cons] at hk'
          split_ifs at hk' with he
          · subst he
            have hv : v = current := by injection hk' with h; exact h.symm
            refine Or.inr ⟨?_, hv⟩
            exact discoverFold_ns_mono tl (nb :: vis) (ns ++ [nb])
              ((nb, current) :: par) nb
              (List.mem_append.2 (Or.inr (List.mem_singleton.2 rfl)))
          · exact Or.inl hk'
        · exact Or.inr ⟨hk1, hk2⟩

/-- The optimality invariant of one breadth-first side rooted at `root`:
`lab` assigns every visited node its exact shortest distance from the root,
parent links increment it, the queue is label-sorted with span at most one,
every node at distance up to the front label is already visited, non-queued
visited nodes are fully expanded and no deeper than the front, and the
structural mark-on-enqueue invariant holds. -/
def BfsSideInv (m : Maze) (root : Coordinate) (lab : Coordinate → Nat)
    (vis queue : List Coordinate) (par : ParentMap) : Prop :=
  (∀ c ∈ queue, c ∈ vis) ∧
  vis.Nodup ∧
  (∀ c ∈ vis, InBounds m c) ∧
  (∀ c ∈ vis, DistTo m root c (lab c)) ∧
  (∀ k v, mapGet par k = some v → lab k = lab v + 1) ∧
  lab root = 0 ∧
  List.Pairwise (fun a b => lab a ≤ lab b) queue ∧
  (∀ a ∈ queue, ∀ b ∈ queue, lab a ≤ lab b + 1) ∧
  (∀ u du, DistTo m root u du → ∀ hd, queue.head? = some hd →
    du ≤ lab hd → u ∈ vis) ∧
  (∀ c ∈ vis, c ∈ queue ∨ ∀ nb ∈ m.getNeighbors c.row c.col, nb ∈ vis) ∧
  root ∈ vis ∧
  (∀ c ∈ vis, c ∉ queue → ∀ hd, queue.head? = some hd → lab c ≤ lab hd) ∧
  MarkInv (NbEdge m) root par vis

theorem pairwise_of_forall_mem {α : Type} {R : α → α → Prop} :
    ∀ {l : List α}, (∀ a ∈ l, ∀ b ∈ l, R a b) → List.Pairwise R l := by
  intro l
  induction l with
  | nil => intro _; exact List.Pairwise.nil
  | cons a tl ih =>
    intro h
    refine List.Pairwise.cons ?_ (ih ?_)
    · intro b hb
      exact h a (List.mem_cons_self _ _) b (List.mem_cons_of_mem _ hb)
    · intro x hx y hy
      exact h x (List.mem_cons_of_mem _ hx) y (List.mem_cons_of_mem _ hy)

theorem bfsSide_step {m : Maze} {root current : Coordinate}
    {rest vis : List Coordinate} {par : ParentMap} {lab : Coordinate → Nat}
    (hinv : BfsSideInv m root lab vis (current :: rest) par)
    (r1 rns : List Coordinate) (rp : ParentMap)
    (hr : discoverFold current (vis, par, [])
      (m.getNeighbors current.row current.col) = (r1, rp, rns)) :
    BfsSideInv m root
        (fun c => if c ∈ rns then lab current + 1 else lab c) r1
        (rest ++ rns) rp ∧
      (∀ c ∈ vis, c ∈ r1) ∧
      (∀ c ∈ r1, c ∈ vis ∨ c ∈ rns) ∧
      (∀ c ∈ m.getNeighbors current.row current.col, c ∈ r1) ∧
      (∀ c ∈ rns, c ∉ vis) ∧
      r1.length = vis.length + rns.length := by
  obtain ⟨hq, hnd, hbnd, hexact, hpstep, hroot0, hsorted, hspan, hlevel,
    hclosed, hrootv, hexpord, hmark⟩ := hinv
  have hcurv : current ∈ vis := hq current (List.mem_cons_self _ _)
  have hcurd : DistTo m root current (lab current) := hexact current hcurv
  obtain ⟨c1, c2, c3, c4, c5, c6, c7, c8, c9⟩ := discoverFold_comp
    (m.getNeighbors current.row current.col) vis [] par
    (fun c hc => hc) ⟨lab current, hcurd.1⟩ hnd hbnd
    (fun c hc => ⟨lab c, (hexact c hc).1⟩)
    (fun c hc => absurd hc (List.not_mem_nil c))
  obtain ⟨m1, m2, m3, m4⟩ := discoverFold_inv
    (m.getNeighbors current.row current.col) vis [] par
    (fun c hc => hc) (hmark.2.2.2 current hcurv) hmark
    (fun c hc => absurd hc (List.not_mem_nil c))
  obtain ⟨o1, o2⟩ := discoverFold_opt
    (m.getNeighbors current.row current.col) vis [] par
  rw [hr] at c1 c2 c3 c4 c5 c6 c7 c8 c9 m1 m2 m3 m4 o1 o2
  dsimp only at c1 c2 c3 c4 c5 c6 c7 c8 c9 m1 m2 m3 m4 o1 o2
  simp only [List.length_nil, Nat.add_zero] at c8
  have hfresh : ∀ c ∈ rns, c ∉ vis := by
    intro c hc
    rcases o1 c hc with h | h
    · exact absurd h (List.not_mem_nil c)
    · exact h.2
  have hmarksl : ∀ c ∈ rns, c ∈ m.getNeighbors current.row current.col := by
    intro c hc
    rcases o1 c hc with h | h
    · exact absurd h (List.not_mem_nil c)
    · exact h.1
  have hagree : ∀ c ∈ vis,
      (if c ∈ rns then lab current + 1 else lab c) = lab c := by
    intro c hc
    rw [if_neg (fun hm => hfresh c hm hc)]
  have hmexact : ∀ c ∈ rns, DistTo m root c (lab current + 1) := by
    intro c hc
    obtain ⟨du, hdu⟩ := distTo_exists
      (distTo_triangle_nb hcurd (hmarksl c hc)).1
    have hle : du ≤ lab current + 1 :=
      (distTo_triangle_nb hcurd (hmarksl c hc)).2 du hdu
    have hge : lab current + 1 ≤ du := by
      by_contra hlt
      exact hfresh c hc (hlevel c du hdu current rfl (by omega))
    have : du = lab current + 1 := by omega
    exact this ▸ hdu
  have hrestvis : ∀ c ∈ rest, c ∈ vis :=
    fun c hc => hq c (List.mem_cons_of_mem _ hc)
  have hsorted' := (List.pairwise_cons.1 hsorted)
  refine ⟨⟨?_, c2, c3, ?_, ?_, ?_, ?_, ?_, ?_, ?_, c1 root hrootv, ?_, m1⟩,
    c1, c6, c5, hfresh, c8⟩
  · intro c hc
    rcases List.mem_append.1 hc with hc' | hc'
    · exact c1 c (hrestvis c hc')
    · exact c9 c hc'
  · intro c hc
    dsimp only
    rcases c6 c hc with hv | hv
    · rw [hagree c hv]
      exact hexact c hv
    · rw [if_pos hv]
      exact hmexact c hv
  · intro k v hkv
    dsimp only
    rcases o2 k v hkv with hk | ⟨hk1, hk2⟩
    · have hkvis : k ∈ vis := hmark.2.2.1 k (by rw [hk]; rfl)
      have hvvis : v ∈ vis := by
        rcases (parStruct_mem hmark.1 hk).2.1 with h | h
        · exact h ▸ hrootv
        · exact hmark.2.2.1 v h
      rw [hagree k hkvis, hagree v hvvis]
      exact hpstep k v hk
    · rw [if_pos hk1, hk2, hagree current hcurv]
  · show (if root ∈ rns then lab current + 1 else lab root) = 0
    rw [if_neg (fun hm => hfresh root hm hrootv)]
    exact hroot0
  · rw [List.pairwise_append]
    refine ⟨?_, ?_, ?_⟩
    · refine hsorted'.2.imp_of_mem ?_
      intro a b ha hb hab
      dsimp only
      rw [hagree a (hrestvis a ha), hagree b (hrestvis b hb)]
      exact hab
    · refine pairwise_of_forall_mem ?_
      intro a ha b hb
      dsimp only
      rw [if_pos ha, if_pos hb]
    · intro a ha b hb
      dsimp only
      rw [hagree a (hrestvis a ha), if_pos hb]
      exact hspan a (List.mem_cons_of_mem _ ha) current
        (List.mem_cons_self _ _)
  · intro a ha b hb
    dsimp only
    rcases List.mem_append.1 ha with ha' | ha' <;>
      rcases List.mem_append.1 hb with hb' | hb'
    · rw [hagree a (hrestvis a ha'), hagree b (hrestvis b hb')]
      exact hspan a (List.mem_cons_of_mem _ ha') b (List.mem_cons_of_mem _ hb')
    · rw [hagree a (hrestvis a ha'), if_pos hb']
      have := hspan a (List.mem_cons_of_mem _ ha') current
        (List.mem_cons_self _ _)
      omega
    · rw [if_pos ha', hagree b (hrestvis b hb')]
      have := hsorted'.1 b hb'
      omega
    · rw [if_pos ha', if_pos hb']
      omega
  · intro u du hdu hd hhd hduhd
    dsimp only at hduhd
    rcases hrest : rest with _ | ⟨h0, rest'⟩
    · subst hrest
      rw [List.nil_append] at hhd
      have hhdm : hd ∈ rns := by
        rcases rns with _ | ⟨x, xs⟩
        · cases hhd
        · cases hhd
          exact List.mem_cons_self _ _
      rw [if_pos hhdm] at hduhd
      by_cases hdule : du ≤ lab current
      · exact c1 u (hlevel u du hdu current rfl hdule)
      · have hdueq : du = lab current + 1 := by omega
        subst hdueq
        obtain ⟨w, hw1, hw2⟩ := walkN_last_step hdu.1
        obtain ⟨dw, hdw⟩ := distTo_exists ⟨lab current, hw1⟩
        have hdwle : dw ≤ lab current := hdw.2 _ hw1
        have hwvis : w ∈ vis := hlevel w dw hdw current rfl hdwle
        rcases hclosed w hwvis with hwq | hwcl
        · rcases List.mem_cons.1 hwq with rfl | hwr
          · exact c5 u hw2
          · exact absurd hwr (List.not_mem_nil w)
        · exact c1 u (hwcl u hw2)
    · subst hrest
      have hhd0 : hd = h0 := by
        rw [List.cons_append] at hhd
        cases hhd
        rfl
      subst hhd0
      have hhdvis : hd ∈ vis := hrestvis hd (List.mem_cons_self _ _)
      rw [hagree hd hhdvis] at hduhd
      by_cases hdule : du ≤ lab current
      · exact c1 u (hlevel u du hdu current rfl hdule)
      · have hhdub : lab hd ≤ lab current + 1 :=
          hspan hd (List.mem_cons_of_mem _ (List.mem_cons_self _ _)) current
            (List.mem_cons_self _ _)
        have hdueq : du = lab current + 1 := by omega
        have hhdeq : lab hd = lab current + 1 := by omega
        subst hdueq
        obtain ⟨w, hw1, hw2⟩ := walkN_last_step hdu.1
        obtain ⟨dw, hdw⟩ := distTo_exists ⟨lab current, hw1⟩
        have hdwle : dw ≤ lab current := hdw.2 _ hw1
        have hwvis : w ∈ vis := hlevel w dw hdw current rfl hdwle
        rcases hclosed w hwvis with hwq | hwcl
        · rcases List.mem_cons.1 hwq with rfl | hwr
          · exact c5 u hw2
          · exfalso
            have hwlab : lab current + 1 ≤ lab w := by
              rw [← hhdeq]
              rcases List.mem_cons.1 hwr with rfl | hwr'
              · exact Nat.le_refl _
              · exact List.rel_of_pairwise_cons hsorted'.2 hwr'
            have hwd : lab w = dw := distTo_unique (hexact w hwvis) hdw
            omega
        · exact c1 u (hwcl u hw2)
  · intro c hc
    rcases c6 c hc with hv | hv
    · rcases hclosed c hv with hcq | hccl
      · rcases List.mem_cons.1 hcq with rfl | hcr
        · exact Or.inr (fun nb hnb => c5 nb hnb)
        · exact Or.inl (List.mem_append.2 (Or.inl hcr))
      · exact Or.inr (fun nb hnb => c1 nb (hccl nb hnb))
    · exact Or.inl (List.mem_append.2 (Or.inr hv))
  · intro c hc hcq hd hhd
    dsimp only
    have hcvis : c ∈ vis := by
      rcases c6 c hc with hv | hv
      · exact hv
      · exact absurd (List.mem_append.2 (Or.inr hv)) hcq
    rw [hagree c hcvis]
    have hdlab : lab current ≤
        (if hd ∈ rns then lab current + 1 else lab hd) := by
      by_cases hhdm : hd ∈ rns
      · rw [if_pos hhdm]
        omega
      · have hhdq : hd ∈ rest := by
          have hmem : hd ∈ rest ++ rns := List.mem_of_mem_head? hhd
          rcases List.mem_append.1 hmem with h | h
          · exact h
          · exact absurd h hhdm
        rw [if_neg hhdm]
        exact hsorted'.1 hd hhdq
    have hclab : lab c ≤ lab current := by
      by_cases hcoldq : c ∈ current :: rest
      · rcases List.mem_cons.1 hcoldq with rfl | hcr
        · exact Nat.le_refl _
        · exact absurd (List.mem_append.2 (Or.inl hcr)) hcq
      · exact hexpord c hcvis hcoldq current rfl
    omega

theorem bfsLoop_optimal (m : Maze) :
    ∀ (fuel : Nat) (st : FrontierState) (lab : Coordinate → Nat),
      st.maze = m →
      BfsSideInv m m.start lab st.visited st.frontier st.parent →
      2 * (cellCount m - st.visited.length) + st.frontier.length < fuel →
      ∀ r mz p, PathfindingAlgorithms.bfsLoop fuel st = some (r, mz) →
        r.path = some p →
        ∃ d, DistTo m m.start m.endCoord d ∧ p.length = d + 1 := by
  intro fuel
  induction fuel with
  | zero => intro st lab hmz hinv hphi; omega
  | succ k ih =>
    intro st lab hmz hinv hphi r mz p h hp
    rw [PathfindingAlgorithms.bfsLoop] at h
    rw [hmz] at h
    rcases hfrv : st.frontier with _ | ⟨current, rest⟩ <;> rw [hfrv] at h
    · simp at h
      rw [← h.1] at hp
      cases hp
    · dsimp only at h
      rw [hfrv] at hinv
      have hcurv : current ∈ st.visited :=
        hinv.1 current (List.mem_cons_self _ _)
      split_ifs at h with hend
      · simp at h
        rw [← h.1] at hp
        simp at hp
        subst hp
        refine ⟨lab m.endCoord, hend ▸ hinv.2.2.2.1 current hcurv, ?_⟩
        rw [PathfindingAlgorithms.reconstructPath]
        have hmark := hinv.2.2.2.2.2.2.2.2.2.2.2.2
        rw [reconstructGo_len st.parent m.start (rankOf st.parent) lab
          (fun kk v hkv => parStruct_rank hmark.1 hkv)
          (fun kk v hkv => (parStruct_mem hmark.1 hkv).2.1)
          hinv.2.2.2.2.1 hinv.2.2.2.2.2.1 _ _ []
          (Nat.lt_succ_of_le (rankOf_le_length st.parent m.endCoord))
          (hend ▸ hmark.2.2.2 current hcurv)]
        simp
      · obtain ⟨hinv', hvm, hsplit, hlm, hfreshm, hlen⟩ :=
          bfsSide_step hinv
          (discoverFold current (st.visited, st.parent, [])
            (m.getNeighbors current.row current.col)).1
          (discoverFold current (st.visited, st.parent, [])
            (m.getNeighbors current.row current.col)).2.2
          (discoverFold current (st.visited, st.parent, [])
            (m.getNeighbors current.row current.col)).2.1
          rfl
        refine ih _ _ rfl hinv' ?_ r mz p h hp
        dsimp only
        have hvb := length_le_cellCount hinv'.2.1 hinv'.2.2.1
        rw [hfrv] at hphi
        simp only [List.length_cons, List.length_append] at hphi hvb ⊢
        omega

theorem side_coverage {m : Maze} {root : Coordinate} {lab : Coordinate → Nat}
    {vis q : List Coordinate} {par : ParentMap}
    (hS : BfsSideInv m root lab vis q par) {x : Coordinate} (hx : x ∈ vis) :
    ∀ u du, DistTo m root u du → du + 1 ≤ lab x → u ∈ vis := by
  obtain ⟨hq, hnd, hbnd, hexact, hpstep, hroot0, hsorted, hspan, hlevel,
    hclosed, hrootv, hexpord, hmark⟩ := hS
  intro u du hdu hlt
  rcases hqv : q with _ | ⟨hd, tl⟩
  · have hallclosed : ∀ c ∈ vis, ∀ nb ∈ m.getNeighbors c.row c.col,
        nb ∈ vis := by
      intro c hc
      rcases hclosed c hc with h | h
      · rw [hqv] at h
        cases h
      · exact h
    exact walkN_mem_closed hallclosed hdu.1 hrootv
  · have hhd : q.head? = some hd := by rw [hqv]; rfl
    by_cases hxq : x ∈ q
    · have hx1 : lab x ≤ lab hd + 1 := by
        rw [hqv] at hxq
        exact hspan x (hqv ▸ hxq) hd (hqv ▸ List.mem_cons_self _ _)
      exact hlevel u du hdu hd hhd (by omega)
    · have hx2 : lab x ≤ lab hd := hexpord x hx hxq hd hhd
      exact hlevel u du hdu hd hhd (by omega)

theorem walkN_split {m : Maze} :
    ∀ (j : Nat) {n : Nat} {a b : Coordinate}, j ≤ n →
      walkN m n a b = true →
      ∃ z, walkN m j a z = true ∧ walkN m (n - j) z b = true := by
  intro j
  induction j with
  | zero =>
    intro n a b hj h
    exact ⟨a, walkN_zero.2 rfl, by simpa using h⟩
  | succ i ih =>
    intro n a b hj h
    rcases n with _ | n'
    · omega
    · rcases walkN_succ.1 h with ⟨c, hc, hw⟩
      obtain ⟨z, hz1, hz2⟩ := ih (by omega) hw
      refine ⟨z, walkN_succ.2 ⟨c, hc, hz1⟩, ?_⟩
      have : n' + 1 - (i + 1) = n' - i := by omega
      rw [this]
      exact hz2

theorem vis_walkable {m : Maze} {root : Coordinate} {par : ParentMap}
    {vis : List Coordinate} (hmark : MarkInv (NbEdge m) root par vis)
    (hwr : isWalkableCell m root = true) {z : Coordinate} (hz : z ∈ vis) :
    isWalkableCell m z = true := by
  rcases hmark.2.2.2 z hz with h | h
  · exact h ▸ hwr
  · obtain ⟨v, hv⟩ := Option.isSome_iff_exists.1 h
    exact walkable_of_mem_getNeighbors (parStruct_mem hmark.1 hv).1

theorem bidi_meet_core {m : Maze} {root1 root2 : Coordinate}
    {lab1 lab2 : Coordinate → Nat} {vis1 q1 vis2 q2 : List Coordinate}
    {par1 par2 : ParentMap} {meet : Coordinate}
    (hw1 : isWalkableCell m root1 = true)
    (hw2 : isWalkableCell m root2 = true)
    (h1 : BfsSideInv m root1 lab1 vis1 q1 par1)
    (h2 : BfsSideInv m root2 lab2 vis2 q2 par2)
    (hNO : ∀ z, (mapGet par2 z).isSome = true → z ∈ vis1 → z ∈ q1)
    (hI : root2 ∈ vis1 → root2 ∈ q1)
    (hhead : q1.head? = some meet)
    (hmeet2 : meet ∈ vis2)
    {D : Nat} (hD : DistTo m root1 root2 D) :
    lab1 meet + lab2 meet = D := by
  have hmeet1 : meet ∈ vis1 := h1.1 meet (List.mem_of_mem_head? hhead)
  have hda : DistTo m root1 meet (lab1 meet) := h1.2.2.2.1 meet hmeet1
  have hdb : DistTo m root2 meet (lab2 meet) := h2.2.2.2.1 meet hmeet2
  have hsorted1 : ∀ z ∈ q1, lab1 meet ≤ lab1 z := by
    intro z hz
    rcases hq1v : q1 with _ | ⟨hd, tl⟩
    · rw [hq1v] at hz
      cases hz
    · rw [hq1v] at hhead
      cases hhead
      rw [hq1v] at hz
      rcases List.mem_cons.1 hz with rfl | hz'
      · exact Nat.le_refl _
      · have hpw := h1.2.2.2.2.2.2.1
        rw [hq1v] at hpw
        exact List.rel_of_pairwise_cons hpw hz'
  have hwalkab : walkN m (lab1 meet + lab2 meet) root1 root2 = true :=
    walkN_trans hda.1 (walkN_reverse hdb.1 hw2)
  have hlow : D ≤ lab1 meet + lab2 meet := hD.2 _ hwalkab
  by_contra hne
  have hlt : D < lab1 meet + lab2 meet := by omega
  have p1 := walkN_parity hD.1
  have p2 := walkN_parity hda.1
  have p3 := walkN_parity hdb.1
  have hD2 : D + 2 ≤ lab1 meet + lab2 meet := by omega
  by_cases ha0 : lab1 meet = 0
  · have hms : root1 = meet := distTo_zero (ha0 ▸ hda)
    have hrev : walkN m D root2 root1 = true := walkN_reverse hD.1 hw1
    rw [hms] at hrev
    have hble : lab2 meet ≤ D := hdb.2 D hrev
    omega
  · by_cases hbig : D + 1 ≤ lab1 meet
    · have hr2vis : root2 ∈ vis1 :=
        side_coverage h1 hmeet1 root2 D hD (by omega)
      have hr2q : root2 ∈ q1 := hI hr2vis
      have hr2lab : lab1 root2 = D :=
        distTo_unique (h1.2.2.2.1 root2 hr2vis) hD
      have := hsorted1 root2 hr2q
      omega
    · have hale : lab1 meet ≤ D := by omega
      obtain ⟨z, hz1, hz2⟩ := walkN_split (lab1 meet - 1)
        (by omega) hD.1
      obtain ⟨dz1, hdz1⟩ := distTo_exists ⟨lab1 meet - 1, hz1⟩
      have hdz1le : dz1 ≤ lab1 meet - 1 := hdz1.2 _ hz1
      have hzvis1 : z ∈ vis1 :=
        side_coverage h1 hmeet1 z dz1 hdz1 (by omega)
      have hzlab1 : lab1 z = dz1 :=
        distTo_unique (h1.2.2.2.1 z hzvis1) hdz1
      have hzw : isWalkableCell m z = true :=
        vis_walkable h1.2.2.2.2.2.2.2.2.2.2.2.2 hw1 hzvis1
      have hz2' : walkN m (D - (lab1 meet - 1)) root2 z = true :=
        walkN_reverse hz2 hzw
      obtain ⟨dz2, hdz2⟩ := distTo_exists ⟨_, hz2'⟩
      have hdz2le : dz2 ≤ D - (lab1 meet - 1) := hdz2.2 _ hz2'
      have hzvis2 : z ∈ vis2 :=
        side_coverage h2 hmeet2 z dz2 hdz2 (by omega)
      by_cases hzq : z ∈ q1
      · have := hsorted1 z hzq
        omega
      · rcases h2.2.2.2.2.2.2.2.2.2.2.2.2.2.2.2 z hzvis2 with hzr | hzk
        · apply hzq
          rw [hzr]
          exact hI (hzr ▸ hzvis1)
        · exact hzq (hNO z hzk hzvis1)

theorem bidi_path_length {m : Maze} {labS labE : Coordinate → Nat}
    {visS qS visE qE : List Coordinate} {parS parE : ParentMap}
    {meet : Coordinate}
    (hS : BfsSideInv m m.start labS visS qS parS)
    (hE : BfsSideInv m m.endCoord labE visE qE parE)
    (hmeetS : meet ∈ visS) (hmeetE : meet ∈ visE) :
    (PathfindingAlgorithms.reconstructBidirectionalPath parS parE m.start meet
      m.endCoord (parS.length + 1) (parE.length + 1)).length =
      labS meet + labE meet + 1 := by
  obtain ⟨-, -, -, -, hpstepS, hs0, -, -, -, -, -, -, hmarkS⟩ := hS
  obtain ⟨-, -, -, hexactE, hpstepE, he0, -, -, -, -, -, -, hmarkE⟩ := hE
  rw [PathfindingAlgorithms.reconstructBidirectionalPath, List.length_append]
  rw [reconstructGo_len parS m.start (rankOf parS) labS
    (fun k v hkv => parStruct_rank hmarkS.1 hkv)
    (fun k v hkv => (parStruct_mem hmarkS.1 hkv).2.1)
    hpstepS hs0 _ _ []
    (Nat.lt_succ_of_le (rankOf_le_length parS meet))
    (hmarkS.2.2.2 meet hmeetS)]
  cases hpe : mapGet parE meet with
  | none =>
    have hme : meet = m.endCoord := by
      rcases hmarkE.2.2.2 meet hmeetE with h | h
      · exact h
      · rw [hpe] at h
        cases h
    have hlab0 : labE meet = 0 := hme ▸ he0
    show labS meet + 1 + ([] : List Coordinate).length +
        (([] : List Coordinate)).length = labS meet + labE meet + 1
    rw [hlab0]
    simp
  | some v =>
    rw [reconstructEndGo_len parE m.endCoord (rankOf parE) labE
      (fun k v' hkv => parStruct_rank hmarkE.1 hkv)
      (fun k v' hkv => (parStruct_mem hmarkE.1 hkv).2.1)
      hpstepE he0 _ _ []
      (Nat.lt_succ_of_le (rankOf_le_length parE v))
      ((parStruct_mem hmarkE.1 hpe).2.1)]
    have hstep := hpstepE meet v hpe
    simp only [List.length_nil]
    omega

theorem bidiLoop_optimal (m : Maze)
    (hs : isWalkableCell m m.start = true)
    (he : isWalkableCell m m.endCoord = true) :
    ∀ (fuel : Nat) (st : BidiState) (labS labE : Coordinate → Nat),
      st.maze = m →
      BfsSideInv m m.start labS st.visitedStart st.queueStart st.parentStart →
      BfsSideInv m m.endCoord labE st.visitedEnd st.queueEnd st.parentEnd →
      (∀ z, (mapGet st.parentEnd z).isSome = true →
        z ∈ st.visitedStart → z ∈ st.queueStart) →
      (∀ z, (mapGet st.parentStart z).isSome = true →
        z ∈ st.visitedEnd → z ∈ st.queueEnd) →
      (m.endCoord ∈ st.visitedStart → m.endCoord ∈ st.queueStart) →
      (m.start ∈ st.visitedEnd → m.start ∈ st.queueEnd) →
      ∀ r mz p, PathfindingAlgorithms.bidiLoop fuel st = some (r, mz) →
        r.path = some p →
        ∃ d, DistTo m m.start m.endCoord d ∧ p.length = d + 1 := by
  intro fuel
  induction fuel with
  | zero =>
    intro st labS labE hmz hinvS hinvE hNOS hNOE hIS hIE r mz p h hp
    rw [PathfindingAlgorithms.bidiLoop] at h
    cases h
  | succ k ih =>
    intro st labS labE hmz hinvS hinvE hNOS hNOE hIS hIE r mz p h hp
    rw [PathfindingAlgorithms.bidiLoop] at h
    rw [hmz] at h
    rcases hq1 : st.queueStart with _ | ⟨current, restS⟩ <;> rw [hq1] at h
    · dsimp only at h
      simp only [Option.some.injEq, Prod.mk.injEq] at h
      rw [← h.1] at hp
      cases hp
    · rcases hq2 : st.queueEnd with _ | ⟨current2, restE⟩ <;> rw [hq2] at h
      · dsimp only at h
        simp only [Option.some.injEq, Prod.mk.injEq] at h
        rw [← h.1] at hp
        cases hp
      · rw [hq1] at hinvS hNOS hIS
        rw [hq2] at hinvE hNOE hIE
        dsimp only at h
        have hcurS : current ∈ st.visitedStart :=
          hinvS.1 current (List.mem_cons_self _ _)
        have hcur2E : current2 ∈ st.visitedEnd :=
          hinvE.1 current2 (List.mem_cons_self _ _)
        have hmarkS := hinvS.2.2.2.2.2.2.2.2.2.2.2.2
        have hmarkE := hinvE.2.2.2.2.2.2.2.2.2.2.2.2
        have hclosedS := hinvS.2.2.2.2.2.2.2.2.2.1
        have hclosedE := hinvE.2.2.2.2.2.2.2.2.2.1
        have hrootS := hinvS.2.2.2.2.2.2.2.2.2.2.1
        have hrootE := hinvE.2.2.2.2.2.2.2.2.2.2.1
        have hwcur : isWalkableCell m current = true :=
          vis_walkable hmarkS hs hcurS
        have hwcur2 : isWalkableCell m current2 = true :=
          vis_walkable hmarkE he hcur2E
        split_ifs at h with hmeet1 hmeet2
        · rw [PathfindingAlgorithms.bidiMeet] at h
          rw [hmz] at h
          simp only [Option.some.injEq, Prod.mk.injEq] at h
          rw [← h.1] at hp
          simp at hp
          subst hp
          obtain ⟨D, hD⟩ := distTo_exists (reachable_link he
            ⟨labS current, (hinvS.2.2.2.1 current hcurS).1⟩
            ⟨labE current, (hinvE.2.2.2.1 current hmeet1).1⟩)
          have hsum := bidi_meet_core hs he hinvS hinvE hNOS hIS rfl hmeet1 hD
          refine ⟨D, hD, ?_⟩
          rw [bidi_path_length hinvS hinvE hcurS hmeet1]
          omega
        · obtain ⟨hinvS', hvmS, hsplitS, hlmS, hfreshS, hlenS⟩ :=
            bfsSide_step hinvS
            (discoverFold current (st.visitedStart, st.parentStart, [])
              (m.getNeighbors current.row current.col)).1
            (discoverFold current (st.visitedStart, st.parentStart, [])
              (m.getNeighbors current.row current.col)).2.2
            (discoverFold current (st.visitedStart, st.parentStart, [])
              (m.getNeighbors current.row current.col)).2.1
            rfl
          have ho1S := (@discoverFold_opt current
            (m.getNeighbors current.row current.col) st.visitedStart []
            st.parentStart).1
          have ho2S := (@discoverFold_opt current
            (m.getNeighbors current.row current.col) st.visitedStart []
            st.parentStart).2
          have hNOE' : ∀ z, (mapGet (discoverFold current
              (st.visitedStart, st.parentStart, [])
              (m.getNeighbors current.row current.col)).2.1 z).isSome = true →
              z ∈ st.visitedEnd → z ∈ current2 :: restE := by
            intro z hz hzE
            obtain ⟨v, hv⟩ := Option.isSome_iff_exists.1 hz
            rcases ho2S z v hv with hold | ⟨hzrns, -⟩
            · exact hNOE z (by rw [hold]; rfl) hzE
            · rcases hclosedE z hzE with hzq | hcl
              · exact hzq
              · exfalso
                have hzg : z ∈ m.getNeighbors current.row current.col := by
                  rcases ho1S z hzrns with h0 | h0
                  · exact absurd h0 (List.not_mem_nil z)
                  · exact h0.1
                exact hmeet1 (hcl current (mem_getNeighbors_symm hwcur hzg))
          rw [PathfindingAlgorithms.bidiMeet] at h
          dsimp only at h
          simp only [Option.some.injEq, Prod.mk.injEq] at h
          rw [← h.1] at hp
          simp at hp
          subst hp
          obtain ⟨D, hD⟩ := distTo_exists (reachable_link he
            ⟨_, (hinvS'.2.2.2.1 current2 hmeet2).1⟩
            ⟨_, (hinvE.2.2.2.1 current2 hcur2E).1⟩)
          have hsum := bidi_meet_core he hs hinvE hinvS' hNOE' hIE rfl hmeet2
            (distTo_symm hs he hD)
          refine ⟨D, hD, ?_⟩
          rw [bidi_path_length hinvS' hinvE hmeet2 hcur2E]
          omega
        · obtain ⟨hinvS', hvmS, hsplitS, hlmS, hfreshS, hlenS⟩ :=
            bfsSide_step hinvS
            (discoverFold current (st.visitedStart, st.parentStart, [])
              (m.getNeighbors current.row current.col)).1
            (discoverFold current (st.visitedStart, st.parentStart, [])
              (m.getNeighbors current.row current.col)).2.2
            (discoverFold current (st.visitedStart, st.parentStart, [])
              (m.getNeighbors current.row current.col)).2.1
            rfl
          obtain ⟨hinvE', hvmE, hsplitE, hlmE, hfreshE, hlenE⟩ :=
            bfsSide_step hinvE
            (discoverFold current2 (st.visitedEnd, st.parentEnd, [])
              (m.getNeighbors current2.row current2.col)).1
            (discoverFold current2 (st.visitedEnd, st.parentEnd, [])
              (m.getNeighbors current2.row current2.col)).2.2
            (discoverFold current2 (st.visitedEnd, st.parentEnd, [])
              (m.getNeighbors current2.row current2.col)).2.1
            rfl
          have ho1S := (@discoverFold_opt current
            (m.getNeighbors current.row current.col) st.visitedStart []
            st.parentStart).1
          have ho2S := (@discoverFold_opt current
            (m.getNeighbors current.row current.col) st.visitedStart []
            st.parentStart).2
          have ho1E := (@discoverFold_opt current2
            (m.getNeighbors current2.row current2.col) st.visitedEnd []
            st.parentEnd).1
          have ho2E := (@discoverFold_opt current2
            (m.getNeighbors current2.row current2.col) st.visitedEnd []
            st.parentEnd).2
          have hclosedS' := hinvS'.2.2.2.2.2.2.2.2.2.1
          have hNOS2 : ∀ z, (mapGet (discoverFold current2
              (st.visitedEnd, st.parentEnd, [])
              (m.getNeighbors current2.row current2.col)).2.1 z).isSome = true →
              z ∈ (discoverFold current (st.visitedStart, st.parentStart, [])
                (m.getNeighbors current.row current.col)).1 →
              z ∈ restS ++ (discoverFold current
                (st.visitedStart, st.parentStart, [])
                (m.getNeighbors current.row current.col)).2.2 := by
            intro z hz hzS
            obtain ⟨v, hv⟩ := Option.isSome_iff_exists.1 hz
            rcases ho2E z v hv with hold | ⟨hzrnsE, -⟩
            · rcases hsplitS z hzS with hzv | hzn
              · have hzq := hNOS z (by rw [hold]; rfl) hzv
                rcases List.mem_cons.1 hzq with hzc | hzr
                · exfalso
                  apply hmeet1
                  have hks : (mapGet st.parentEnd current).isSome = true := by
                    rw [hzc] at hold
                    rw [hold]
                    rfl
                  exact hmarkE.2.2.1 current hks
                · exact List.mem_append.2 (Or.inl hzr)
              · exact List.mem_append.2 (Or.inr hzn)
            · rcases hclosedS' z hzS with hzq | hcl
              · exact hzq
              · exfalso
                have hzg : z ∈ m.getNeighbors current2.row current2.col := by
                  rcases ho1E z hzrnsE with h0 | h0
                  · exact absurd h0 (List.not_mem_nil z)
                  · exact h0.1
                exact hmeet2 (hcl current2 (mem_getNeighbors_symm hwcur2 hzg))
          have hNOE2 : ∀ z, (mapGet (discoverFold current
              (st.visitedStart, st.parentStart, [])
              (m.getNeighbors current.row current.col)).2.1 z).isSome = true →
              z ∈ (discoverFold current2 (st.visitedEnd, st.parentEnd, [])
                (m.getNeighbors current2.row current2.col)).1 →
              z ∈ restE ++ (discoverFold current2
                (st.visitedEnd, st.parentEnd, [])
                (m.getNeighbors current2.row current2.col)).2.2 := by
            intro z hz hzE
            obtain ⟨v, hv⟩ := Option.isSome_iff_exists.1 hz
            rcases ho2S z v hv with hold | ⟨hzrnsS, -⟩
            · rcases hsplitE z hzE with hzv | hzn
              · have hzq := hNOE z (by rw [hold]; rfl) hzv
                rcases List.mem_cons.1 hzq with hzc | hzr
                · exfalso
                  apply hmeet2
                  have hks : (mapGet st.parentStart current2).isSome = true := by
                    rw [hzc] at hold
                    rw [hold]
                    rfl
                  exact hvmS current2 (hmarkS.2.2.1 current2 hks)
                · exact List.mem_append.2 (Or.inl hzr)
              · exact List.mem_append.2 (Or.inr hzn)
            · have hzg : z ∈ m.getNeighbors current.row current.col := by
                rcases ho1S z hzrnsS with h0 | h0
                · exact absurd h0 (List.not_mem_nil z)
                · exact h0.1
              rcases hsplitE z hzE with hzvE | hznE
              · rcases hclosedE z hzvE with hzq | hcl
                · rcases List.mem_cons.1 hzq with hzc | hzr
                  · exfalso
                    apply hmeet2
                    have hzS1 := hlmS z hzg
                    rw [hzc] at hzS1
                    exact hzS1
                  · exact List.mem_append.2 (Or.inl hzr)
                · exfalso
                  exact hmeet1 (hcl current (mem_getNeighbors_symm hwcur hzg))
              · exact List.mem_append.2 (Or.inr hznE)
          have hIS2 : m.endCoord ∈ (discoverFold current
              (st.visitedStart, st.parentStart, [])
              (m.getNeighbors current.row current.col)).1 →
              m.endCoord ∈ restS ++ (discoverFold current
                (st.visitedStart, st.parentStart, [])
                (m.getNeighbors current.row current.col)).2.2 := by
            intro hgv
            rcases hsplitS _ hgv with hv | hv
            · have hq := hIS hv
              rcases List.mem_cons.1 hq with hcc | hcc
              · exfalso
                apply hmeet1
                rw [← hcc]
                exact hrootE
              · exact List.mem_append.2 (Or.inl hcc)
            · exact List.mem_append.2 (Or.inr hv)
          have hIE2 : m.start ∈ (discoverFold current2
              (st.visitedEnd, st.parentEnd, [])
              (m.getNeighbors current2.row current2.col)).1 →
              m.start ∈ restE ++ (discoverFold current2
                (st.visitedEnd, st.parentEnd, [])
                (m.getNeighbors current2.row current2.col)).2.2 := by
            intro hgv
            rcases hsplitE _ hgv with hv | hv
            · have hq := hIE hv
              rcases List.mem_cons.1 hq with hcc | hcc
              · exfalso
                apply hmeet2
                rw [← hcc]
                exact hvmS _ hrootS
              · exact List.mem_append.2 (Or.inl hcc)
            · exact List.mem_append.2 (Or.inr hv)
          exact ih _ _ _ rfl hinvS' hinvE' hNOS2 hNOE2 hIS2 hIE2 r mz p h hp

theorem bfsSideInv_init {m : Maze} {root : Coordinate}
    (hw : isWalkableCell m root = true) :
    BfsSideInv m root (fun _ => 0) [root] [root] [] := by
  refine ⟨fun c hc => hc, List.nodup_singleton root,
    ?_, ?_, ?_, rfl, List.pairwise_singleton _ _, ?_, ?_, ?_,
    List.mem_singleton_self root, ?_, ?_⟩
  · intro c hc
    rw [List.mem_singleton] at hc
    exact hc ▸ inBounds_of_walkable hw
  · intro c hc
    rw [List.mem_singleton] at hc
    exact hc ▸ distTo_self m root
  · intro k v hkv
    exact Option.noConfusion hkv
  · intro a _ b _
    exact Nat.le_succ 0
  · intro u du hdu hd hhd hle
    have hz : du = 0 := Nat.le_zero.1 hle
    rw [hz] at hdu
    rw [List.mem_singleton]
    exact (distTo_zero hdu).symm
  · intro c hc
    exact Or.inl hc
  · intro c hc hcq
    exact absurd hc hcq
  · exact ⟨trivial, List.mem_singleton_self root,
      fun k hk => Bool.noConfusion hk,
      fun c hc => Or.inl (List.mem_singleton.1 hc)⟩

theorem bfs_optimal (m : Maze) (hs : isWalkableCell m m.start = true) :
    ∀ r mz p, PathfindingAlgorithms.bfs m = some (r, mz) → r.path = some p →
      ∃ d, DistTo m m.start m.endCoord d ∧ p.length = d + 1 := by
  intro r mz p h hp
  refine bfsLoop_optimal m _ _ (fun _ => 0) rfl (bfsSideInv_init hs) ?_
    r mz p h hp
  show 2 * (cellCount m - 1) + 1 < 2 * cellCount m + 4
  omega

theorem bidirectional_optimal (m : Maze)
    (hs : isWalkableCell m m.start = true)
    (he : isWalkableCell m m.endCoord = true) :
    ∀ r mz p, PathfindingAlgorithms.bidirectional m = some (r, mz) →
      r.path = some p →
      ∃ d, DistTo m m.start m.endCoord d ∧ p.length = d + 1 := by
  intro r mz p h hp
  exact bidiLoop_optimal m hs he _ _ (fun _ => 0) (fun _ => 0) rfl
    (bfsSideInv_init hs) (bfsSideInv_init he)
    (fun z hz _ => Bool.noConfusion hz) (fun z hz _ => Bool.noConfusion hz)
    (fun hx => hx) (fun hx => hx) r mz p h hp

theorem insertByPriority_sorted {α P : Type} [LinearOrder P]
    {l : List (α × P)} {x : α × P}
    (hs : List.Pairwise (fun a b : α × P => a.2 ≤ b.2) l) :
    List.Pairwise (fun a b : α × P => a.2 ≤ b.2) (insertByPriority l x) := by
  induction l with
  | nil => simp [insertByPriority]
  | cons y tl ih =>
    rw [insertByPriority]
    rcases List.pairwise_cons.1 hs with ⟨hy, htl⟩
    split_ifs with hp
    · refine List.pairwise_cons.2 ⟨?_, hs⟩
      intro z hz
      rcases List.mem_cons.1 hz with hz | hz
      · exact hz ▸ le_of_lt hp
      · exact le_trans (le_of_lt hp) (hy z hz)
    · refine List.pairwise_cons.2 ⟨?_, ih htl⟩
      intro z hz
      rcases mem_insertByPriority.1 hz with hz | hz
      · exact hy z hz
      · rw [hz]
        exact le_of_not_lt hp

theorem mem_getNeighbors_ne {m : Maze} {a c : Coordinate}
    (h : c ∈ m.getNeighbors a.row a.col) : c ≠ a := by
  rcases (mem_getNeighbors m a.row a.col c).1 h with ⟨hmem, -⟩
  obtain ⟨ar, ac⟩ := a
  obtain ⟨cr, cc⟩ := c
  simp only [fourNeighbors, List.mem_cons, List.not_mem_nil, or_false,
    Coordinate.mk.injEq] at hmem
  intro he
  rw [Coordinate.mk.injEq] at he
  rcases hmem with ⟨h1, h2⟩ | ⟨h1, h2⟩ | ⟨h1, h2⟩ | ⟨h1, h2⟩ <;> omega

/-- Invariant bundle carried through `astarLoop` for a consistent heuristic:
visited g-scores are exact shortest distances; every recorded g-score is the
length of some start-rooted walk; every unvisited keyed node has a live queue
entry priced at its current `g + h`; queue entries are never cheaper than the
current `g + h` of their node; the queue is sorted; `g(start) = 0`; parent
edges step the g-score by exactly one from a visited node; g-scores are
bounded by the parent-map length (reconstruction fuel); every keyed node is
the start or has a parent. -/
def AstarInv {P : Type} [LinearOrderedRing P] (m : Maze)
    (hfun : Coordinate → Coordinate → P) (visx : List Coordinate)
    (g : CoordMap Int) (par : ParentMap)
    (pq : PriorityQueue Coordinate P) : Prop :=
  (∀ c ∈ visx, ∃ n : Nat, DistTo m m.start c n ∧ mapGet g c = some (n : Int)) ∧
  (∀ c gc, mapGet g c = some gc →
    ∃ n : Nat, walkN m n m.start c = true ∧ (n : Int) = gc) ∧
  (∀ c gc, mapGet g c = some gc → c ∉ visx →
    ∃ pr, (c, pr) ∈ pq.values ∧ pr = (gc : P) + hfun c m.endCoord) ∧
  (∀ cp ∈ pq.values, ∃ gc, mapGet g cp.1 = some gc ∧
    (gc : P) + hfun cp.1 m.endCoord ≤ cp.2) ∧
  List.Pairwise (fun a b : Coordinate × P => a.2 ≤ b.2) pq.values ∧
  mapGet g m.start = some 0 ∧
  (∀ k v, mapGet par k = some v → v ∈ visx ∧ NbEdge m v k ∧
    ∃ gk gv, mapGet g k = some gk ∧ mapGet g v = some gv ∧ gk = gv + 1) ∧
  (∀ k gk, mapGet g k = some gk → gk.toNat ≤ par.length) ∧
  (∀ c gc, mapGet g c = some gc →
    c = m.start ∨ (mapGet par c).isSome = true)

/-- The per-expansion neighbor bound carried alongside `AstarInv`: every
neighbor of a visited node has a recorded g-score at most one above its
node's. -/
def NbBound (m : Maze) (visx : List Coordinate) (g : CoordMap Int) : Prop :=
  ∀ u ∈ visx, ∀ nb ∈ m.getNeighbors u.row u.col,
    ∃ gnb gu, mapGet g nb = some gnb ∧ mapGet g u = some gu ∧ gnb ≤ gu + 1

theorem astarRelaxFold_opt {P : Type} [LinearOrderedRing P]
    {m : Maze} {hfun : Coordinate → Coordinate → P}
    {current : Coordinate} {gcur : Int} {vis : List Coordinate} :
    ∀ (l : List Coordinate) (g : CoordMap Int) (f : CoordMap P)
      (par : ParentMap) (pq : PriorityQueue Coordinate P),
      (∀ c ∈ l, c ∈ m.getNeighbors current.row current.col) →
      mapGet g current = some gcur →
      AstarInv m hfun (current :: vis) g par pq →
      NbBound m vis g →
      mapGet (astarRelaxFold hfun m.endCoord current gcur (g, f, par, pq) l).1
          current = some gcur ∧
      AstarInv m hfun (current :: vis)
        (astarRelaxFold hfun m.endCoord current gcur (g, f, par, pq) l).1
        (astarRelaxFold hfun m.endCoord current gcur (g, f, par, pq) l).2.2.1
        (astarRelaxFold hfun m.endCoord current gcur (g, f, par, pq) l).2.2.2 ∧
      NbBound m vis
        (astarRelaxFold hfun m.endCoord current gcur (g, f, par, pq) l).1 ∧
      (∀ nb ∈ l, ∃ gnb,
        mapGet (astarRelaxFold hfun m.endCoord current gcur
          (g, f, par, pq) l).1 nb = some gnb ∧ gnb ≤ gcur + 1) ∧
      (∀ c gc, mapGet g c = some gc → ∃ gc',
        mapGet (astarRelaxFold hfun m.endCoord current gcur
          (g, f, par, pq) l).1 c = some gc' ∧ gc' ≤ gc) := by
  intro l
  induction l with
  | nil =>
    intro g f par pq hl hcur hinv hnb
    exact ⟨hcur, hinv, hnb, fun nb hnb' => absurd hnb' (List.not_mem_nil nb),
      fun c gc hgc => ⟨gc, hgc, le_refl gc⟩⟩
  | cons nb tl ih =>
    intro g f par pq hl hcur hinv hnb
    obtain ⟨hA, hB, hD, hP2, hSORT, hS, hE, hLEN, hK⟩ := hinv
    have hnbg : nb ∈ m.getNeighbors current.row current.col :=
      hl nb (List.mem_cons_self _ _)
    have hnbne : nb ≠ current := mem_getNeighbors_ne hnbg
    have hgcur0 : 0 ≤ gcur := by
      obtain ⟨n, -, hn⟩ := hB current gcur hcur
      omega
    rw [astarRelaxFold_cons]
    split_ifs with hgrd
    · have hrelax : ∀ gn, mapGet g nb = some gn → gcur + 1 < gn := by
        intro gn hgn
        rw [hgn] at hgrd
        exact of_decide_eq_true hgrd
      have hnbvis : nb ∉ current :: vis := by
        intro hmem
        rcases List.mem_cons.1 hmem with h' | h'
        · exact hnbne h'
        · obtain ⟨n, hdn, hgn⟩ := hA nb (List.mem_cons_of_mem _ h')
          obtain ⟨nc, hdc, hgc⟩ := hA current (List.mem_cons_self _ _)
          rw [hcur] at hgc
          injection hgc with hgc'
          have hlt := hrelax _ hgn
          have htri := (distTo_triangle_nb hdc hnbg).2 n hdn
          omega
      have hfr : ∀ c, c ∈ current :: vis → nb ≠ c :=
        fun c hc he => hnbvis (by rw [he]; exact hc)
      have hnbs : nb ≠ m.start := by
        intro he
        have := hrelax 0 (by rw [he]; exact hS)
        omega
      have hprT : (mapGet ((nb, ((gcur + 1 : Int) : P) +
            hfun nb m.endCoord) :: f) nb).getD
          (((gcur + 1 : Int) : P) + hfun nb m.endCoord) =
          ((gcur + 1 : Int) : P) + hfun nb m.endCoord := by
        rw [mapGet_cons, if_pos rfl]
        rfl
      rw [hprT]
      have hcur' : mapGet ((nb, gcur + 1) :: g) current = some gcur := by
        rw [mapGet_cons, if_neg hnbne]
        exact hcur
      have hA' : ∀ c ∈ current :: vis, ∃ n : Nat, DistTo m m.start c n ∧
          mapGet ((nb, gcur + 1) :: g) c = some (n : Int) := by
        intro c hc
        obtain ⟨n, hd, hg⟩ := hA c hc
        refine ⟨n, hd, ?_⟩
        rw [mapGet_cons, if_neg (hfr c hc)]
        exact hg
      have hB' : ∀ c gc, mapGet ((nb, gcur + 1) :: g) c = some gc →
          ∃ n : Nat, walkN m n m.start c = true ∧ (n : Int) = gc := by
        intro c gc hgc
        rw [mapGet_cons] at hgc
        split_ifs at hgc with hce
        · injection hgc with h1
          subst hce
          obtain ⟨n, hw, hn⟩ := hB current gcur hcur
          refine ⟨n + 1, walkN_snoc hw hnbg, ?_⟩
          push_cast
          omega
        · exact hB c gc hgc
      have hD' : ∀ c gc, mapGet ((nb, gcur + 1) :: g) c = some gc →
          c ∉ current :: vis →
          ∃ pr, (c, pr) ∈ (pq.enqueue nb (((gcur + 1 : Int) : P) +
            hfun nb m.endCoord)).values ∧
            pr = (gc : P) + hfun c m.endCoord := by
        intro c gc hgc hcv
        rw [mapGet_cons] at hgc
        split_ifs at hgc with hce
        · injection hgc with h1
          subst hce
          refine ⟨((gcur + 1 : Int) : P) + hfun nb m.endCoord, ?_, ?_⟩
          · show _ ∈ insertByPriority pq.values _
            exact mem_insertByPriority.2 (Or.inr rfl)
          · rw [← h1]
        · obtain ⟨pr, hmem, hpr⟩ := hD c gc hgc hcv
          refine ⟨pr, ?_, hpr⟩
          show _ ∈ insertByPriority pq.values _
          exact mem_insertByPriority.2 (Or.inl hmem)
      have hP2' : ∀ cp ∈ (pq.enqueue nb (((gcur + 1 : Int) : P) +
            hfun nb m.endCoord)).values,
          ∃ gc, mapGet ((nb, gcur + 1) :: g) cp.1 = some gc ∧
            (gc : P) + hfun cp.1 m.endCoord ≤ cp.2 := by
        intro cp hcp
        rcases mem_insertByPriority.1 hcp with hold | hnew
        · obtain ⟨gc, hgc, hle⟩ := hP2 cp hold
          by_cases hce : nb = cp.1
          · have hgn := hrelax gc (by rw [hce]; exact hgc)
            refine ⟨gcur + 1, ?_, ?_⟩
            · rw [mapGet_cons, if_pos hce]
            · refine le_trans ?_ hle
              have hcast : ((gcur + 1 : Int) : P) ≤ (gc : P) :=
                Int.cast_le.2 (by omega)
              exact add_le_add_right hcast _
          · refine ⟨gc, ?_, hle⟩
            rw [mapGet_cons, if_neg hce]
            exact hgc
        · subst hnew
          refine ⟨gcur + 1, ?_, ?_⟩
          · rw [mapGet_cons, if_pos rfl]
          · exact le_refl _
      have hSORT' : List.Pairwise (fun a b : Coordinate × P => a.2 ≤ b.2)
          (pq.enqueue nb (((gcur + 1 : Int) : P) +
            hfun nb m.endCoord)).values :=
        insertByPriority_sorted hSORT
      have hS' : mapGet ((nb, gcur + 1) :: g) m.start = some 0 := by
        rw [mapGet_cons, if_neg hnbs]
        exact hS
      have hE' : ∀ k v, mapGet ((nb, current) :: par) k = some v →
          v ∈ current :: vis ∧ NbEdge m v k ∧
          ∃ gk gv, mapGet ((nb, gcur + 1) :: g) k = some gk ∧
            mapGet ((nb, gcur + 1) :: g) v = some gv ∧ gk = gv + 1 := by
        intro k v hkv
        rw [mapGet_cons] at hkv
        split_ifs at hkv with hke
        · injection hkv with h1
          subst hke
          rw [← h1]
          refine ⟨List.mem_cons_self _ _, hnbg, gcur + 1, gcur, ?_, ?_, rfl⟩
          · rw [mapGet_cons, if_pos rfl]
          · rw [mapGet_cons, if_neg hnbne]
            exact hcur
        · obtain ⟨hv, hedge, gk, gv, hgk, hgv, hstep⟩ := hE k v hkv
          refine ⟨hv, hedge, gk, gv, ?_, ?_, hstep⟩
          · rw [mapGet_cons, if_neg hke]
            exact hgk
          · rw [mapGet_cons, if_neg (hfr v hv)]
            exact hgv
      have hLEN' : ∀ k gk, mapGet ((nb, gcur + 1) :: g) k = some gk →
          gk.toNat ≤ ((nb, current) :: par).length := by
        intro k gk hgk
        rw [mapGet_cons] at hgk
        simp only [List.length_cons]
        split_ifs at hgk with hke
        · injection hgk with h1
          have := hLEN current gcur hcur
          omega
        · have := hLEN k gk hgk
          omega
      have hK' : ∀ c gc, mapGet ((nb, gcur + 1) :: g) c = some gc →
          c = m.start ∨ (mapGet ((nb, current) :: par) c).isSome = true := by
        intro c gc hgc
        rw [mapGet_cons] at hgc
        split_ifs at hgc with hce
        · right
          rw [mapGet_cons, if_pos hce]
          rfl
        · rcases hK c gc hgc with h | h
          · exact Or.inl h
          · exact Or.inr (mapGet_isSome_cons _ h)
      have hnb' : NbBound m vis ((nb, gcur + 1) :: g) := by
        intro u hu nb2 hnb2
        obtain ⟨gnb2, gu, hg1, hg2, hle⟩ := hnb u hu nb2 hnb2
        have hune : nb ≠ u := hfr u (List.mem_cons_of_mem _ hu)
        by_cases hce : nb = nb2
        · have hgn := hrelax gnb2 (by rw [hce]; exact hg1)
          refine ⟨gcur + 1, gu, ?_, ?_, by omega⟩
          · rw [mapGet_cons, if_pos hce]
          · rw [mapGet_cons, if_neg hune]
            exact hg2
        · refine ⟨gnb2, gu, ?_, ?_, hle⟩
          · rw [mapGet_cons, if_neg hce]
            exact hg1
          · rw [mapGet_cons, if_neg hune]
            exact hg2
      obtain ⟨o1, o2, o3, o4, o5⟩ := ih ((nb, gcur + 1) :: g)
        ((nb, ((gcur + 1 : Int) : P) + hfun nb m.endCoord) :: f)
        ((nb, current) :: par)
        (pq.enqueue nb (((gcur + 1 : Int) : P) + hfun nb m.endCoord))
        (fun c hc => hl c (List.mem_cons_of_mem _ hc)) hcur'
        ⟨hA', hB', hD', hP2', hSORT', hS', hE', hLEN', hK'⟩ hnb'
      refine ⟨o1, o2, o3, ?_, ?_⟩
      · intro c hc
        rcases List.mem_cons.1 hc with hc | hc
        · subst hc
          obtain ⟨gc', ho, hle⟩ := o5 c (gcur + 1)
            (by rw [mapGet_cons, if_pos rfl])
          exact ⟨gc', ho, hle⟩
        · exact o4 c hc
      · intro c gc hgc
        by_cases hce : nb = c
        · have hlt := hrelax gc (by rw [hce]; exact hgc)
          obtain ⟨gc', ho, hle⟩ := o5 c (gcur + 1)
            (by rw [mapGet_cons, if_pos hce])
          exact ⟨gc', ho, by omega⟩
        · obtain ⟨gc', ho, hle⟩ := o5 c gc
            (by rw [mapGet_cons, if_neg hce]; exact hgc)
          exact ⟨gc', ho, hle⟩
    · have hnorel : ∃ gn, mapGet g nb = some gn ∧ gn ≤ gcur + 1 := by
        rcases hgn : mapGet g nb with _ | gn
        · rw [hgn] at hgrd
          exact absurd rfl hgrd
        · rw [hgn] at hgrd
          refine ⟨gn, rfl, ?_⟩
          by_contra hlt
          exact hgrd (decide_eq_true (by omega))
      obtain ⟨gn, hgn, hlegn⟩ := hnorel
      obtain ⟨o1, o2, o3, o4, o5⟩ := ih g f par pq
        (fun c hc => hl c (List.mem_cons_of_mem _ hc)) hcur
        ⟨hA, hB, hD, hP2, hSORT, hS, hE, hLEN, hK⟩ hnb
      refine ⟨o1, o2, o3, ?_, o5⟩
      intro c hc
      rcases List.mem_cons.1 hc with hc | hc
      · subst hc
        obtain ⟨gc', ho, hle⟩ := o5 c gn hgn
        exact ⟨gc', ho, by omega⟩
      · exact o4 c hc

theorem hcons_walk {P : Type} [LinearOrderedRing P] {m : Maze}
    {hfun : Coordinate → Coordinate → P}
    (hcons : ∀ a b, b ∈ m.getNeighbors a.row a.col →
      hfun a m.endCoord ≤ hfun b m.endCoord + 1) :
    ∀ (n : Nat) (a b : Coordinate), walkN m n a b = true →
      hfun a m.endCoord ≤ hfun b m.endCoord + (n : P) := by
  intro n
  induction n with
  | zero =>
    intro a b h
    rw [walkN_zero] at h
    subst h
    simp
  | succ k ih =>
    intro a b h
    rcases walkN_succ.1 h with ⟨c, hc, hw⟩
    have h1 := hcons a c hc
    have h2 := ih c b hw
    push_cast
    refine le_trans h1 ?_
    have h3 := add_le_add_right h2 (1 : P)
    refine le_trans h3 (le_of_eq ?_)
    abel

theorem frontier_bound {m : Maze} {g : CoordMap Int}
    {vis : List Coordinate}
    (hS : mapGet g m.start = some 0)
    (hnb : NbBound m vis g) :
    ∀ (n : Nat) (u : Coordinate), walkN m n m.start u = true →
      (∃ (y : Coordinate) (k : Nat) (gy : Int),
        k ≤ n ∧ walkN m (n - k) y u = true ∧ y ∉ vis ∧
        mapGet g y = some gy ∧ gy ≤ (k : Int)) ∨
      (u ∈ vis ∧ ∃ gu, mapGet g u = some gu ∧ gu ≤ (n : Int)) := by
  intro n
  induction n with
  | zero =>
    intro u h
    rw [walkN_zero] at h
    subst h
    by_cases hv : m.start ∈ vis
    · exact Or.inr ⟨hv, 0, hS, le_refl 0⟩
    · exact Or.inl ⟨m.start, 0, 0, le_refl 0, walkN_zero.2 rfl, hv, hS,
        le_refl 0⟩
  | succ nn ih =>
    intro u h
    obtain ⟨w, hw, hu⟩ := walkN_last_step h
    rcases ih w hw with ⟨y, k, gy, hk, hsuf, hyv, hgy, hle⟩ |
      ⟨hwv, gw, hgw, hgwle⟩
    · refine Or.inl ⟨y, k, gy, Nat.le_succ_of_le hk, ?_, hyv, hgy, hle⟩
      have hnk : nn + 1 - k = (nn - k) + 1 := by omega
      rw [hnk]
      exact walkN_snoc hsuf hu
    · obtain ⟨gu, gw2, hgu, hgw2, hle2⟩ := hnb w hwv u hu
      rw [hgw] at hgw2
      injection hgw2 with he
      by_cases huv : u ∈ vis
      · refine Or.inr ⟨huv, gu, hgu, ?_⟩
        push_cast
        omega
      · refine Or.inl ⟨u, nn + 1, gu, le_refl _, ?_, huv, hgu, ?_⟩
        · rw [Nat.sub_self]
          exact walkN_zero.2 rfl
        · push_cast
          omega

theorem astar_dequeue_exact {P : Type} [LinearOrderedRing P]
    {m : Maze} {hfun : Coordinate → Coordinate → P}
    (hcons : ∀ a b, b ∈ m.getNeighbors a.row a.col →
      hfun a m.endCoord ≤ hfun b m.endCoord + 1)
    {vis : List Coordinate} {g : CoordMap Int} {par : ParentMap}
    {pq : PriorityQueue Coordinate P} {current : Coordinate} {prc : P}
    {restPQ : List (Coordinate × P)}
    (hinv : AstarInv m hfun vis g par pq)
    (hnbB : NbBound m vis g)
    (hpq : pq.values = (current, prc) :: restPQ)
    (hvis : current ∉ vis) :
    ∃ dc : Nat, DistTo m m.start current dc ∧
      mapGet g current = some ((dc : Nat) : Int) := by
  obtain ⟨hA, hB, hD, hP2, hSORT, hS, hE, hLEN, hK⟩ := hinv
  obtain ⟨gc, hgc, hlehead⟩ := hP2 (current, prc)
    (by rw [hpq]; exact List.mem_cons_self _ _)
  obtain ⟨n, hwn, hn⟩ := hB current gc hgc
  obtain ⟨D, hDD⟩ := distTo_exists ⟨n, hwn⟩
  have hDn : D ≤ n := hDD.2 n hwn
  rcases frontier_bound hS hnbB D current hDD.1 with
    ⟨y, k, gy, hk, hsuf, hyv, hgy, hgyk⟩ | ⟨hcv, -⟩
  · by_cases hyc : y = current
    · subst hyc
      rw [hgc] at hgy
      injection hgy with he
      refine ⟨D, hDD, ?_⟩
      rw [hgc]
      congr 1
      omega
    · obtain ⟨pry, hmemy, hpry⟩ := hD y gy hgy hyv
      rw [hpq] at hmemy
      have hs2 := hSORT
      rw [hpq] at hs2
      have hprc : prc ≤ pry := by
        rcases List.mem_cons.1 hmemy with hh | hh
        · exfalso
          exact hyc (congrArg Prod.fst hh)
        · exact (List.pairwise_cons.1 hs2).1 (y, pry) hh
      have htel := hcons_walk hcons (D - k) y current hsuf
      have hchain : (gc : P) + hfun current m.endCoord ≤
          ((k : Int) : P) + (hfun current m.endCoord + ((D - k : Nat) : P)) := by
        calc (gc : P) + hfun current m.endCoord ≤ prc := hlehead
          _ ≤ pry := hprc
          _ = (gy : P) + hfun y m.endCoord := hpry
          _ ≤ ((k : Int) : P) + hfun y m.endCoord :=
            add_le_add_right (Int.cast_le.2 hgyk) _
          _ ≤ ((k : Int) : P) +
              (hfun current m.endCoord + ((D - k : Nat) : P)) :=
            add_le_add_left htel _
      have hre : ((k : Int) : P) +
          (hfun current m.endCoord + ((D - k : Nat) : P)) =
          (((k : Int) : P) + ((D - k : Nat) : P)) + hfun current m.endCoord := by
        abel
      rw [hre] at hchain
      have h2 : (gc : P) ≤ ((k : Int) : P) + ((D - k : Nat) : P) :=
        (add_le_add_iff_right _).1 hchain
      have h3 : ((k : Int) : P) + ((D - k : Nat) : P) = ((D : Int) : P) := by
        push_cast [Nat.cast_sub hk]
        abel
      rw [h3] at h2
      have hfin : gc ≤ (D : Int) := Int.cast_le.1 h2
      refine ⟨D, hDD, ?_⟩
      rw [hgc]
      congr 1
      omega
  · exact absurd hcv hvis

theorem astarLoop_optimal {P : Type} [LinearOrderedRing P]
    (hfun : Coordinate → Coordinate → P) (heurName : String) (m : Maze)
    (hcons : ∀ a b, b ∈ m.getNeighbors a.row a.col →
      hfun a m.endCoord ≤ hfun b m.endCoord + 1) :
    ∀ (fuel : Nat) (st : AstarState P), st.maze = m →
      AstarInv m hfun st.visited st.gScore st.parent st.pq →
      NbBound m st.visited st.gScore →
      ∀ r mz p,
        PathfindingAlgorithms.astarLoop hfun heurName fuel st = some (r, mz) →
        r.path = some p →
        ∃ d, DistTo m m.start m.endCoord d ∧ p.length = d + 1 := by
  intro fuel
  induction fuel with
  | zero =>
    intro st hmz hinv hnbB r mz p h hp
    rw [PathfindingAlgorithms.astarLoop] at h
    cases h
  | succ k ih =>
    intro st hmz hinv hnbB r mz p h hp
    rw [PathfindingAlgorithms.astarLoop] at h
    rw [hmz] at h
    rcases hfrv : st.pq.values with _ | ⟨⟨current, pri⟩, restPQ⟩ <;>
      rw [hfrv] at h
    · dsimp only at h
      simp only [Option.some.injEq, Prod.mk.injEq] at h
      rw [← h.1] at hp
      cases hp
    · dsimp only at h
      split_ifs at h with hvis hend
      · obtain ⟨hA, hB, hD', hP2, hSORT, hS, hE, hLEN, hK⟩ := hinv
        refine ih { maze := m, gScore := st.gScore, fScore := st.fScore,
                    parent := st.parent, visited := st.visited,
                    pq := ⟨restPQ⟩, nodesExplored := st.nodesExplored } rfl
          ⟨hA, hB, ?_, ?_, ?_, hS, hE, hLEN, hK⟩ hnbB r mz p h hp
        · intro c gc hgc hcv
          obtain ⟨pr, hmem, hpr⟩ := hD' c gc hgc hcv
          rw [hfrv] at hmem
          rcases List.mem_cons.1 hmem with hh | hh
          · exfalso
            apply hcv
            have hceq : c = current := congrArg Prod.fst hh
            rw [hceq]
            exact hvis
          · exact ⟨pr, hh, hpr⟩
        · intro cp hcp
          exact hP2 cp (hfrv ▸ List.mem_cons_of_mem _ hcp)
        · rw [hfrv] at hSORT
          exact (List.pairwise_cons.1 hSORT).2
      · obtain ⟨D, hDD, hgD⟩ := astar_dequeue_exact hcons hinv hnbB hfrv hvis
        simp only [Option.some.injEq, Prod.mk.injEq] at h
        rw [← h.1] at hp
        simp at hp
        subst hp
        subst hend
        obtain ⟨hA, hB, hD', hP2, hSORT, hS, hE, hLEN, hK⟩ := hinv
        refine ⟨D, hDD, ?_⟩
        rw [PathfindingAlgorithms.reconstructPath]
        rw [reconstructGo_len st.parent m.start
          (fun c => ((mapGet st.gScore c).getD 0).toNat)
          (fun c => ((mapGet st.gScore c).getD 0).toNat)
          ?hrk ?hrt ?hst ?hz0 _ _ [] ?hfl ?hky]
        case hrk =>
          intro k2 v hkv
          obtain ⟨-, -, gk, gv, hgk, hgv, hstep⟩ := hE k2 v hkv
          obtain ⟨nv, -, hnv⟩ := hB v gv hgv
          show ((mapGet st.gScore v).getD 0).toNat <
            ((mapGet st.gScore k2).getD 0).toNat
          rw [hgk, hgv]
          simp only [Option.getD_some]
          omega
        case hrt =>
          intro k2 v hkv
          obtain ⟨-, -, gk, gv, hgk, hgv, -⟩ := hE k2 v hkv
          exact hK v gv hgv
        case hst =>
          intro k2 v hkv
          obtain ⟨-, -, gk, gv, hgk, hgv, hstep⟩ := hE k2 v hkv
          obtain ⟨nv, -, hnv⟩ := hB v gv hgv
          show ((mapGet st.gScore k2).getD 0).toNat =
            ((mapGet st.gScore v).getD 0).toNat + 1
          rw [hgk, hgv]
          simp only [Option.getD_some]
          omega
        case hz0 =>
          show ((mapGet st.gScore m.start).getD 0).toNat = 0
          rw [hS]
          rfl
        case hfl =>
          show ((mapGet st.gScore m.endCoord).getD 0).toNat < st.parent.length + 1
          rw [hgD]
          simp only [Option.getD_some]
          have := hLEN m.endCoord _ hgD
          omega
        case hky => exact hK m.endCoord _ hgD
        show ((mapGet st.gScore m.endCoord).getD 0).toNat + 1 +
          ([] : List Coordinate).length = D + 1
        rw [hgD]
        simp
      · obtain ⟨D, hDD, hgD⟩ := astar_dequeue_exact hcons hinv hnbB hfrv hvis
        rw [hgD] at h
        simp only [Option.getD_some] at h
        obtain ⟨hA, hB, hD', hP2, hSORT, hS, hE, hLEN, hK⟩ := hinv
        have hinv1 : AstarInv m hfun (current :: st.visited) st.gScore
            st.parent ⟨restPQ⟩ := by
          refine ⟨?_, hB, ?_, ?_, ?_, hS, ?_, hLEN, hK⟩
          · intro c hc
            rcases List.mem_cons.1 hc with rfl | hc'
            · exact ⟨D, hDD, hgD⟩
            · exact hA c hc'
          · intro c gc hgc hcv
            have hcv' : c ∉ st.visited :=
              fun hh => hcv (List.mem_cons_of_mem _ hh)
            have hcne : c ≠ current :=
              fun hh => hcv (by rw [hh]; exact List.mem_cons_self _ _)
            obtain ⟨pr, hmem, hpr⟩ := hD' c gc hgc hcv'
            rw [hfrv] at hmem
            rcases List.mem_cons.1 hmem with hh | hh
            · exact absurd (congrArg Prod.fst hh) hcne
            · exact ⟨pr, hh, hpr⟩
          · intro cp hcp
            exact hP2 cp (hfrv ▸ List.mem_cons_of_mem _ hcp)
          · rw [hfrv] at hSORT
            exact (List.pairwise_cons.1 hSORT).2
          · intro k2 v hkv
            obtain ⟨hv, he2, rest⟩ := hE k2 v hkv
            exact ⟨List.mem_cons_of_mem _ hv, he2, rest⟩
        obtain ⟨o1, o2, o3, o4, o5⟩ := astarRelaxFold_opt
          (m.getNeighbors current.row current.col) st.gScore st.fScore
          st.parent ⟨restPQ⟩ (fun c hc => hc) hgD hinv1 hnbB
        have hnb2 : NbBound m (current :: st.visited)
            (astarRelaxFold hfun m.endCoord current ((D : Nat) : Int)
              (st.gScore, st.fScore, st.parent, ⟨restPQ⟩)
              (m.getNeighbors current.row current.col)).1 := by
          intro u hu nb hnbm
          rcases List.mem_cons.1 hu with rfl | hu'
          · obtain ⟨gnb, ho, hle⟩ := o4 nb hnbm
            exact ⟨gnb, ((D : Nat) : Int), ho, o1, by omega⟩
          · exact o3 u hu' nb hnbm
        exact ih _ rfl o2 hnb2 r mz p h hp

theorem astarInv_init {P : Type} [LinearOrderedRing P] (m : Maze)
    (hfun : Coordinate → Coordinate → P) :
    AstarInv m hfun [] [(m.start, 0)] []
      ⟨[(m.start, hfun m.start m.endCoord)]⟩ := by
  refine ⟨fun c hc => absurd hc (List.not_mem_nil c), ?_, ?_, ?_,
    List.pairwise_singleton _ _, ?_, ?_, ?_, ?_⟩
  · intro c gc hgc
    rw [mapGet_cons] at hgc
    split_ifs at hgc with hce
    · injection hgc with h1
      refine ⟨0, ?_, ?_⟩
      · rw [walkN_zero]
        exact hce
      · rw [← h1]
        rfl
    · exact Option.noConfusion hgc
  · intro c gc hgc hcv
    rw [mapGet_cons] at hgc
    split_ifs at hgc with hce
    · injection hgc with h1
      refine ⟨hfun m.start m.endCoord, ?_, ?_⟩
      · show _ ∈ [(m.start, hfun m.start m.endCoord)]
        rw [← hce]
        exact List.mem_singleton_self _
      · rw [← hce, ← h1]
        simp
    · exact Option.noConfusion hgc
  · intro cp hcp
    rcases List.mem_singleton.1 hcp with rfl
    refine ⟨0, ?_, ?_⟩
    · rw [mapGet_cons, if_pos rfl]
    · simp
  · rw [mapGet_cons, if_pos rfl]
  · intro k v hkv
    exact Option.noConfusion hkv
  · intro k gk hgk
    rw [mapGet_cons] at hgk
    split_ifs at hgk with hce
    · injection hgk with h1
      rw [← h1]
      exact Nat.le_refl 0
    · exact Option.noConfusion hgk
  · intro c gc hgc
    rw [mapGet_cons] at hgc
    split_ifs at hgc with hce
    · exact Or.inl hce.symm
    · exact Option.noConfusion hgc

theorem astar_optimal {P : Type} [LinearOrderedRing P]
    (hfun : Coordinate → Coordinate → P) (heurName : String) (m : Maze)
    (hcons : ∀ a b, b ∈ m.getNeighbors a.row a.col →
      hfun a m.endCoord ≤ hfun b m.endCoord + 1) :
    ∀ r mz p, PathfindingAlgorithms.astar hfun heurName m = some (r, mz) →
      r.path = some p →
      ∃ d, DistTo m m.start m.endCoord d ∧ p.length = d + 1 := by
  intro r mz p h hp
  exact astarLoop_optimal hfun heurName m hcons _ _ rfl
    (astarInv_init m hfun) (fun u hu => absurd hu (List.not_mem_nil u))
    r mz p h hp

theorem relaxFold_eq_astar {goal current : Coordinate} {dcur : Int} :
    ∀ (l : List Coordinate) (g : CoordMap Int) (f : CoordMap Int)
      (par : ParentMap) (pqI pqA : PriorityQueue Coordinate Int),
      pqI.values = pqA.values →
      (relaxFold current dcur (g, par, pqI) l).1 =
        (astarRelaxFold (fun _ _ => (0 : Int)) goal current dcur
          (g, f, par, pqA) l).1 ∧
      (relaxFold current dcur (g, par, pqI) l).2.1 =
        (astarRelaxFold (fun _ _ => (0 : Int)) goal current dcur
          (g, f, par, pqA) l).2.2.1 ∧
      (relaxFold current dcur (g, par, pqI) l).2.2.values =
        (astarRelaxFold (fun _ _ => (0 : Int)) goal current dcur
          (g, f, par, pqA) l).2.2.2.values := by
  intro l
  induction l with
  | nil =>
    intro g f par pqI pqA hpq
    exact ⟨rfl, rfl, hpq⟩
  | cons nb tl ih =>
    intro g f par pqI pqA hpq
    rw [relaxFold_cons, astarRelaxFold_cons]
    split_ifs with hgrd
    · refine ih _ _ _ _ _ ?_
      show insertByPriority pqI.values (nb, dcur + 1) =
        insertByPriority pqA.values _
      rw [hpq]
      congr 1
      rw [mapGet_cons, if_pos rfl]
      simp
    · exact ih _ _ _ _ _ hpq

theorem dijkstraLoop_eq (heurName : String) :
    ∀ (fuel : Nat) (stI : DijkstraState) (stA : AstarState Int),
      stI.maze = stA.maze → stI.distances = stA.gScore →
      stI.parent = stA.parent → stI.visited = stA.visited →
      stI.pq.values = stA.pq.values →
      (PathfindingAlgorithms.dijkstraLoop fuel stI).map
          (fun rm => (rm.1.path, rm.2)) =
        (PathfindingAlgorithms.astarLoop (fun _ _ => (0 : Int)) heurName
          fuel stA).map (fun rm => (rm.1.path, rm.2)) := by
  intro fuel
  induction fuel with
  | zero =>
    intro stI stA h1 h2 h3 h4 h5
    rfl
  | succ k ih =>
    intro stI stA h1 h2 h3 h4 h5
    rw [PathfindingAlgorithms.dijkstraLoop, PathfindingAlgorithms.astarLoop]
    rcases hfr : stI.pq.values with _ | ⟨⟨current, pri⟩, restPQ⟩
    · have hfr2 : stA.pq.values = [] := by
        rw [← h5]
        exact hfr
      rw [hfr2]
      dsimp only
      rw [h1]
      rfl
    · have hfr2 : stA.pq.values = (current, pri) :: restPQ := by
        rw [← h5]
        exact hfr
      rw [hfr2]
      dsimp only
      rw [h1, h2, h3, h4]
      by_cases hvis : current ∈ stA.visited
      · rw [if_pos hvis, if_pos hvis]
        exact ih _ _ rfl rfl rfl rfl rfl
      · rw [if_neg hvis, if_neg hvis]
        by_cases hend : current = stA.maze.endCoord
        · rw [if_pos hend, if_pos hend]
          rfl
        · rw [if_neg hend, if_neg hend]
          obtain ⟨e1, e2, e3⟩ := relaxFold_eq_astar
            (stA.maze.getNeighbors current.row current.col) stA.gScore
            stA.fScore stA.parent ⟨restPQ⟩ ⟨restPQ⟩ rfl
          exact ih _ _ rfl e1 e2 rfl e3

theorem dijkstra_optimal (m : Maze) :
    ∀ r mz p, PathfindingAlgorithms.dijkstra m = some (r, mz) →
      r.path = some p →
      ∃ d, DistTo m m.start m.endCoord d ∧ p.length = d + 1 := by
  intro r mz p h hp
  have hbi := dijkstraLoop_eq "manhattan" (5 * cellCount m + 7)
    { maze := m, distances := [(m.start, 0)], parent := [], visited := [],
      pq := ⟨[(m.start, 0)]⟩, nodesExplored := 0 }
    { maze := m, gScore := [(m.start, 0)], fScore := [(m.start, 0)],
      parent := [], visited := [], pq := ⟨[(m.start, 0)]⟩,
      nodesExplored := 0 }
    rfl rfl rfl rfl rfl
  rw [PathfindingAlgorithms.dijkstra] at h
  rw [h] at hbi
  rcases ha : PathfindingAlgorithms.astarLoop (fun _ _ => (0 : Int))
      "manhattan" (5 * cellCount m + 7)
      { maze := m, gScore := [(m.start, 0)], fScore := [(m.start, 0)],
        parent := [], visited := [], pq := ⟨[(m.start, 0)]⟩,
        nodesExplored := 0 } with _ | ⟨r2, mz2⟩
  · rw [ha] at hbi
    simp at hbi
  · rw [ha] at hbi
    simp only [Option.map_some', Option.some.injEq, Prod.mk.injEq] at hbi
    obtain ⟨d, hd, hl⟩ := astarLoop_optimal (fun _ _ => (0 : Int)) "manhattan"
      m (fun a b hab => by norm_num) (5 * cellCount m + 7) _ rfl
      (astarInv_init m _) (fun u hu => absurd hu (List.not_mem_nil u))
      r2 mz2 p ha (by rw [← hbi.1]; exact hp)
    exact ⟨d, hd, hl⟩

theorem manhattan_adj (a b e : Coordinate) (h : Adjacent a b) :
    PathfindingAlgorithms.manhattanDistance a e ≤
      PathfindingAlgorithms.manhattanDistance b e + 1 := by
  rw [PathfindingAlgorithms.manhattanDistance,
    PathfindingAlgorithms.manhattanDistance]
  rcases h with ⟨h1, h2⟩ | ⟨h1, h2⟩
  · have habs := abs_sub_le a.row b.row e.row
    rw [h1] at habs
    rw [h2]
    linarith
  · have habs := abs_sub_le a.col b.col e.col
    rw [h2] at habs
    rw [h1]
    linarith

theorem sqrt_step (x y t : ℝ) (ht : |t| = 1) :
    Real.sqrt ((x + t) ^ 2 + y ^ 2) ≤ Real.sqrt (x ^ 2 + y ^ 2) + 1 := by
  have hS : (0 : ℝ) ≤ x ^ 2 + y ^ 2 := by positivity
  have hsq : Real.sqrt (x ^ 2 + y ^ 2) ^ 2 = x ^ 2 + y ^ 2 := Real.sq_sqrt hS
  have hxle : x * t ≤ Real.sqrt (x ^ 2 + y ^ 2) := by
    have h1 : x * t ≤ |x * t| := le_abs_self _
    have h2 : |x * t| = |x| := by rw [abs_mul, ht, mul_one]
    have h3 : |x| = Real.sqrt (x ^ 2) := (Real.sqrt_sq_eq_abs x).symm
    have h4 : Real.sqrt (x ^ 2) ≤ Real.sqrt (x ^ 2 + y ^ 2) :=
      Real.sqrt_le_sqrt (by nlinarith)
    linarith
  have ht2 : t ^ 2 = 1 := by
    rw [← sq_abs, ht]
    norm_num
  have hs0 : 0 ≤ Real.sqrt (x ^ 2 + y ^ 2) := Real.sqrt_nonneg _
  have hexp : (x + t) ^ 2 + y ^ 2 ≤ (Real.sqrt (x ^ 2 + y ^ 2) + 1) ^ 2 := by
    nlinarith [hxle, hsq, ht2]
  calc Real.sqrt ((x + t) ^ 2 + y ^ 2)
      ≤ Real.sqrt ((Real.sqrt (x ^ 2 + y ^ 2) + 1) ^ 2) :=
        Real.sqrt_le_sqrt hexp
    _ = |Real.sqrt (x ^ 2 + y ^ 2) + 1| := Real.sqrt_sq_eq_abs _
    _ = Real.sqrt (x ^ 2 + y ^ 2) + 1 := abs_of_nonneg (by positivity)

theorem euclidean_adj (a b e : Coordinate) (h : Adjacent a b) :
    PathfindingAlgorithms.euclideanDistance a e ≤
      PathfindingAlgorithms.euclideanDistance b e + 1 := by
  rw [PathfindingAlgorithms.euclideanDistance,
    PathfindingAlgorithms.euclideanDistance]
  rcases h with ⟨h1, h2⟩ | ⟨h1, h2⟩
  · have ht : |((a.row - b.row : Int) : ℝ)| = 1 := by
      rw [← Int.cast_abs, h1]
      norm_num
    have hx : ((a.row - e.row : Int) : ℝ) =
        ((b.row - e.row : Int) : ℝ) + ((a.row - b.row : Int) : ℝ) := by
      push_cast
      ring
    have hy : ((a.col - e.col : Int) : ℝ) = ((b.col - e.col : Int) : ℝ) := by
      rw [h2]
    rw [hx, hy]
    exact sqrt_step _ _ _ ht
  · have ht : |((a.col - b.col : Int) : ℝ)| = 1 := by
      rw [← Int.cast_abs, h2]
      norm_num
    have hx : ((a.col - e.col : Int) : ℝ) =
        ((b.col - e.col : Int) : ℝ) + ((a.col - b.col : Int) : ℝ) := by
      push_cast
      ring
    have hy : ((a.row - e.row : Int) : ℝ) = ((b.row - e.row : Int) : ℝ) := by
      rw [h1]
    rw [hx, hy]
    have hcomm1 : ((b.row - e.row : Int) : ℝ) ^ 2 +
        (((b.col - e.col : Int) : ℝ) + ((a.col - b.col : Int) : ℝ)) ^ 2 =
        (((b.col - e.col : Int) : ℝ) + ((a.col - b.col : Int) : ℝ)) ^ 2 +
          ((b.row - e.row : Int) : ℝ) ^ 2 := by ring
    have hcomm2 : ((b.row - e.row : Int) : ℝ) ^ 2 +
        ((b.col - e.col : Int) : ℝ) ^ 2 =
        ((b.col - e.col : Int) : ℝ) ^ 2 + ((b.row - e.row : Int) : ℝ) ^ 2 := by
      ring
    rw [hcomm1, hcomm2]
    exact sqrt_step _ _ _ ht

theorem manhattan_consistent (m : Maze) :
    ∀ a b, b ∈ m.getNeighbors a.row a.col →
      PathfindingAlgorithms.manhattanDistance a m.endCoord ≤
        PathfindingAlgorithms.manhattanDistance b m.endCoord + 1 :=
  fun a b hb => manhattan_adj a b m.endCoord (adjacent_of_mem_getNeighbors hb)

theorem manhattanR_consistent (m : Maze) :
    ∀ a b, b ∈ m.getNeighbors a.row a.col →
      ((PathfindingAlgorithms.manhattanDistance a m.endCoord : Int) : ℝ) ≤
        ((PathfindingAlgorithms.manhattanDistance b m.endCoord : Int) : ℝ) + 1 := by
  intro a b hb
  have := manhattan_consistent m a b hb
  push_cast
  exact_mod_cast (by exact_mod_cast this :
    ((PathfindingAlgorithms.manhattanDistance a m.endCoord : Int) : ℝ) ≤
      (((PathfindingAlgorithms.manhattanDistance b m.endCoord + 1 : Int)) : ℝ))

theorem heuristicFuncOf_consistent (m : Maze) (sel : String) :
    ∀ a b, b ∈ m.getNeighbors a.row a.col →
      PathfindingAlgorithms.heuristicFuncOf sel a m.endCoord ≤
        PathfindingAlgorithms.heuristicFuncOf sel b m.endCoord + 1 := by
  intro a b hb
  rw [PathfindingAlgorithms.heuristicFuncOf]
  split_ifs
  · exact euclidean_adj a b m.endCoord (adjacent_of_mem_getNeighbors hb)
  · exact manhattanR_consistent m a b hb

/-- A 7×7 maze on which A* with an admissible (but inconsistent) heuristic
returns a suboptimal path: the true start-goal distance is 8, the returned
path has 11 cells (10 steps). -/
def cexAstarMaze : Maze :=
  { rows := 7, cols := 7,
    grid := [[some 1, some 1, some 1, some 1, some 1, some 1, some 1],
             [some 1, some 0, some 0, some 0, some 1, some 0, some 1],
             [some 1, some 0, some 1, some 0, some 0, some 0, some 1],
             [some 1, some 0, some 0, some 0, some 1, some 0, some 1],
             [some 1, some 1, some 1, some 1, some 0, some 0, some 1],
             [some 1, some 0, some 1, some 1, some 0, some 0, some 1],
             [some 1, some 1, some 1, some 1, some 1, some 1, some 1]],
    start := ⟨1, 1⟩, endCoord := ⟨5, 5⟩ }

/-- The admissible heuristic for the counterexample: `6` at cell `(1,2)`
(whose true distance to the goal is `9 ≥ 6`) and `0` everywhere else.  It is
not consistent: it drops by `6 > 1` over the edge `(1,2)–(1,1)`. -/
def cexAdmHeur (a b : Coordinate) : Int := if a = ⟨1, 2⟩ then 6 else 0

/-- C1 counterexample: the heuristic `cexAdmHeur` is admissible on
`cexAstarMaze` (`0 ≤ h(c) ≤` the true distance from `c` to the goal, for
every cell from which the goal is reachable), the true start-goal distance is
8, yet `astar` run with it returns a path of 11 cells — `path.length - 1 =
10 ≠ 8`.  Admissibility alone therefore does not make this `astar` (which
never re-expands a visited node) optimal; consistency is required. -/
theorem C1_counterexample :
    (∀ c (du : Nat), DistTo cexAstarMaze c cexAstarMaze.endCoord du →
      0 ≤ cexAdmHeur c cexAstarMaze.endCoord ∧
        cexAdmHeur c cexAstarMaze.endCoord ≤ (du : Int)) ∧
    IsShortest cexAstarMaze 8 ∧
    (PathfindingAlgorithms.astar cexAdmHeur "admissible" cexAstarMaze).map
      (fun rm => rm.1.path.map List.length) = some (some 11) := by
  refine ⟨?_, ⟨by decide, ?_⟩, by decide⟩
  · intro c du hdu
    by_cases hc : c = ⟨1, 2⟩
    · subst hc
      simp only [cexAdmHeur, if_pos rfl]
      refine ⟨by norm_num, ?_⟩
      by_contra hlt
      push_neg at hlt
      have hdu6 : du < 6 := by exact_mod_cast hlt
      have hw := hdu.1
      interval_cases du <;> exact absurd hw (by decide)
    · simp only [cexAdmHeur, if_neg hc]
      exact ⟨le_refl 0, Int.natCast_nonneg du⟩
  · intro k hk
    by_contra hlt
    push_neg at hlt
    interval_cases k <;> exact absurd hk (by decide)

/-- C1 (amended): on every maze whose walkable subgraph connects start and
goal, BFS, Dijkstra, A* with any heuristic that is consistent toward the goal
(one unit per step) — in particular with either of the two heuristics the
engine ships, under every JS selector string — and Bidirectional BFS each
return a Result carrying a path with `length - 1` equal to the true
shortest-path distance `d`.  For A* the consistency hypothesis cannot be
weakened to admissibility (`C1_counterexample`). -/
theorem C1_optimality (m : Maze) (hwr : WalkableRoute m) (d : Nat)
    (hd : IsShortest m d) :
    (∃ r mz, PathfindingAlgorithms.bfs m = some (r, mz) ∧
      ∃ p, r.path = some p ∧ p.length - 1 = d) ∧
    (∃ r mz, PathfindingAlgorithms.dijkstra m = some (r, mz) ∧
      ∃ p, r.path = some p ∧ p.length - 1 = d) ∧
    (∀ (P : Type) [inst : LinearOrderedRing P]
      (hfun : Coordinate → Coordinate → P) (heurName : String),
      (∀ a b, b ∈ m.getNeighbors a.row a.col →
        hfun a m.endCoord ≤ hfun b m.endCoord + 1) →
      ∃ r mz, PathfindingAlgorithms.astar hfun heurName m = some (r, mz) ∧
        ∃ p, r.path = some p ∧ p.length - 1 = d) ∧
    (∀ heuristic : String,
      ∃ r mz, PathfindingAlgorithms.astarJS m heuristic = some (r, mz) ∧
        ∃ p, r.path = some p ∧ p.length - 1 = d) ∧
    (∃ r mz, PathfindingAlgorithms.bidirectional m = some (r, mz) ∧
      ∃ p, r.path = some p ∧ p.length - 1 = d) := by
  have hs : isWalkableCell m m.start = true := hwr.1
  have hdDist : DistTo m m.start m.endCoord d := hd
  have hreach : Reachable m m.start m.endCoord := ⟨d, hd.1⟩
  have he : isWalkableCell m m.endCoord = true := by
    rcases hdd : d with _ | d'
    · rw [hdd] at hdDist
      rw [← distTo_zero hdDist]
      exact hs
    · rw [hdd] at hd
      exact walkN_walkable_last hd.1
  have hsb : InBounds m m.start := inBounds_of_walkable hs
  have heb : InBounds m m.endCoord := inBounds_of_walkable he
  have hrs : Reachable m m.start m.start := ⟨0, walkN_zero.2 rfl⟩
  have hrcheb : Reachable m m.endCoord m.endCoord := ⟨0, walkN_zero.2 rfl⟩
  have hsingle : ∀ root : Coordinate, ([root] : List Coordinate).Nodup :=
    fun root => List.nodup_singleton root
  have hfix : ∀ d', DistTo m m.start m.endCoord d' → d' = d :=
    fun d' h' => distTo_unique h' hdDist
  have hastar : ∀ (P : Type) [inst : LinearOrderedRing P]
      (hfun : Coordinate → Coordinate → P) (heurName : String),
      (∀ a b, b ∈ m.getNeighbors a.row a.col →
        hfun a m.endCoord ≤ hfun b m.endCoord + 1) →
      ∃ r mz, PathfindingAlgorithms.astar hfun heurName m = some (r, mz) ∧
        ∃ p, r.path = some p ∧ p.length - 1 = d := by
    intro P inst hfun heurName hcons
    obtain ⟨r, mz, hrun, hiff⟩ := astarLoop_complete hfun heurName m
      (5 * cellCount m + 7)
      { maze := m, gScore := [(m.start, 0)],
        fScore := [(m.start, hfun m.start m.endCoord)], parent := [],
        visited := [], pq := ⟨[(m.start, hfun m.start m.endCoord)]⟩,
        nodesExplored := 0 } rfl
      (by intro e heq
          rcases List.mem_singleton.1 heq with rfl
          rw [mapGet_cons, if_pos rfl]
          rfl)
      (by intro e heq
          rcases List.mem_singleton.1 heq with rfl
          exact hrs)
      (by intro e heq
          rcases List.mem_singleton.1 heq with rfl
          exact hsb)
      (by intro kk hk
          rw [mapGet_cons] at hk
          split_ifs at hk with hkk
          · exact Or.inr ⟨(m.start, hfun m.start m.endCoord),
              List.mem_singleton.2 rfl, hkk⟩
          · cases hk)
      List.nodup_nil
      (fun c hc => absurd hc (List.not_mem_nil c))
      (fun c hc => absurd hc (List.not_mem_nil c))
      (List.not_mem_nil m.endCoord)
      (fun c hc => absurd hc (List.not_mem_nil c))
      (by rw [mapGet_cons, if_pos rfl]; rfl)
      (by show 5 * (cellCount m + 1 - 0) + 1 < 5 * cellCount m + 7
          omega)
    have hne : r.path ≠ none := hiff.2 hreach
    obtain ⟨p, hp⟩ := Option.ne_none_iff_exists'.1 hne
    obtain ⟨d', hd', hl⟩ := astar_optimal hfun heurName m hcons r mz p hrun hp
    refine ⟨r, mz, hrun, p, hp, ?_⟩
    have := hfix d' hd'
    omega
  refine ⟨?_, ?_, hastar, ?_, ?_⟩
  · obtain ⟨r, mz, hrun, hiff⟩ := bfsLoop_complete m (2 * cellCount m + 4)
      { maze := m, frontier := [m.start], visited := [m.start], parent := [],
        nodesExplored := 0 } rfl
      (fun c hc => hc) (hsingle m.start)
      (by intro c hc
          rcases List.mem_singleton.1 hc with rfl
          exact hsb)
      (by intro c hc
          rcases List.mem_singleton.1 hc with rfl
          exact hrs)
      (fun h => h)
      (fun c hc => Or.inl hc)
      (List.mem_singleton.2 rfl)
      (by show 2 * (cellCount m - 1) + 1 < 2 * cellCount m + 4
          omega)
    have hne : r.path ≠ none := hiff.2 hreach
    obtain ⟨p, hp⟩ := Option.ne_none_iff_exists'.1 hne
    obtain ⟨d', hd', hl⟩ := bfs_optimal m hs r mz p hrun hp
    refine ⟨r, mz, hrun, p, hp, ?_⟩
    have := hfix d' hd'
    omega
  · obtain ⟨r, mz, hrun, hiff⟩ := dijkstraLoop_complete m
      (5 * cellCount m + 7)
      { maze := m, distances := [(m.start, 0)], parent := [], visited := [],
        pq := ⟨[(m.start, 0)]⟩, nodesExplored := 0 } rfl
      (by intro e heq
          rcases List.mem_singleton.1 heq with rfl
          rw [mapGet_cons, if_pos rfl]
          rfl)
      (by intro e heq
          rcases List.mem_singleton.1 heq with rfl
          exact hrs)
      (by intro e heq
          rcases List.mem_singleton.1 heq with rfl
          exact hsb)
      (by intro kk hk
          rw [mapGet_cons] at hk
          split_ifs at hk with hkk
          · exact Or.inr ⟨(m.start, 0), List.mem_singleton.2 rfl, hkk⟩
          · cases hk)
      List.nodup_nil
      (fun c hc => absurd hc (List.not_mem_nil c))
      (fun c hc => absurd hc (List.not_mem_nil c))
      (List.not_mem_nil m.endCoord)
      (fun c hc => absurd hc (List.not_mem_nil c))
      (by rw [mapGet_cons, if_pos rfl]; rfl)
      (by show 5 * (cellCount m + 1 - 0) + 1 < 5 * cellCount m + 7
          omega)
    have hne : r.path ≠ none := hiff.2 hreach
    obtain ⟨p, hp⟩ := Option.ne_none_iff_exists'.1 hne
    obtain ⟨d', hd', hl⟩ := dijkstra_optimal m r mz p hrun hp
    refine ⟨r, mz, hrun, p, hp, ?_⟩
    have := hfix d' hd'
    omega
  · intro heuristic
    rw [PathfindingAlgorithms.astarJS]
    exact hastar ℝ (PathfindingAlgorithms.heuristicFuncOf heuristic)
      heuristic (heuristicFuncOf_consistent m heuristic)
  · obtain ⟨r, mz, hrun, hiff⟩ := bidiLoop_complete m hs he
      (2 * cellCount m + 4)
      { maze := m, queueStart := [m.start], queueEnd := [m.endCoord],
        visitedStart := [m.start], visitedEnd := [m.endCoord],
        parentStart := [], parentEnd := [], nodesExplored := 0 } rfl
      (fun c hc => hc) (hsingle m.start)
      (by intro c hc
          rcases List.mem_singleton.1 hc with rfl
          exact hsb)
      (by intro c hc
          rcases List.mem_singleton.1 hc with rfl
          exact hrs)
      (fun c hc => Or.inl hc)
      (List.mem_singleton.2 rfl)
      (fun c hc => hc) (hsingle m.endCoord)
      (by intro c hc
          rcases List.mem_singleton.1 hc with rfl
          exact heb)
      (by intro c hc
          rcases List.mem_singleton.1 hc with rfl
          exact hrcheb)
      (fun c hc => Or.inl hc)
      (List.mem_singleton.2 rfl)
      (fun h => h) (fun h => h)
      (by show 2 * (cellCount m - 1) + 1 +
            (2 * (cellCount m - 1) + 1) < 2 * (2 * cellCount m + 4)
          omega)
    have hne : r.path ≠ none := hiff.2 hreach
    obtain ⟨p, hp⟩ := Option.ne_none_iff_exists'.1 hne
    obtain ⟨d', hd', hl⟩ := bidirectional_optimal m hs he r mz p hrun hp
    refine ⟨r, mz, hrun, p, hp, ?_⟩
    have := hfix d' hd'
    omega

theorem C1_optimality_witness :
    WalkableRoute wit3Maze ∧ IsShortest wit3Maze 2 ∧
    ((∃ r mz, PathfindingAlgorithms.bfs wit3Maze = some (r, mz) ∧
      ∃ p, r.path = some p ∧ p.length - 1 = 2) ∧
    (∃ r mz, PathfindingAlgorithms.dijkstra wit3Maze = some (r, mz) ∧
      ∃ p, r.path = some p ∧ p.length - 1 = 2) ∧
    (∀ (P : Type) [inst : LinearOrderedRing P]
      (hfun : Coordinate → Coordinate → P) (heurName : String),
      (∀ a b, b ∈ wit3Maze.getNeighbors a.row a.col →
        hfun a wit3Maze.endCoord ≤ hfun b wit3Maze.endCoord + 1) →
      ∃ r mz, PathfindingAlgorithms.astar hfun heurName wit3Maze =
          some (r, mz) ∧
        ∃ p, r.path = some p ∧ p.length - 1 = 2) ∧
    (∀ heuristic : String,
      ∃ r mz, PathfindingAlgorithms.astarJS wit3Maze heuristic =
          some (r, mz) ∧
        ∃ p, r.path = some p ∧ p.length - 1 = 2) ∧
    (∃ r mz, PathfindingAlgorithms.bidirectional wit3Maze = some (r, mz) ∧
      ∃ p, r.path = some p ∧ p.length - 1 = 2)) := by
  have hwr : WalkableRoute wit3Maze := ⟨by decide, ⟨2, by decide⟩⟩
  have hd : IsShortest wit3Maze 2 := by
    refine ⟨by decide, ?_⟩
    intro k hk
    by_contra hlt
    push_neg at hlt
    interval_cases k <;> exact absurd hk (by decide)
  exact ⟨hwr, hd, C1_optimality wit3Maze hwr 2 hd⟩
